import Mathlib

/-!
# Semantic analysis of Cool (`assignments/PA4/semant.cc`)

A shallow embedding of the semantic analyser: the class table and its
validation, the method environment, the conformance test `is_subclass`, the
join `cls_join`, and the typing rules of features and expressions.

Conventions of the embedding.

* A `Symbol` of the source is an interned string (a pointer into `idtable`);
  two symbols are equal exactly when their texts are equal, so a symbol is
  modelled by its text.
* `class_map` and `method_env` are `std::map`s; they are modelled by
  association lists with unique keys (`find` returns the entry of a key,
  `insert` leaves an existing key alone, `operator[]=` overwrites).
* Loops that follow parent links have no bound in the source.  Their models
  take a `fuel : Nat`, the number of iterations allowed, and answer `none`
  when the loop has not finished within the fuel.
* Diagnostics are written to a stream and counted; the model keeps the list of
  diagnostics, without file names and line numbers.
-/

namespace Cool

/-- A symbol of `idtable`, represented by its text. -/
abbrev Symbol := String

/-! ## Predefined symbols (`initialize_constants`) -/

def arg : Symbol := "arg"
def arg2 : Symbol := "arg2"
def Bool_ : Symbol := "Bool"
def concat : Symbol := "concat"
def cool_abort : Symbol := "abort"
def copy : Symbol := "copy"
def Int_ : Symbol := "Int"
def in_int : Symbol := "in_int"
def in_string : Symbol := "in_string"
def IO_ : Symbol := "IO"
def length : Symbol := "length"
def Main : Symbol := "Main"
def main_meth : Symbol := "main"
/-- The source says of this symbol: `_no_class` is a symbol that can't be the
name of any user-defined class. -/
def No_class : Symbol := "_no_class"
def No_type : Symbol := "_no_type"
def Object : Symbol := "Object"
def out_int : Symbol := "out_int"
def out_string : Symbol := "out_string"
def prim_slot : Symbol := "_prim_slot"
def self : Symbol := "self"
def SELF_TYPE : Symbol := "SELF_TYPE"
def Str : Symbol := "String"
def str_field : Symbol := "_str_field"
def substr : Symbol := "substr"
def type_name : Symbol := "type_name"
def val : Symbol := "_val"

/-! ## Abstract syntax

Every expression node owns a slot `type` for its inferred type, empty (`none`)
in the tree the parser hands over.  The grammar gives a block at least one
expression and a `case` at least one branch, so both carry their first element
apart from the rest. -/

/-- Expression nodes of `cool-tree`; the first field of every constructor is
the node's `type` slot. -/
inductive Expression where
  | assign (type : Option Symbol) (name : Symbol) (expr : Expression)
  | static_dispatch (type : Option Symbol) (expr : Expression) (type_name name : Symbol)
      (actual : List Expression)
  | dispatch (type : Option Symbol) (expr : Expression) (name : Symbol)
      (actual : List Expression)
  | cond (type : Option Symbol) (pred then_exp else_exp : Expression)
  | loop (type : Option Symbol) (pred body : Expression)
  | typcase (type : Option Symbol) (expr : Expression)
      (case0 : Symbol × Symbol × Expression) (cases : List (Symbol × Symbol × Expression))
  | block (type : Option Symbol) (body0 : Expression) (body : List Expression)
  | let_ (type : Option Symbol) (identifier type_decl : Symbol) (init body : Expression)
  | plus (type : Option Symbol) (e1 e2 : Expression)
  | sub (type : Option Symbol) (e1 e2 : Expression)
  | mul (type : Option Symbol) (e1 e2 : Expression)
  | divide (type : Option Symbol) (e1 e2 : Expression)
  | neg (type : Option Symbol) (e1 : Expression)
  | lt (type : Option Symbol) (e1 e2 : Expression)
  | eq (type : Option Symbol) (e1 e2 : Expression)
  | leq (type : Option Symbol) (e1 e2 : Expression)
  | comp (type : Option Symbol) (e1 : Expression)
  | int_const (type : Option Symbol) (token : Symbol)
  | bool_const (type : Option Symbol) (val : Bool)
  | string_const (type : Option Symbol) (token : Symbol)
  | new_ (type : Option Symbol) (type_name : Symbol)
  | isvoid (type : Option Symbol) (e1 : Expression)
  | no_expr (type : Option Symbol)
  | object (type : Option Symbol) (name : Symbol)
  deriving Repr

/-- A branch of a `case`: `name : type_decl => expr`. -/
abbrev Case := Symbol × Symbol × Expression

/-- A formal parameter `name : type_decl`. -/
structure Formal where
  name : Symbol
  type_decl : Symbol
  deriving DecidableEq, Repr

/-- An attribute `name : type_decl <- init`. -/
structure attr_class where
  name : Symbol
  type_decl : Symbol
  init : Expression

/-- A method `name(formals) : return_type { expr }`. -/
structure method_class where
  name : Symbol
  formals : List Formal
  return_type : Symbol
  expr : Expression

/-- A feature is an attribute or a method (the two `dynamic_cast` targets). -/
inductive Feature where
  | attr (a : attr_class)
  | method (m : method_class)

/-- A class `name inherits parent { features }`. -/
structure Class_ where
  name : Symbol
  parent : Symbol
  features : List Feature

/-! ## Diagnostics -/

/-- One constructor for each message of the source. -/
inductive SemantError where
  | redefinition_of_class (name : Symbol)
  | redefinition_of_SELF_TYPE
  | main_not_defined
  | parent_not_defined (parent : Symbol)
  | inherit_basic (parent : Symbol)
  | inheritance_cycle (parent : Symbol)
  | attribute_already_defined (name : Symbol)
  | self_attribute
  | attr_init_mismatch (t1 t0 : Symbol)
  | new_undefined (t : Symbol)
  | undeclared_identifier (name : Symbol)
  | assign_self
  | assign_undeclared (name : Symbol)
  | assign_mismatch (t' t name : Symbol)
  | static_dispatch_nonconforming (t0 t : Symbol)
  | dispatch_undefined_method (name : Symbol)
  | arg_mismatch (name t_actual f_name t_formal : Symbol)
  | wrong_number_of_parameters (name : Symbol)
  | if_pred_not_bool
  | loop_pred_not_bool
  | duplicate_branch (c_type : Symbol)
  | let_init_mismatch (t1 identifier : Symbol)
  | let_self
  | non_int_arguments (op t0 t1 : Symbol)
  | neg_non_int (t0 : Symbol)
  | illegal_basic_comparison
  | not_non_bool (t : Symbol)
  | method_multiply_defined (name : Symbol)
  | formal_self
  | formal_SELF_TYPE (f_name : Symbol)
  | formal_undefined_class (type_decl f_name : Symbol)
  | formal_multiply_defined (f_name : Symbol)
  | redefined_param_type (name type_decl original : Symbol)
  | redefined_wrong_number (name : Symbol)
  | return_type_mismatch (t0 return_type : Symbol)
  deriving DecidableEq, Repr

/-! ## The class table -/

/-- The global `class_map`. -/
abbrev ClassMap := List (Symbol × Class_)

/-- Models `class_map.find(k)`; `none` is `class_map.end()`. -/
def class_map_find : ClassMap → Symbol → Option Class_
  | [], _ => none
  | (k', v) :: rest, k => if k' = k then some v else class_map_find rest k

/-- Models `class_map.insert(std::make_pair(k, v))`: no effect when `k` is present. -/
def class_map_insert (cm : ClassMap) (k : Symbol) (v : Class_) : ClassMap :=
  match class_map_find cm k with
  | some _ => cm
  | none => cm ++ [(k, v)]

def Object_class : Class_ :=
  { name := Object, parent := No_class,
    features :=
      [ .method ⟨cool_abort, [], Object, .no_expr none⟩,
        .method ⟨type_name, [], Str, .no_expr none⟩,
        .method ⟨copy, [], SELF_TYPE, .no_expr none⟩ ] }

def IO_class : Class_ :=
  { name := IO_, parent := Object,
    features :=
      [ .method ⟨out_string, [⟨arg, Str⟩], SELF_TYPE, .no_expr none⟩,
        .method ⟨out_int, [⟨arg, Int_⟩], SELF_TYPE, .no_expr none⟩,
        .method ⟨in_string, [], Str, .no_expr none⟩,
        .method ⟨in_int, [], Int_, .no_expr none⟩ ] }

def Int_class : Class_ :=
  { name := Int_, parent := Object,
    features := [ .attr ⟨val, prim_slot, .no_expr none⟩ ] }

def Bool_class : Class_ :=
  { name := Bool_, parent := Object,
    features := [ .attr ⟨val, prim_slot, .no_expr none⟩ ] }

def Str_class : Class_ :=
  { name := Str, parent := Object,
    features :=
      [ .attr ⟨val, Int_, .no_expr none⟩,
        .attr ⟨str_field, prim_slot, .no_expr none⟩,
        .method ⟨length, [], Int_, .no_expr none⟩,
        .method ⟨concat, [⟨arg, Str⟩], Str, .no_expr none⟩,
        .method ⟨substr, [⟨arg, Int_⟩, ⟨arg2, Int_⟩], Str, .no_expr none⟩ ] }

/-- Models `ClassTable::install_basic_classes`, on the empty `class_map`. -/
def install_basic_classes : ClassMap :=
  class_map_insert (class_map_insert (class_map_insert (class_map_insert
    (class_map_insert [] Object Object_class) IO_ IO_class) Int_ Int_class)
    Bool_ Bool_class) Str Str_class

/-- The first loop of the constructor: registers the user classes in order and
stops at the first redefinition. -/
def register_classes : List Class_ → ClassMap → ClassMap × Option SemantError
  | [], cm => (cm, none)
  | cls :: rest, cm =>
    if (class_map_find cm cls.name).isSome then
      (cm, some (.redefinition_of_class cls.name))
    else if cls.name = SELF_TYPE then
      (cm, some .redefinition_of_SELF_TYPE)
    else register_classes rest (class_map_insert cm cls.name cls)

/-- The inner loop of the constructor's second pass, entered at class `cls`
with `start_cls_name = start`:
`for (parent = cls->get_parent(); parent != Object; cls = class_map[parent], ...)`.
`some none` is a walk that reached `Object`, `some (some e)` one that returned
with the error `e`, `none` one still running when the fuel is spent. -/
def check_parents (cm : ClassMap) (start : Symbol) : Nat → Class_ → Option (Option SemantError)
  | fuel, cls =>
    if cls.parent = Object then some none
    else
      match fuel with
      | 0 => none
      | fuel + 1 =>
        match class_map_find cm cls.parent with
        | none => some (some (.parent_not_defined cls.parent))
        | some pcls =>
          if cls.parent = Int_ ∨ cls.parent = Bool_ ∨ cls.parent = Str ∨ cls.parent = SELF_TYPE then
            some (some (.inherit_basic cls.parent))
          else if cls.parent = start then
            some (some (.inheritance_cycle cls.parent))
          else check_parents cm start fuel pcls

/-- The second pass of the constructor over the class list. -/
def check_all_parents (cm : ClassMap) (fuel : Nat) : List Class_ → Option (Option SemantError)
  | [] => some none
  | cls :: rest =>
    match check_parents cm cls.name fuel cls with
    | none => none
    | some (some e) => some (some e)
    | some none => check_all_parents cm fuel rest

/-- Models `ClassTable::ClassTable(classes)`: the resulting `class_map` and the
diagnostics reported (`semant_errors` is their number); `none` when a parent
walk does not finish within `fuel` iterations. -/
def ClassTable (fuel : Nat) (classes : List Class_) : Option (ClassMap × List SemantError) :=
  match register_classes classes install_basic_classes with
  | (cm, some e) => some (cm, [e])
  | (cm, none) =>
    if (class_map_find cm Main).isNone then some (cm, [.main_not_defined])
    else
      match check_all_parents cm fuel classes with
      | none => none
      | some (some e) => some (cm, [e])
      | some none => some (cm, [])

/-! ## Conformance, join and method lookup -/

/-- The loop of `is_subclass`, entered with the iterator `iter`. -/
def is_subclass_loop (cm : ClassMap) (super : Symbol) : Nat → Option Class_ → Option Bool
  | _, none => some false
  | 0, some _ => none
  | fuel + 1, some c =>
    if c.name = super then some true
    else is_subclass_loop cm super fuel (class_map_find cm c.parent)

/-- Models `is_subclass(sub, super, tenv)` where `c` is the current class `tenv.c`. -/
def is_subclass (cm : ClassMap) (fuel : Nat) (sub super : Symbol) (c : Class_) : Option Bool :=
  if sub = SELF_TYPE then
    if super = SELF_TYPE then some true
    else is_subclass_loop cm super fuel (class_map_find cm c.name)
  else is_subclass_loop cm super fuel (class_map_find cm sub)

/-- How a computation of the checker ends: with a value, by dereferencing a
null `Class_` (`class_map[k]` for an absent `k` yields a null pointer), or
still running when the fuel is spent. -/
inductive Outcome (α : Type) where
  | ok (a : α)
  | crash
  | timeout
  deriving DecidableEq, Repr

/-- The loop of `cls_join`:
`for (; !is_subclass(b, cls->get_name(), tenv); cls = class_map[cls->get_parent()])`. -/
def cls_join_loop (cm : ClassMap) (fuel : Nat) (b : Symbol) (c : Class_) :
    Nat → Option Class_ → Outcome Symbol
  | _, none => .crash
  | 0, some cls =>
    match is_subclass cm fuel b cls.name c with
    | none => .timeout
    | some true => .ok cls.name
    | some false => .timeout
  | n + 1, some cls =>
    match is_subclass cm fuel b cls.name c with
    | none => .timeout
    | some true => .ok cls.name
    | some false => cls_join_loop cm fuel b c n (class_map_find cm cls.parent)

/-- Models `cls_join(a, b, tenv)` where `c` is the current class `tenv.c`. -/
def cls_join (cm : ClassMap) (fuel : Nat) (a b : Symbol) (c : Class_) : Outcome Symbol :=
  let a' := if a = SELF_TYPE then c.name else a
  let b' := if b = SELF_TYPE then c.name else b
  cls_join_loop cm fuel b' c fuel (class_map_find cm a')

/-! ## The method environment -/

/-- A `method_class *`: the method node together with its position in the
feature list of its class.  The position stands for the address of the node,
which `method_class::typecheck` compares (`this != m`). -/
abbrev MethodPtr := Nat × method_class

/-- The global `method_env`, keyed by `method_id` = (class name, method name). -/
abbrev MethodEnv := List ((Symbol × Symbol) × MethodPtr)

/-- Models `method_env.find(id)`; `none` is `method_env.end()`. -/
def method_env_find : MethodEnv → Symbol × Symbol → Option MethodPtr
  | [], _ => none
  | (k', v) :: rest, k => if k' = k then some v else method_env_find rest k

/-- Models `method_env[id] = v`: overwrites the entry of `id` when there is one. -/
def method_env_set : MethodEnv → Symbol × Symbol → MethodPtr → MethodEnv
  | [], k, v => [(k, v)]
  | (k', v') :: rest, k, v =>
    if k' = k then (k, v) :: rest else (k', v') :: method_env_set rest k v

/-- The inner loop of `build_method_env` over the features of the class named
`cname`, from position `i` on. -/
def add_methods (cname : Symbol) : List Feature → Nat → MethodEnv → MethodEnv
  | [], _, me => me
  | .attr _ :: fs, i, me => add_methods cname fs (i + 1) me
  | .method m :: fs, i, me =>
    add_methods cname fs (i + 1) (method_env_set me (cname, m.name) (i, m))

/-- The outer loop of `build_method_env` over the entries of `class_map`. -/
def build_method_env_from : ClassMap → MethodEnv → MethodEnv
  | [], me => me
  | (_, cls) :: rest, me =>
    build_method_env_from rest (add_methods cls.name cls.features 0 me)

/-- Models `build_method_env()`, on the empty `method_env`. -/
def build_method_env (cm : ClassMap) : MethodEnv := build_method_env_from cm []

/-- Models `method_in_cls(class_name, method_name)`; `none` is `nullptr`. -/
def method_in_cls (me : MethodEnv) (class_name method_name : Symbol) : Option MethodPtr :=
  method_env_find me (class_name, method_name)

/-- The loop of `lookup_method`, entered with the iterator `iter`. -/
def lookup_method_loop (cm : ClassMap) (me : MethodEnv) (method_name : Symbol) :
    Nat → Option Class_ → Option (Option MethodPtr)
  | _, none => some none
  | 0, some _ => none
  | fuel + 1, some c =>
    match method_in_cls me c.name method_name with
    | some m => some (some m)
    | none => lookup_method_loop cm me method_name fuel (class_map_find cm c.parent)

/-- Models `lookup_method(class_name, method_name)`: `some none` is `nullptr`, `none`
a walk still running when the fuel is spent. -/
def lookup_method (cm : ClassMap) (me : MethodEnv) (fuel : Nat) (class_name method_name : Symbol) :
    Option (Option MethodPtr) :=
  lookup_method_loop cm me method_name fuel (class_map_find cm class_name)

/-- The last method named `m` among the features `fs`, which sit at the
positions `i`, `i + 1`, ... of their class. -/
def last_method_named (m : Symbol) : List Feature → Nat → Option MethodPtr
  | [], _ => none
  | .attr _ :: fs, i => last_method_named m fs (i + 1)
  | .method mm :: fs, i =>
    match last_method_named m fs (i + 1) with
    | some p => some p
    | none => if mm.name = m then some (i, mm) else none

/-- The class `c` declares a method named `m`. -/
def declares (c : Class_) (m : Symbol) : Prop :=
  ∃ mm, Feature.method mm ∈ c.features ∧ mm.name = m

/-! ## The type environment -/

/-- Modelled from the spec: the scoped symbol table of the support code
(`symtab.h`, not among the sources), a stack of scopes, innermost first, each
mapping identifiers to declared types, latest binding first. -/
abbrev SymbolTable := List (List (Symbol × Symbol))

/-- Modelled from the spec: `enterscope` pushes an empty scope. -/
def enterscope (o : SymbolTable) : SymbolTable := [] :: o

/-- Modelled from the spec: `exitscope` pops the innermost scope; `none` (a
fatal error of the support code) when there is no scope. -/
def exitscope : SymbolTable → Option SymbolTable
  | [] => none
  | _ :: rest => some rest

/-- Modelled from the spec: `addid` binds `s` to `t` in the innermost scope;
`none` (a fatal error of the support code) when there is no scope. -/
def addid : SymbolTable → Symbol → Symbol → Option SymbolTable
  | [], _, _ => none
  | sc :: rest, s, t => some (((s, t) :: sc) :: rest)

/-- The binding of `s` in one scope, latest first. -/
def scope_lookup : List (Symbol × Symbol) → Symbol → Option Symbol
  | [], _ => none
  | (s', t) :: rest, s => if s' = s then some t else scope_lookup rest s

/-- Modelled from the spec: `lookup` finds the innermost binding of `s`; an
inner binding hides an outer one; `none` is the null pointer. -/
def lookup : SymbolTable → Symbol → Option Symbol
  | [], _ => none
  | sc :: rest, s =>
    match scope_lookup sc s with
    | some t => some t
    | none => lookup rest s

/-! ## Computations of the checker -/

/-- A computation of the checker: the diagnostics it reports, in order, and
how it ends.  The diagnostics reported before a crash or before the fuel runs
out are kept: they have been written to the error stream. -/
structure Checked (α : Type) where
  errors : List SemantError
  outcome : Outcome α

def Checked.pure {α : Type} (a : α) : Checked α := ⟨[], .ok a⟩

def Checked.bind {α β : Type} (x : Checked α) (f : α → Checked β) : Checked β :=
  match x.outcome with
  | .ok a => ⟨x.errors ++ (f a).errors, (f a).outcome⟩
  | .crash => ⟨x.errors, .crash⟩
  | .timeout => ⟨x.errors, .timeout⟩

instance : Monad Checked where
  pure := Checked.pure
  bind := Checked.bind

/-- Models `classtable->semant_error(...) << ...`: reports one diagnostic. -/
def semant_error (e : SemantError) : Checked Unit := ⟨[e], .ok ()⟩

/-- Models `if (c) classtable->semant_error(...) << ...`: reports `e` when `c` holds. -/
def semant_error_when (c : Prop) [Decidable c] (e : SemantError) : Checked Unit :=
  if c then semant_error e else pure ()

/-- A loop over parent links inside a rule: out of fuel is `timeout`. -/
def Checked.ofOption {α : Type} : Option α → Checked α
  | some a => ⟨[], .ok a⟩
  | none => ⟨[], .timeout⟩

/-- An operation of the symbol table inside a rule: its fatal error ends the
program. -/
def Checked.ofTable {α : Type} : Option α → Checked α
  | some a => ⟨[], .ok a⟩
  | none => ⟨[], .crash⟩

def Checked.ofOutcome {α : Type} (x : Outcome α) : Checked α := ⟨[], x⟩

/-- Models `cls_is_defined(type_decl)`. -/
def cls_is_defined (cm : ClassMap) (type_decl : Symbol) : Bool :=
  if type_decl = SELF_TYPE then true
  else if (class_map_find cm type_decl).isSome then true
  else false

/-- The `type` slot of a node. -/
def Expression.type : Expression → Option Symbol
  | .assign t _ _ | .static_dispatch t _ _ _ _ | .dispatch t _ _ _ | .cond t _ _ _
  | .loop t _ _ | .typcase t _ _ _ | .block t _ _ | .let_ t _ _ _ _ | .plus t _ _
  | .sub t _ _ | .mul t _ _ | .divide t _ _ | .neg t _ | .lt t _ _ | .eq t _ _
  | .leq t _ _ | .comp t _ | .int_const t _ | .bool_const t _ | .string_const t _
  | .new_ t _ | .isvoid t _ | .no_expr t | .object t _ => t

/-- The global tables and the current class `tenv.c` of a check. -/
structure Context where
  cm : ClassMap
  me : MethodEnv
  fuel : Nat
  c : Class_

/-- The slot and the value returned by a dispatch whose method has the
declared return type `return_type`, the receiver having slot `expr_type` and
resolved type `t0`:
`type = return_type; if (type == SELF_TYPE) { if (expr->type != SELF_TYPE) type = expr->type; return t0; } return type;` -/
def dispatch_result (return_type : Symbol) (expr_type : Option Symbol) (t0 : Symbol) :
    Option Symbol × Symbol :=
  if return_type = SELF_TYPE then
    if expr_type = some SELF_TYPE then (some SELF_TYPE, t0) else (expr_type, t0)
  else (some return_type, return_type)

/-- The test of an initialiser of inferred type `t1` against the declared type
`t0`, in `let` and in attributes: `e` is reported when `t1` is not `No_type`
and does not conform to `t0`. -/
def check_init (Γ : Context) (t1 t0 : Symbol) (e : SemantError) : Checked Unit :=
  if t1 ≠ No_type then do
    let b ← Checked.ofOption (is_subclass Γ.cm Γ.fuel t1 t0 Γ.c)
    semant_error_when (b = false) e
  else pure ()

mutual

/-- Models `Expression_class::typecheck(tenv)` for every node kind: the value
returned, the node with its slots written, and the symbol table afterwards. -/
def Expression.typecheck (Γ : Context) :
    Expression → SymbolTable → Checked (Symbol × Expression × SymbolTable)
  | .int_const _ tok, o => pure (Int_, .int_const (some Int_) tok, o)
  | .string_const _ tok, o => pure (Str, .string_const (some Str) tok, o)
  | .bool_const _ v, o => pure (Bool_, .bool_const (some Bool_) v, o)
  | .new_ _ t, o =>
    if cls_is_defined Γ.cm t = false then do
      semant_error (.new_undefined t)
      pure (Object, .new_ (some Object) t, o)
    else pure (t, .new_ (some t) t, o)
  | .isvoid _ e1, o => do
    let (_, e1', o1) ← Expression.typecheck Γ e1 o
    pure (Bool_, .isvoid (some Bool_) e1', o1)
  | .no_expr _, o => pure (No_type, .no_expr (some No_type), o)
  | .object _ name, o =>
    match lookup o name with
    | none => do
      semant_error (.undeclared_identifier name)
      pure (Object, .object (some Object) name, o)
    | some t => pure (t, .object (some t) name, o)
  | .assign _ name expr, o =>
    if name = self then do
      semant_error .assign_self
      pure (Object, .assign (some Object) name expr, o)
    else
      match lookup o name with
      | none => do
        semant_error (.assign_undeclared name)
        pure (Object, .assign (some Object) name expr, o)
      | some t => do
        let (t', expr', o1) ← Expression.typecheck Γ expr o
        let b ← Checked.ofOption (is_subclass Γ.cm Γ.fuel t' t Γ.c)
        if b = false then do
          semant_error (.assign_mismatch t' t name)
          pure (Object, .assign (some Object) name expr', o1)
        else pure (t', .assign (some t') name expr', o1)
  | .static_dispatch _ expr t name actual, o => do
    let (t0, expr', o1) ← Expression.typecheck Γ expr o
    let t0 := if t0 = SELF_TYPE then Γ.c.name else t0
    let b ← Checked.ofOption (is_subclass Γ.cm Γ.fuel t0 t Γ.c)
    semant_error_when (b = false) (.static_dispatch_nonconforming t0 t)
    let method ← Checked.ofOption (lookup_method Γ.cm Γ.me Γ.fuel t name)
    match method with
    | none => do
      semant_error (.dispatch_undefined_method name)
      pure (Object, .static_dispatch (some Object) expr' t name actual, o1)
    | some m => do
      let (formals_are_less, i, actual', o2) ← typecheck_actuals Γ name m.2.formals actual 0 o1
      semant_error_when (formals_are_less = true ∨ i < m.2.formals.length)
        (.wrong_number_of_parameters name)
      let r := dispatch_result m.2.return_type expr'.type t0
      pure (r.2, .static_dispatch r.1 expr' t name actual', o2)
  | .dispatch _ expr name actual, o => do
    let (t0, expr', o1) ← Expression.typecheck Γ expr o
    let t0 := if t0 = SELF_TYPE then Γ.c.name else t0
    let method ← Checked.ofOption (lookup_method Γ.cm Γ.me Γ.fuel t0 name)
    match method with
    | none => do
      semant_error (.dispatch_undefined_method name)
      pure (Object, .dispatch (some Object) expr' name actual, o1)
    | some m => do
      let (formals_are_less, i, actual', o2) ← typecheck_actuals Γ name m.2.formals actual 0 o1
      semant_error_when (formals_are_less = true ∨ i < m.2.formals.length)
        (.wrong_number_of_parameters name)
      let r := dispatch_result m.2.return_type expr'.type t0
      pure (r.2, .dispatch r.1 expr' name actual', o2)
  | .cond _ pred then_exp else_exp, o => do
    let (t1, pred', o1) ← Expression.typecheck Γ pred o
    let (t2, then_exp', o2) ← Expression.typecheck Γ then_exp o1
    let (t3, else_exp', o3) ← Expression.typecheck Γ else_exp o2
    semant_error_when (t1 ≠ Bool_) .if_pred_not_bool
    let t ← Checked.ofOutcome (cls_join Γ.cm Γ.fuel t2 t3 Γ.c)
    pure (t, .cond (some t) pred' then_exp' else_exp', o3)
  | .loop _ pred body, o => do
    let (t1, pred', o1) ← Expression.typecheck Γ pred o
    semant_error_when (t1 ≠ Bool_) .loop_pred_not_bool
    let (_, body', o2) ← Expression.typecheck Γ body o1
    pure (Object, .loop (some Object) pred' body', o2)
  | .typcase _ expr (c_name, c_type, c_expr) cases, o => do
    let (_, expr', o1) ← Expression.typecheck Γ expr o
    let o2 ← Checked.ofTable (addid (enterscope o1) c_name c_type)
    let (t, c_expr', o3) ← Expression.typecheck Γ c_expr o2
    let o4 ← Checked.ofTable (exitscope o3)
    let (t', cases', o5) ← typecheck_cases Γ cases [c_type] t o4
    pure (t', .typcase (some t') expr' (c_name, c_type, c_expr') cases', o5)
  | .block _ body0 body, o => do
    let (t, body0', o1) ← Expression.typecheck Γ body0 o
    let (t', body', o2) ← typecheck_block Γ body t o1
    pure (t', .block (some t') body0' body', o2)
  | .let_ _ identifier t0 init body, o => do
    let (t1, init', o1) ← Expression.typecheck Γ init o
    check_init Γ t1 t0 (.let_init_mismatch t1 identifier)
    let o2 ←
      (if identifier ≠ self then Checked.ofTable (addid (enterscope o1) identifier t0)
      else do
        semant_error .let_self
        pure (enterscope o1))
    let (t, body', o3) ← Expression.typecheck Γ body o2
    let o4 ← Checked.ofTable (exitscope o3)
    pure (t, .let_ (some t) identifier t0 init' body', o4)
  | .plus _ e1 e2, o => do
    let (t0, e1', o1) ← Expression.typecheck Γ e1 o
    let (t1, e2', o2) ← Expression.typecheck Γ e2 o1
    if t0 ≠ Int_ ∨ t1 ≠ Int_ then do
      semant_error (.non_int_arguments "+" t0 t1)
      pure (No_type, .plus (some No_type) e1' e2', o2)
    else pure (Int_, .plus (some Int_) e1' e2', o2)
  | .sub _ e1 e2, o => do
    let (t0, e1', o1) ← Expression.typecheck Γ e1 o
    let (t1, e2', o2) ← Expression.typecheck Γ e2 o1
    if t0 ≠ Int_ ∨ t1 ≠ Int_ then do
      semant_error (.non_int_arguments "-" t0 t1)
      pure (No_type, .sub (some No_type) e1' e2', o2)
    else pure (Int_, .sub (some Int_) e1' e2', o2)
  | .mul _ e1 e2, o => do
    let (t0, e1', o1) ← Expression.typecheck Γ e1 o
    let (t1, e2', o2) ← Expression.typecheck Γ e2 o1
    if t0 ≠ Int_ ∨ t1 ≠ Int_ then do
      semant_error (.non_int_arguments "*" t0 t1)
      pure (No_type, .mul (some No_type) e1' e2', o2)
    else pure (Int_, .mul (some Int_) e1' e2', o2)
  | .divide _ e1 e2, o => do
    let (t0, e1', o1) ← Expression.typecheck Γ e1 o
    let (t1, e2', o2) ← Expression.typecheck Γ e2 o1
    if t0 ≠ Int_ ∨ t1 ≠ Int_ then do
      semant_error (.non_int_arguments "/" t0 t1)
      pure (No_type, .divide (some No_type) e1' e2', o2)
    else pure (Int_, .divide (some Int_) e1' e2', o2)
  | .neg _ e1, o => do
    let (t0, e1', o1) ← Expression.typecheck Γ e1 o
    if t0 ≠ Int_ then do
      semant_error (.neg_non_int t0)
      pure (No_type, .neg (some No_type) e1', o1)
    else pure (Int_, .neg (some Int_) e1', o1)
  | .lt _ e1 e2, o => do
    let (t0, e1', o1) ← Expression.typecheck Γ e1 o
    let (t1, e2', o2) ← Expression.typecheck Γ e2 o1
    if t0 ≠ Int_ then do
      semant_error (.non_int_arguments "<" t0 t1)
      pure (No_type, .lt (some No_type) e1' e2', o2)
    else pure (Bool_, .lt (some Bool_) e1' e2', o2)
  | .eq _ e1 e2, o => do
    let (t1, e1', o1) ← Expression.typecheck Γ e1 o
    let (t2, e2', o2) ← Expression.typecheck Γ e2 o1
    (if t1 = Int_ ∨ t1 = Str ∨ t1 = Bool_ ∨ t2 = Int_ ∨ t2 = Str ∨ t2 = Bool_ then
      semant_error_when (t1 ≠ t2) .illegal_basic_comparison
    else pure ())
    pure (Bool_, .eq (some Bool_) e1' e2', o2)
  | .leq _ e1 e2, o => do
    let (t0, e1', o1) ← Expression.typecheck Γ e1 o
    let (t1, e2', o2) ← Expression.typecheck Γ e2 o1
    semant_error_when (t0 ≠ Int_ ∨ t1 ≠ Int_) (.non_int_arguments "<=" t1 t1)
    pure (Bool_, .leq (some Bool_) e1' e2', o2)
  | .comp _ e1, o => do
    let (t, e1', o1) ← Expression.typecheck Γ e1 o
    semant_error_when (t ≠ Bool_) (.not_non_bool t)
    pure (Bool_, .comp (some Bool_) e1', o1)

/-- The loop of a dispatch over the actual arguments, from index `i` on:
the flag `formals_are_less`, the index after the loop, the checked actuals
and the symbol table. -/
def typecheck_actuals (Γ : Context) (name : Symbol) (formals : List Formal) :
    List Expression → Nat → SymbolTable → Checked (Bool × Nat × List Expression × SymbolTable)
  | [], i, o => pure (false, i, [], o)
  | a :: rest, i, o => do
    let (t_actual, a', o1) ← Expression.typecheck Γ a o
    match formals[i]? with
    | some f => do
      let b ← Checked.ofOption (is_subclass Γ.cm Γ.fuel t_actual f.type_decl Γ.c)
      semant_error_when (b = false) (.arg_mismatch name t_actual f.name f.type_decl)
      let (less, j, rest', o2) ← typecheck_actuals Γ name formals rest (i + 1) o1
      pure (less, j, a' :: rest', o2)
    | none => do
      let (_, j, rest', o2) ← typecheck_actuals Γ name formals rest (i + 1) o1
      pure (true, j, a' :: rest', o2)

/-- The loop of a block after its first expression; `t` is the slot so far. -/
def typecheck_block (Γ : Context) :
    List Expression → Symbol → SymbolTable → Checked (Symbol × List Expression × SymbolTable)
  | [], t, o => pure (t, [], o)
  | e :: rest, _, o => do
    let (t, e', o1) ← Expression.typecheck Γ e o
    let (t', rest', o2) ← typecheck_block Γ rest t o1
    pure (t', e' :: rest', o2)

/-- The loop of a `case` after its first branch (`i > 0`); `used` are the
branch types met, `prev_type` is the slot so far. -/
def typecheck_cases (Γ : Context) :
    List (Symbol × Symbol × Expression) → List Symbol → Symbol → SymbolTable →
      Checked (Symbol × List (Symbol × Symbol × Expression) × SymbolTable)
  | [], _, prev_type, o => pure (prev_type, [], o)
  | (c_name, c_type, c_expr) :: rest, used, prev_type, o =>
    if c_type ∈ used then do
      semant_error (.duplicate_branch c_type)
      pure (Object, (c_name, c_type, c_expr) :: rest, o)
    else do
      let o1 ← Checked.ofTable (addid (enterscope o) c_name c_type)
      let (t, c_expr', o2) ← Expression.typecheck Γ c_expr o1
      let t ← Checked.ofOutcome (cls_join Γ.cm Γ.fuel t prev_type Γ.c)
      let o3 ← Checked.ofTable (exitscope o2)
      let (t', rest', o4) ← typecheck_cases Γ rest (used ++ [c_type]) t o3
      pure (t', (c_name, c_type, c_expr') :: rest', o4)

end


/-! ## Features, classes and the program -/

/-- The body of the loop of `method_class::typecheck` for one formal, up to
the comparison with the inherited method: the names defined so far and the
symbol table. -/
def check_formal (Γ : Context) (formal : Formal) (defined : List Symbol) (o : SymbolTable) :
    Checked (List Symbol × SymbolTable) :=
  if formal.name = self then do
    semant_error .formal_self
    pure (defined, o)
  else do
    (if formal.type_decl = SELF_TYPE then semant_error (.formal_SELF_TYPE formal.name)
    else semant_error_when (cls_is_defined Γ.cm formal.type_decl = false)
      (.formal_undefined_class formal.type_decl formal.name))
    let defined ←
      (if formal.name ∉ defined then pure (defined ++ [formal.name])
      else do
        semant_error (.formal_multiply_defined formal.name)
        pure defined)
    let o ← Checked.ofTable (addid o formal.name formal.type_decl)
    pure (defined, o)

/-- The comparison of the formal at index `i` with the method `m` found for
the same name (`if (m) { ... }`): the flag `derived_formals_are_less`. -/
def check_redefined_formal (name : Symbol) (m : Option MethodPtr) (formal : Formal) (i : Nat)
    (derived_formals_are_less : Bool) : Checked Bool :=
  match m with
  | none => pure derived_formals_are_less
  | some mp =>
    match mp.2.formals[i]? with
    | some f_derived => do
      semant_error_when (f_derived.type_decl ≠ formal.type_decl)
        (.redefined_param_type name formal.type_decl f_derived.type_decl)
      pure derived_formals_are_less
    | none => pure true

/-- The test after the loop of `method_class::typecheck`:
`if (m && (derived_formals_are_less || m->get_formals()->more(i)))`. -/
def check_redefined_arity (name : Symbol) (m : Option MethodPtr)
    (derived_formals_are_less : Bool) (i : Nat) : Checked Unit :=
  match m with
  | some mp =>
    semant_error_when (derived_formals_are_less = true ∨ i < mp.2.formals.length)
      (.redefined_wrong_number name)
  | none => pure ()

/-- The method that the formals are compared with: the one found by
`lookup_method` from the parent when the parent is in `class_map`, else the
result `m` of `method_in_cls` for the class itself. -/
def inherited_method (Γ : Context) (name : Symbol) (m : Option MethodPtr) :
    Checked (Option MethodPtr) :=
  match class_map_find Γ.cm Γ.c.parent with
  | some pcls => Checked.ofOption (lookup_method Γ.cm Γ.me Γ.fuel pcls.name name)
  | none => pure m

/-- The loop of `method_class::typecheck` over the formals from index `i` on:
the flag `derived_formals_are_less`, the index after the loop and the symbol
table. -/
def check_formals (Γ : Context) (name : Symbol) (m : Option MethodPtr) :
    List Formal → Nat → List Symbol → Bool → SymbolTable → Checked (Bool × Nat × SymbolTable)
  | [], i, _, less, o => pure (less, i, o)
  | formal :: rest, i, defined, less, o => do
    let (defined, o) ← check_formal Γ formal defined o
    let less ← check_redefined_formal name m formal i less
    check_formals Γ name m rest (i + 1) defined less o

/-- Models `method_class::typecheck(tenv)` for the method at position `this.1` of the
current class: the value returned, the method with its body checked, and the
symbol table afterwards. -/
def method_class.typecheck (Γ : Context) (this : MethodPtr) (o : SymbolTable) :
    Checked (Symbol × method_class × SymbolTable) := do
  let o1 ← Checked.ofTable (addid (enterscope o) self SELF_TYPE)
  let m := method_in_cls Γ.me Γ.c.name this.2.name
  semant_error_when (m.map Prod.fst ≠ some this.1) (.method_multiply_defined this.2.name)
  let m ← inherited_method Γ this.2.name m
  let (derived_formals_are_less, i, o2) ← check_formals Γ this.2.name m this.2.formals 0 [] false o1
  check_redefined_arity this.2.name m derived_formals_are_less i
  let (t0', expr', o3) ← Expression.typecheck Γ this.2.expr o2
  let o4 ← Checked.ofTable (exitscope o3)
  let b ← Checked.ofOption (is_subclass Γ.cm Γ.fuel t0' this.2.return_type Γ.c)
  semant_error_when (b = false) (.return_type_mismatch t0' this.2.return_type)
  pure (Object, { this.2 with expr := expr' }, o4)

/-- Models `attr_class::typecheck(tenv)`. -/
def attr_class.typecheck (Γ : Context) (a : attr_class) (o : SymbolTable) :
    Checked (Symbol × attr_class × SymbolTable) :=
  if a.name = self then do
    semant_error .self_attribute
    pure (Object, a, o)
  else do
    let (t1, init', o1) ← Expression.typecheck Γ a.init o
    check_init Γ t1 a.type_decl (.attr_init_mismatch t1 a.type_decl)
    pure (a.type_decl, { a with init := init' }, o1)

/-- Models `features->nth(i)->typecheck(tenv)`, the returned symbol dropped. -/
def Feature.typecheck (Γ : Context) (i : Nat) : Feature → SymbolTable → Checked (Feature × SymbolTable)
  | .attr a, o => do
    let (_, a', o1) ← attr_class.typecheck Γ a o
    pure (.attr a', o1)
  | .method m, o => do
    let (_, m', o1) ← method_class.typecheck Γ (i, m) o
    pure (.method m', o1)

/-- The inner loop of the first part of `build_initial_obj_env`: binds every
attribute of an ancestor. -/
def add_attributes : List Feature → SymbolTable → Checked SymbolTable
  | [], o => pure o
  | .method _ :: fs, o => add_attributes fs o
  | .attr a :: fs, o => do
    let o1 ← Checked.ofTable (addid o a.name a.type_decl)
    add_attributes fs o1

/-- The outer loop of the first part of `build_initial_obj_env`, entered with
the iterator `iter`. -/
def add_inherited_attributes (cm : ClassMap) :
    Nat → Option Class_ → SymbolTable → Checked SymbolTable
  | _, none, o => pure o
  | 0, some _, _ => ⟨[], .timeout⟩
  | fuel + 1, some cls, o => do
    let o1 ← add_attributes cls.features o
    add_inherited_attributes cm fuel (class_map_find cm cls.parent) o1

/-- The second part of `build_initial_obj_env`: the attributes of the class
itself. -/
def add_own_attributes : List Feature → SymbolTable → Checked SymbolTable
  | [], o => pure o
  | .method _ :: fs, o => add_own_attributes fs o
  | .attr a :: fs, o =>
    if (lookup o a.name).isSome then do
      semant_error (.attribute_already_defined a.name)
      add_own_attributes fs o
    else do
      let o1 ← Checked.ofTable (addid o a.name a.type_decl)
      add_own_attributes fs o1

/-- Models `build_initial_obj_env(tenv)`. -/
def build_initial_obj_env (Γ : Context) (o : SymbolTable) : Checked SymbolTable := do
  let o1 ← add_inherited_attributes Γ.cm Γ.fuel (class_map_find Γ.cm Γ.c.parent) o
  let o2 ← add_own_attributes Γ.c.features o1
  Checked.ofTable (addid o2 self SELF_TYPE)

/-- The loop of `class__class::check` over the features from position `i` on. -/
def check_features (Γ : Context) : List Feature → Nat → SymbolTable →
    Checked (List Feature × SymbolTable)
  | [], _, o => pure ([], o)
  | f :: fs, i, o => do
    let (f', o1) ← Feature.typecheck Γ i f o
    let (fs', o2) ← check_features Γ fs (i + 1) o1
    pure (f' :: fs', o2)

/-- Models `class__class::check()`: the class with its expressions checked. -/
def class__class.check (cm : ClassMap) (me : MethodEnv) (fuel : Nat) (cls : Class_) :
    Checked Class_ := do
  let Γ : Context := ⟨cm, me, fuel, cls⟩
  let o ← build_initial_obj_env Γ (enterscope [])
  let (features', o1) ← check_features Γ cls.features 0 o
  let _ ← Checked.ofTable (exitscope o1)
  pure { cls with features := features' }

/-- Models `program_class::check()`: checks the classes in their order. -/
def program_class.check (cm : ClassMap) (me : MethodEnv) (fuel : Nat) :
    List Class_ → Checked (List Class_)
  | [] => pure []
  | cls :: rest => do
    let cls' ← class__class.check cm me fuel cls
    let rest' ← program_class.check cm me fuel rest
    pure (cls' :: rest')

/-- How `program_class::semant` ends when it ends by itself. -/
inductive Verdict where
  /-- The first `exit(1)`: the class table reported errors; `build_method_env`
  and `check` have not run. -/
  | halted_before_check
  /-- The second `exit(1)`: the check of the classes reported errors. -/
  | halted_after_check
  /-- No error: the classes with their type slots filled. -/
  | accepted (classes : List Class_)

/-- Models `program_class::semant()`. -/
def program_class.semant (fuel : Nat) (classes : List Class_) : Checked Verdict :=
  match ClassTable fuel classes with
  | none => ⟨[], .timeout⟩
  | some (cm, errors) =>
    if errors ≠ [] then ⟨errors, .ok .halted_before_check⟩
    else
      let r := program_class.check cm (build_method_env cm) fuel classes
      match r.outcome with
      | .ok classes' =>
        if r.errors ≠ [] then ⟨r.errors, .ok .halted_after_check⟩
        else ⟨[], .ok (.accepted classes')⟩
      | .crash => ⟨r.errors, .crash⟩
      | .timeout => ⟨r.errors, .timeout⟩

/-- The two diagnostics of the override check of `method_class::typecheck`. -/
def SemantError.is_override_error : SemantError → Bool
  | .redefined_param_type _ _ _ => true
  | .redefined_wrong_number _ => true
  | _ => false

/-! ## The hierarchy as a graph -/

/-- The class reached from `s` by following `n` parent links, every class on
the way (both ends included) being present in `class_map`. -/
def nth_parent (cm : ClassMap) : Nat → Symbol → Option Symbol
  | 0, s => if (class_map_find cm s).isSome then some s else none
  | n + 1, s =>
    match class_map_find cm s with
    | none => none
    | some c => nth_parent cm n c.parent

/-- The class `s` is `k` or an ancestor of `k`. -/
def Ancestor (cm : ClassMap) (k s : Symbol) : Prop := ∃ n, nth_parent cm n k = some s

/-- A validated hierarchy: the `class_map` left by a construction that reported
no error, for a class list in which no class bears the reserved name
`_no_class`. -/
def Validated (cm : ClassMap) : Prop :=
  ∃ (classes : List Class_) (fuel : Nat),
    (∀ c ∈ classes, c.name ≠ No_class) ∧ ClassTable fuel classes = some (cm, [])

/-- The shape of a validated hierarchy: keys are class names, every class
reaches `Object` by parent links, and the walk ends there because the parent of
`Object` is no class. -/
structure Hierarchy (cm : ClassMap) : Prop where
  key_name : ∀ k c, class_map_find cm k = some c → c.name = k
  reach : ∀ k c, class_map_find cm k = some c → ∃ n, nth_parent cm n k = some Object
  object : ∃ c, class_map_find cm Object = some c ∧ c.parent = No_class
  no_class : class_map_find cm No_class = none
  self_type : class_map_find cm SELF_TYPE = none
  nodup_keys : (cm.map Prod.fst).Nodup

/-! ## A small program: `A` inherits `B`, `B` inherits the root -/

def scenario_A : Class_ := { name := "A", parent := "B", features := [] }

def scenario_B : Class_ := { name := "B", parent := Object, features := [] }

def scenario_Main : Class_ := { name := Main, parent := Object, features := [] }

def scenario_classes : List Class_ := [scenario_A, scenario_B, scenario_Main]

/-- The `class_map` the constructor builds for `scenario_classes`. -/
def scenario_class_map : ClassMap :=
  [(Object, Object_class), (IO_, IO_class), (Int_, Int_class), (Bool_, Bool_class),
    (Str, Str_class), ("A", scenario_A), ("B", scenario_B), (Main, scenario_Main)]

/-! ## A program with a cycle behind its first class

`Main` inherits `A`, `A` inherits `B`, `B` inherits `A`. -/

def cycle_Main : Class_ := { name := Main, parent := "A", features := [] }

def cycle_A : Class_ := { name := "A", parent := "B", features := [] }

def cycle_B : Class_ := { name := "B", parent := "A", features := [] }

def cycle_classes : List Class_ := [cycle_Main, cycle_A, cycle_B]

/-- The `class_map` after the registration of `cycle_classes`. -/
def cycle_class_map : ClassMap :=
  [(Object, Object_class), (IO_, IO_class), (Int_, Int_class), (Bool_, Bool_class),
    (Str, Str_class), (Main, cycle_Main), ("A", cycle_A), ("B", cycle_B)]

/-- What `lookup_method` has to return for the class `k` and the method name
`mn` when it answers `r`: `none` only if no class on the chain of `k` has a
method named `mn`, and `some p` only if `p` is the last method named `mn` of a
class `t` on the chain, no class nearer to `k` having one. -/
def NearestMethod (cm : ClassMap) (mn k : Symbol) (r : Option MethodPtr) : Prop :=
  (r = none → ∀ i t ct, nth_parent cm i k = some t → class_map_find cm t = some ct →
    last_method_named mn ct.features 0 = none) ∧
  (∀ p, r = some p → ∃ n t ct, nth_parent cm n k = some t ∧ class_map_find cm t = some ct ∧
    last_method_named mn ct.features 0 = some p ∧
    ∀ i t' ct', i < n → nth_parent cm i k = some t' → class_map_find cm t' = some ct' →
      last_method_named mn ct'.features 0 = none)

/-- The diagnostics that the rules of expressions report. -/
def SemantError.is_expression_error : SemantError → Bool
  | .new_undefined _ | .undeclared_identifier _ | .assign_self | .assign_undeclared _
  | .assign_mismatch _ _ _ | .static_dispatch_nonconforming _ _
  | .dispatch_undefined_method _ | .arg_mismatch _ _ _ _ | .wrong_number_of_parameters _
  | .if_pred_not_bool | .loop_pred_not_bool | .duplicate_branch _ | .let_init_mismatch _ _
  | .let_self | .non_int_arguments _ _ _ | .neg_non_int _ | .illegal_basic_comparison
  | .not_non_bool _ => true
  | _ => false

/-- Every diagnostic reported by the computation satisfies `P`. -/
def Checked.All {α : Type} (P : SemantError → Prop) (x : Checked α) : Prop :=
  ∀ e ∈ x.errors, P e

/-- Some diagnostic reported by the computation satisfies `Q`. -/
def Checked.Any {α : Type} (Q : SemantError → Prop) (x : Checked α) : Prop :=
  ∃ e ∈ x.errors, Q e

/-! ## A program with an override that changes names and return type only -/

def override_Main : Class_ :=
  { name := Main, parent := Object,
    features := [.method ⟨main_meth, [], Object, .int_const none "0"⟩] }

def override_P : Class_ :=
  { name := "P", parent := Object,
    features := [.method ⟨"f", [⟨"x", Int_⟩, ⟨"y", Str⟩], Int_, .int_const none "0"⟩] }

def override_Q : Class_ :=
  { name := "Q", parent := "P",
    features := [.method ⟨"f", [⟨"a", Int_⟩, ⟨"b", Str⟩], Bool_, .bool_const none true⟩] }

def override_class_map : ClassMap :=
  [(Object, Object_class), (IO_, IO_class), (Int_, Int_class), (Bool_, Bool_class),
    (Str, Str_class), (Main, override_Main), ("P", override_P), ("Q", override_Q)]

/-- The context of the check of class `Q`. -/
def override_context : Context :=
  ⟨override_class_map, build_method_env override_class_map, 8, override_Q⟩

/-! ## A program whose method returns `self.copy()` as `SELF_TYPE` -/

/-- The class `Main` with `m() : SELF_TYPE { self.copy() }`. -/
def selfcopy_Main : Class_ :=
  { name := Main, parent := Object,
    features :=
      [.method ⟨"m", [], SELF_TYPE, .dispatch none (.object none self) copy []⟩,
        .method ⟨main_meth, [], Object, .int_const none "0"⟩] }

def selfcopy_class_map : ClassMap :=
  [(Object, Object_class), (IO_, IO_class), (Int_, Int_class), (Bool_, Bool_class),
    (Str, Str_class), (Main, selfcopy_Main)]

/-- The context of the check of class `Main` of the program `[selfcopy_Main]`. -/
def selfcopy_context : Context :=
  ⟨selfcopy_class_map, build_method_env selfcopy_class_map, 8, selfcopy_Main⟩

/-- Every value the computation can end with satisfies `P`. -/
def Checked.Ok {α : Type} (P : α → Prop) (x : Checked α) : Prop :=
  ∀ a, x.outcome = .ok a → P a

/-- The context of the check of class `A` of `scenario_classes`. -/
def scenario_context : Context :=
  ⟨scenario_class_map, build_method_env scenario_class_map, 8, scenario_A⟩

/-- The diagnostic of the conformance test of an actual of type `t` at index
`i` against the formals: one mismatch diagnostic when there is a formal at `i`
and `t` does not conform to its declared type, nothing otherwise. -/
def arg_mismatch_errors (Γ : Context) (name : Symbol) (formals : List Formal) (i : Nat)
    (t : Symbol) : List SemantError :=
  match formals[i]? with
  | some f =>
    if is_subclass Γ.cm Γ.fuel t f.type_decl Γ.c = some false then
      [.arg_mismatch name t f.name f.type_decl]
    else []
  | none => []

/-- The actuals `actual`, at the indices `i`, `i + 1`, ..., are checked one
after the other, each exactly once, starting in the table `o`: `actual'` are
the checked nodes in their order, `o'` is the table after the last one, and
`errs` are the diagnostics of each check, in order, each followed by the
diagnostic of its conformance test. -/
def ActualsCheckedInOrder (Γ : Context) (name : Symbol) (formals : List Formal) :
    List Expression → Nat → SymbolTable → List SemantError → List Expression → SymbolTable → Prop
  | [], _, o, errs, actual', o' => errs = [] ∧ actual' = [] ∧ o' = o
  | a :: rest, i, o, errs, actual', o' =>
    ∃ (t : Symbol) (a' : Expression) (o1 : SymbolTable) (errs_rest : List SemantError)
      (rest' : List Expression),
      (Expression.typecheck Γ a o).outcome = .ok (t, a', o1) ∧
      ActualsCheckedInOrder Γ name formals rest (i + 1) o1 errs_rest rest' o' ∧
      actual' = a' :: rest' ∧
      errs = (Expression.typecheck Γ a o).errors ++ arg_mismatch_errors Γ name formals i t ++
        errs_rest

/-! ## The attributes visible in a class -/

/-- The attributes among the features, in their order. -/
def attributes_of : List Feature → List attr_class
  | [] => []
  | .attr a :: fs => a :: attributes_of fs
  | .method _ :: fs => attributes_of fs

/-- A class above `c` on its parent chain declares an attribute named `s` with
the declared type `t`. -/
def InheritedAttribute (cm : ClassMap) (c : Class_) (s t : Symbol) : Prop :=
  ∃ (k : Symbol) (ck : Class_) (a : attr_class),
    Ancestor cm c.parent k ∧ class_map_find cm k = some ck ∧
      a ∈ attributes_of ck.features ∧ a.name = s ∧ a.type_decl = t

/-- The declared type of the first attribute named `s` of the list. -/
def declared_type (s : Symbol) : List attr_class → Option Symbol
  | [] => none
  | a :: rest => if a.name = s then some a.type_decl else declared_type s rest

/-- The name `s` is visible after the attributes `earlier` of the class:
inherited, or declared by one of `earlier`. -/
def AlreadyVisible (inherited : Symbol → Prop) (earlier : List attr_class) (s : Symbol) :
    Prop :=
  inherited s ∨ ∃ a ∈ earlier, a.name = s

/-- The diagnostics `errs` are those of the attributes of the list, declared
after `earlier`, in their order: one for each attribute whose name is visible
where it is declared, none for the others. -/
def DuplicateAttributeErrors (inherited : Symbol → Prop) :
    List attr_class → List attr_class → List SemantError → Prop
  | _, [], errs => errs = []
  | earlier, a :: rest, errs =>
    ∃ errs_rest : List SemantError,
      DuplicateAttributeErrors inherited (earlier ++ [a]) rest errs_rest ∧
      (AlreadyVisible inherited earlier a.name →
        errs = .attribute_already_defined a.name :: errs_rest) ∧
      (¬ AlreadyVisible inherited earlier a.name → errs = errs_rest)

/-! ## A program with attributes declared twice

`P` declares `x : Int`; `Q` inherits `P` and declares `x : String`, `y : Int`
and `y : Bool`. -/

def attrs_Main : Class_ :=
  { name := Main, parent := Object,
    features := [.method ⟨main_meth, [], Object, .int_const none "0"⟩] }

def attrs_P : Class_ :=
  { name := "P", parent := Object, features := [.attr ⟨"x", Int_, .no_expr none⟩] }

def attrs_Q : Class_ :=
  { name := "Q", parent := "P",
    features :=
      [.attr ⟨"x", Str, .no_expr none⟩, .attr ⟨"y", Int_, .no_expr none⟩,
        .attr ⟨"y", Bool_, .no_expr none⟩] }

def attrs_classes : List Class_ := [attrs_Main, attrs_P, attrs_Q]

def attrs_class_map : ClassMap :=
  [(Object, Object_class), (IO_, IO_class), (Int_, Int_class), (Bool_, Bool_class),
    (Str, Str_class), (Main, attrs_Main), ("P", attrs_P), ("Q", attrs_Q)]

/-- The context of the check of class `Q` of `attrs_classes`. -/
def attrs_context : Context :=
  ⟨attrs_class_map, build_method_env attrs_class_map, 8, attrs_Q⟩

/-- The type under which the name `s` is visible after the attributes
`earlier` of a class whose inherited attributes are bound in `o1`: the binding
of `o1`, or else the declared type of the first of `earlier` named `s`. -/
def visible_type (o1 : SymbolTable) (earlier : List attr_class) (s : Symbol) : Option Symbol :=
  match lookup o1 s with
  | some t => some t
  | none => declared_type s earlier

/-! ## Programs with a sealed parent -/

/-- The class `R` whose declared parent is `SELF_TYPE`. -/
def sealed_R_SELF_TYPE : Class_ := { name := "R", parent := SELF_TYPE, features := [] }

/-- The class `R` whose declared parent is `Int`. -/
def sealed_R_Int : Class_ := { name := "R", parent := Int_, features := [] }

/-! ## A program whose `case` branch is named `self` -/

/-- The class `Main` with `main() : Object { case 1 of self : Int => self; esac }`. -/
def selfcase_Main : Class_ :=
  { name := Main, parent := Object,
    features :=
      [.method ⟨main_meth, [], Object,
        .typcase none (.int_const none "1") (self, Int_, .object none self) []⟩] }

/-- The class `selfcase_Main` as the check leaves it. -/
def selfcase_Main_checked : Class_ :=
  { name := Main, parent := Object,
    features :=
      [.method ⟨main_meth, [], Object,
        .typcase (some Int_) (.int_const (some Int_) "1")
          (self, Int_, .object (some Int_) self) []⟩] }

/-! ## A program with a `let` of an undefined declared type -/

/-- The class `Main` with `main() : Object { { let x : Undefined in x; 0; } }`. -/
def undeflet_Main : Class_ :=
  { name := Main, parent := Object,
    features :=
      [.method ⟨main_meth, [], Object,
        .block none (.let_ none "x" "Undefined" (.no_expr none) (.object none "x"))
          [.int_const none "0"]⟩] }

/-- The class `undeflet_Main` as the check leaves it. -/
def undeflet_Main_checked : Class_ :=
  { name := Main, parent := Object,
    features :=
      [.method ⟨main_meth, [], Object,
        .block (some Int_)
          (.let_ (some "Undefined") "x" "Undefined" (.no_expr (some No_type))
            (.object (some "Undefined") "x"))
          [.int_const (some Int_) "0"]⟩] }

/-- The `class_map` of the programs of one class `Main`. -/
def Main_only_class_map (cls : Class_) : ClassMap :=
  [(Object, Object_class), (IO_, IO_class), (Int_, Int_class), (Bool_, Bool_class),
    (Str, Str_class), (Main, cls)]

/-! ## Programs whose conditional joins a type that is no class -/

/-- The class `Main` with `main() : Object { if true then 1 + "a" else 0 fi }`. -/
def nojoin_Main : Class_ :=
  { name := Main, parent := Object,
    features :=
      [.method ⟨main_meth, [], Object,
        .cond none (.bool_const none true)
          (.plus none (.int_const none "1") (.string_const none "a"))
          (.int_const none "0")⟩] }

/-- The class `Main` with
`main() : Object { let x : Undefined in if true then x else 0 fi }`. -/
def undefjoin_Main : Class_ :=
  { name := Main, parent := Object,
    features :=
      [.method ⟨main_meth, [], Object,
        .let_ none "x" "Undefined" (.no_expr none)
          (.cond none (.bool_const none true) (.object none "x") (.int_const none "0"))⟩] }

/-! ## Trees with their slots written -/

mutual

/-- Every node of the tree has its `type` slot written. -/
def Expression.typed : Expression → Bool
  | .assign t _ e => t.isSome && e.typed
  | .static_dispatch t e _ _ actual => t.isSome && e.typed && typed_list actual
  | .dispatch t e _ actual => t.isSome && e.typed && typed_list actual
  | .cond t p a b => t.isSome && p.typed && a.typed && b.typed
  | .loop t p b => t.isSome && p.typed && b.typed
  | .typcase t e (_, _, c) cases => t.isSome && e.typed && c.typed && typed_cases cases
  | .block t b0 body => t.isSome && b0.typed && typed_list body
  | .let_ t _ _ init body => t.isSome && init.typed && body.typed
  | .plus t e1 e2 => t.isSome && e1.typed && e2.typed
  | .sub t e1 e2 => t.isSome && e1.typed && e2.typed
  | .mul t e1 e2 => t.isSome && e1.typed && e2.typed
  | .divide t e1 e2 => t.isSome && e1.typed && e2.typed
  | .neg t e1 => t.isSome && e1.typed
  | .lt t e1 e2 => t.isSome && e1.typed && e2.typed
  | .eq t e1 e2 => t.isSome && e1.typed && e2.typed
  | .leq t e1 e2 => t.isSome && e1.typed && e2.typed
  | .comp t e1 => t.isSome && e1.typed
  | .int_const t _ => t.isSome
  | .bool_const t _ => t.isSome
  | .string_const t _ => t.isSome
  | .new_ t _ => t.isSome
  | .isvoid t e1 => t.isSome && e1.typed
  | .no_expr t => t.isSome
  | .object t _ => t.isSome

/-- Every node of every tree of the list has its slot written. -/
def typed_list : List Expression → Bool
  | [] => true
  | e :: es => e.typed && typed_list es

/-- Every node of every branch of the list has its slot written. -/
def typed_cases : List (Symbol × Symbol × Expression) → Bool
  | [] => true
  | (_, _, e) :: cs => e.typed && typed_cases cs

end

mutual

/-- The tree with every `type` slot emptied: the tree as the parser hands it
over. -/
def Expression.strip : Expression → Expression
  | .assign _ n e => .assign none n e.strip
  | .static_dispatch _ e t n actual => .static_dispatch none e.strip t n (strip_list actual)
  | .dispatch _ e n actual => .dispatch none e.strip n (strip_list actual)
  | .cond _ p a b => .cond none p.strip a.strip b.strip
  | .loop _ p b => .loop none p.strip b.strip
  | .typcase _ e (n, t, c) cases => .typcase none e.strip (n, t, c.strip) (strip_cases cases)
  | .block _ b0 body => .block none b0.strip (strip_list body)
  | .let_ _ x t init body => .let_ none x t init.strip body.strip
  | .plus _ e1 e2 => .plus none e1.strip e2.strip
  | .sub _ e1 e2 => .sub none e1.strip e2.strip
  | .mul _ e1 e2 => .mul none e1.strip e2.strip
  | .divide _ e1 e2 => .divide none e1.strip e2.strip
  | .neg _ e1 => .neg none e1.strip
  | .lt _ e1 e2 => .lt none e1.strip e2.strip
  | .eq _ e1 e2 => .eq none e1.strip e2.strip
  | .leq _ e1 e2 => .leq none e1.strip e2.strip
  | .comp _ e1 => .comp none e1.strip
  | .int_const _ tok => .int_const none tok
  | .bool_const _ v => .bool_const none v
  | .string_const _ tok => .string_const none tok
  | .new_ _ t => .new_ none t
  | .isvoid _ e1 => .isvoid none e1.strip
  | .no_expr _ => .no_expr none
  | .object _ n => .object none n

/-- The trees of the list with their slots emptied. -/
def strip_list : List Expression → List Expression
  | [] => []
  | e :: es => e.strip :: strip_list es

/-- The branches of the list with their slots emptied. -/
def strip_cases : List (Symbol × Symbol × Expression) → List (Symbol × Symbol × Expression)
  | [] => []
  | (n, t, e) :: cs => (n, t, e.strip) :: strip_cases cs

end

/-- Every expression node of the feature has its slot written. -/
def Feature.typed : Feature → Bool
  | .attr a => a.init.typed
  | .method m => m.expr.typed

/-- The feature with the slots of its expression emptied. -/
def Feature.strip : Feature → Feature
  | .attr a => .attr { a with init := a.init.strip }
  | .method m => .method { m with expr := m.expr.strip }

/-- The class with the slots of its expressions emptied. -/
def Class_.strip (c : Class_) : Class_ := { c with features := c.features.map Feature.strip }

/-- The computation, when it reports nothing and ends with a value, ends with
a value that satisfies `P`. -/
def Checked.Clean {α : Type} (P : α → Prop) (x : Checked α) : Prop :=
  x.errors = [] → ∀ a, x.outcome = .ok a → P a

/-! ## A program that is accepted -/

/-- The class `Main` with the attribute `x : Int <- 1 + 2` and the method
`main() : Object { if x < 3 then new Main else self fi }`. -/
def accepted_Main : Class_ :=
  { name := Main, parent := Object,
    features :=
      [.attr ⟨"x", Int_, .plus none (.int_const none "1") (.int_const none "2")⟩,
        .method ⟨main_meth, [], Object,
          .cond none (.lt none (.object none "x") (.int_const none "3"))
            (.new_ none Main) (.object none self)⟩] }

/-- The class `accepted_Main` as the check leaves it. -/
def accepted_Main_checked : Class_ :=
  { name := Main, parent := Object,
    features :=
      [.attr ⟨"x", Int_,
          .plus (some Int_) (.int_const (some Int_) "1") (.int_const (some Int_) "2")⟩,
        .method ⟨main_meth, [], Object,
          .cond (some Main)
            (.lt (some Bool_) (.object (some Int_) "x") (.int_const (some Int_) "3"))
            (.new_ (some Main) Main) (.object (some SELF_TYPE) self)⟩] }

/-! ## The type of a `case` -/

/-- The fold of `cls_join` over the types `ts`, from left to right, started
with `acc`: each step is `cls_join(t, acc)` as in the loop of
`typcase_class::typecheck`. -/
def join_fold (Γ : Context) : Symbol → List Symbol → Outcome Symbol
  | acc, [] => .ok acc
  | acc, t :: ts =>
    match cls_join Γ.cm Γ.fuel t acc Γ.c with
    | .ok j => join_fold Γ j ts
    | .crash => .crash
    | .timeout => .timeout

/-- The bodies of the branches, each checked in the table `o` with one more
scope that binds the name of the branch to its declared type, return the types
`ts`, in order. -/
def BranchTypes (Γ : Context) (o : SymbolTable) :
    List (Symbol × Symbol × Expression) → List Symbol → Prop
  | [], ts => ts = []
  | (n, T, e) :: rest, ts =>
    ∃ (t : Symbol) (e' : Expression) (o' : SymbolTable) (ts' : List Symbol),
      (Expression.typecheck Γ e ([(n, T)] :: o)).outcome = .ok (t, e', o') ∧
        ts = t :: ts' ∧ BranchTypes Γ o rest ts'

/-! ## A program whose check reports nothing and does not end -/

/-- The class `Main` with the attribute `a : Undefined` and the method
`main() : Object { if true then a else 0 fi }`. -/
def undefattr_Main : Class_ :=
  { name := Main, parent := Object,
    features :=
      [.attr ⟨"a", "Undefined", .no_expr none⟩,
        .method ⟨main_meth, [], Object,
          .cond none (.bool_const none true) (.object none "a") (.int_const none "0")⟩] }

/-! # Theorems -/

/-! ## Association-list facts -/

theorem class_map_find_append (cm : ClassMap) (k : Symbol) (v : Class_) (k' : Symbol) :
    class_map_find (cm ++ [(k, v)]) k' =
      match class_map_find cm k' with
      | some x => some x
      | none => if k = k' then some v else none := by
  induction cm with
  | nil => simp [class_map_find]
  | cons hd tl ih =>
    obtain ⟨k0, v0⟩ := hd
    simp only [List.cons_append, class_map_find]
    by_cases h : k0 = k'
    · simp [h]
    · simp [h, ih]

theorem class_map_find_insert (cm : ClassMap) (k : Symbol) (v : Class_) (k' : Symbol) :
    class_map_find (class_map_insert cm k v) k' =
      match class_map_find cm k' with
      | some x => some x
      | none => if k = k' then some v else none := by
  unfold class_map_insert
  cases hk : class_map_find cm k with
  | none => simp [class_map_find_append]
  | some x =>
    simp only
    cases hk' : class_map_find cm k' with
    | some y => rfl
    | none =>
      have : k ≠ k' := by
        intro e; subst e; rw [hk] at hk'; cases hk'
      simp [this]

theorem class_map_find_mem_keys (cm : ClassMap) (k : Symbol) (c : Class_)
    (h : class_map_find cm k = some c) : k ∈ cm.map Prod.fst := by
  induction cm with
  | nil => simp [class_map_find] at h
  | cons hd tl ih =>
    obtain ⟨k0, v0⟩ := hd
    simp only [class_map_find] at h
    by_cases hk : k0 = k
    · simp [hk]
    · simp only [hk, if_false] at h
      simp [ih h]

theorem class_map_insert_length (cm : ClassMap) (k : Symbol) (v : Class_) :
    (class_map_insert cm k v).length ≤ cm.length + 1 := by
  unfold class_map_insert
  cases class_map_find cm k <;> simp

theorem class_map_find_none_not_mem (cm : ClassMap) (k : Symbol)
    (h : class_map_find cm k = none) : k ∉ cm.map Prod.fst := by
  induction cm with
  | nil => simp
  | cons hd tl ih =>
    obtain ⟨k0, v0⟩ := hd
    simp only [class_map_find] at h
    by_cases hk : k0 = k
    · simp [hk] at h
    · simp only [hk, if_false] at h
      simp only [List.map_cons, List.mem_cons, not_or]
      exact ⟨fun e => hk e.symm, ih h⟩

theorem class_map_find_of_mem (cm : ClassMap) (hn : (cm.map Prod.fst).Nodup) (k : Symbol)
    (c : Class_) (h : (k, c) ∈ cm) : class_map_find cm k = some c := by
  induction cm with
  | nil => cases h
  | cons hd tl ih =>
    obtain ⟨k0, v0⟩ := hd
    simp only [List.map_cons, List.nodup_cons] at hn
    simp only [class_map_find]
    rcases List.mem_cons.mp h with e | h'
    · cases e; simp
    · have : k0 ≠ k := by
        intro e
        subst e
        exact hn.1 (List.mem_map.mpr ⟨(k0, c), h', rfl⟩)
      simp only [this, if_false]
      exact ih hn.2 h'

theorem class_map_mem_of_find (cm : ClassMap) (k : Symbol) (c : Class_)
    (h : class_map_find cm k = some c) : (k, c) ∈ cm := by
  induction cm with
  | nil => simp [class_map_find] at h
  | cons hd tl ih =>
    obtain ⟨k0, v0⟩ := hd
    simp only [class_map_find] at h
    by_cases hk : k0 = k
    · simp only [hk, if_true, Option.some.injEq] at h
      subst h; subst hk
      exact List.mem_cons_self _ _
    · simp only [hk, if_false] at h
      exact List.mem_cons_of_mem _ (ih h)

theorem class_map_insert_nodup (cm : ClassMap) (k : Symbol) (v : Class_)
    (hn : (cm.map Prod.fst).Nodup) : ((class_map_insert cm k v).map Prod.fst).Nodup := by
  unfold class_map_insert
  cases hk : class_map_find cm k with
  | some x => exact hn
  | none =>
    simp only [List.map_append, List.map_cons, List.map_nil]
    apply List.Nodup.append hn (List.nodup_singleton _)
    intro a ha hb
    simp only [List.mem_singleton] at hb
    subst hb
    exact class_map_find_none_not_mem cm a hk ha

/-! ## Registration -/

theorem register_classes_nodup (classes : List Class_) :
    ∀ (cm cm' : ClassMap) (o : Option SemantError), register_classes classes cm = (cm', o) →
      (cm.map Prod.fst).Nodup → (cm'.map Prod.fst).Nodup := by
  induction classes with
  | nil =>
    intro cm cm' o h hn
    simp only [register_classes, Prod.mk.injEq] at h
    rw [← h.1]; exact hn
  | cons cls rest ih =>
    intro cm cm' o h hn
    simp only [register_classes] at h
    split at h
    · simp only [Prod.mk.injEq] at h; rw [← h.1]; exact hn
    · split at h
      · simp only [Prod.mk.injEq] at h; rw [← h.1]; exact hn
      · exact ih _ _ _ h (class_map_insert_nodup cm _ _ hn)

theorem install_basic_classes_nodup : (install_basic_classes.map Prod.fst).Nodup := by
  have e : install_basic_classes =
      [(Object, Object_class), (IO_, IO_class), (Int_, Int_class), (Bool_, Bool_class),
        (Str, Str_class)] := by rfl
  rw [e]
  decide


theorem register_classes_spec (classes : List Class_) :
    ∀ (cm cm' : ClassMap), register_classes classes cm = (cm', none) →
      (∀ k c, class_map_find cm k = some c → class_map_find cm' k = some c) ∧
      (∀ k c, class_map_find cm' k = some c →
        class_map_find cm k = some c ∨ (c ∈ classes ∧ c.name = k)) ∧
      (∀ c ∈ classes, class_map_find cm' c.name = some c) ∧
      (∀ c ∈ classes, c.name ≠ SELF_TYPE) := by
  induction classes with
  | nil =>
    intro cm cm' h
    simp only [register_classes, Prod.mk.injEq, and_true] at h
    subst h
    simp
  | cons cls rest ih =>
    intro cm cm' h
    simp only [register_classes] at h
    split at h
    · simp at h
    · rename_i hfind
      split at h
      · simp at h
      · rename_i hself
        have hnone : class_map_find cm cls.name = none := by
          cases hc : class_map_find cm cls.name with
          | none => rfl
          | some x => simp [hc] at hfind
        obtain ⟨h1, h2, h3, h4⟩ := ih _ _ h
        have hins : ∀ k c, class_map_find cm k = some c →
            class_map_find (class_map_insert cm cls.name cls) k = some c := by
          intro k c hk
          rw [class_map_find_insert, hk]
        refine ⟨fun k c hk => h1 k c (hins k c hk), ?_, ?_, ?_⟩
        · intro k c hk
          rcases h2 k c hk with h' | ⟨hm, hn⟩
          · rw [class_map_find_insert] at h'
            cases hck : class_map_find cm k with
            | some x =>
              rw [hck] at h'
              exact Or.inl h'
            | none =>
              rw [hck] at h'
              simp only at h'
              by_cases hkk : cls.name = k
              · simp only [hkk, if_true, Option.some.injEq] at h'
                subst h'
                exact Or.inr ⟨List.mem_cons_self _ _, hkk⟩
              · simp [hkk] at h'
          · exact Or.inr ⟨List.mem_cons_of_mem _ hm, hn⟩
        · intro c hc
          rcases List.mem_cons.mp hc with rfl | hc
          · apply h1
            rw [class_map_find_insert, hnone]
            simp
          · exact h3 c hc
        · intro c hc
          rcases List.mem_cons.mp hc with rfl | hc
          · exact hself
          · exact h4 c hc

theorem register_classes_error_or (classes : List Class_) :
    ∀ (cm : ClassMap), ∃ cm', register_classes classes cm = (cm', none) ∨
      (∃ n, register_classes classes cm = (cm', some (.redefinition_of_class n))) ∨
      register_classes classes cm = (cm', some .redefinition_of_SELF_TYPE) := by
  induction classes with
  | nil => intro cm; exact ⟨cm, Or.inl rfl⟩
  | cons cls rest ih =>
    intro cm
    simp only [register_classes]
    split
    · exact ⟨cm, Or.inr (Or.inl ⟨cls.name, rfl⟩)⟩
    · split
      · exact ⟨cm, Or.inr (Or.inr rfl)⟩
      · exact ih _

theorem install_basic_classes_find (k : Symbol) (c : Class_)
    (h : class_map_find install_basic_classes k = some c) :
    c.name = k ∧ (c = Object_class ∨ c.parent = Object) := by
  have e : install_basic_classes =
      [(Object, Object_class), (IO_, IO_class), (Int_, Int_class), (Bool_, Bool_class),
        (Str, Str_class)] := by rfl
  rw [e] at h
  simp only [class_map_find] at h
  split at h
  · cases h; rename_i hk; exact ⟨hk, Or.inl rfl⟩
  · split at h
    · cases h; rename_i hk; exact ⟨hk, Or.inr rfl⟩
    · split at h
      · cases h; rename_i hk; exact ⟨hk, Or.inr rfl⟩
      · split at h
        · cases h; rename_i hk; exact ⟨hk, Or.inr rfl⟩
        · split at h
          · cases h; rename_i hk; exact ⟨hk, Or.inr rfl⟩
          · cases h

theorem install_basic_classes_Object :
    class_map_find install_basic_classes Object = some Object_class := by rfl

theorem install_basic_classes_No_class :
    class_map_find install_basic_classes No_class = none := by rfl

theorem install_basic_classes_SELF_TYPE :
    class_map_find install_basic_classes SELF_TYPE = none := by rfl

/-! ## The parent walk of the constructor -/

theorem check_parents_reach (cm : ClassMap) (start : Symbol)
    (hObj : (class_map_find cm Object).isSome = true) :
    ∀ (fuel : Nat) (cls : Class_), check_parents cm start fuel cls = some none →
      ∃ n, nth_parent cm n cls.parent = some Object := by
  intro fuel
  induction fuel with
  | zero =>
    intro cls h
    unfold check_parents at h
    split at h
    · rename_i hp
      exact ⟨0, by simp [nth_parent, hp, hObj]⟩
    · simp at h
  | succ fuel ih =>
    intro cls h
    unfold check_parents at h
    split at h
    · rename_i hp
      exact ⟨0, by simp [nth_parent, hp, hObj]⟩
    · simp only at h
      split at h
      · simp at h
      · rename_i pcls hfind
        split at h
        · simp at h
        · split at h
          · simp at h
          · obtain ⟨n, hn⟩ := ih pcls h
            exact ⟨n + 1, by simp [nth_parent, hfind, hn]⟩

theorem check_all_parents_reach (cm : ClassMap) (fuel : Nat)
    (hObj : (class_map_find cm Object).isSome = true) :
    ∀ (classes : List Class_), check_all_parents cm fuel classes = some none →
      ∀ c ∈ classes, ∃ n, nth_parent cm n c.parent = some Object := by
  intro classes
  induction classes with
  | nil => intro _ c hc; cases hc
  | cons cls rest ih =>
    intro h c hc
    simp only [check_all_parents] at h
    split at h
    · simp at h
    · simp at h
    · rename_i hcp
      rcases List.mem_cons.mp hc with rfl | hc
      · exact check_parents_reach cm _ hObj fuel _ hcp
      · exact ih h c hc

/-- What a construction without error leaves behind. -/
theorem ClassTable_ok (fuel : Nat) (classes : List Class_) (cm : ClassMap)
    (h : ClassTable fuel classes = some (cm, [])) :
    register_classes classes install_basic_classes = (cm, none) ∧
      check_all_parents cm fuel classes = some none := by
  unfold ClassTable at h
  split at h
  · simp at h
  · rename_i cm' hreg
    split at h
    · simp at h
    · split at h
      · simp at h
      · simp at h
      · rename_i hall
        simp only [Option.some.injEq, Prod.mk.injEq, and_true] at h
        subst h
        exact ⟨hreg, hall⟩

theorem install_basic_classes_entries :
    class_map_find install_basic_classes IO_ = some IO_class ∧
      class_map_find install_basic_classes Int_ = some Int_class ∧
      class_map_find install_basic_classes Bool_ = some Bool_class ∧
      class_map_find install_basic_classes Str = some Str_class :=
  ⟨rfl, rfl, rfl, rfl⟩

/-- The facts a construction without error establishes about `class_map`. -/
theorem ClassTable_ok_structure (fuel : Nat) (classes : List Class_) (cm : ClassMap)
    (h : ClassTable fuel classes = some (cm, [])) :
    (∀ k c, class_map_find cm k = some c → c.name = k) ∧
    (∀ k c, class_map_find cm k = some c → ∃ n, nth_parent cm n k = some Object) ∧
    (class_map_find cm Object = some Object_class ∧ class_map_find cm IO_ = some IO_class ∧
      class_map_find cm Int_ = some Int_class ∧ class_map_find cm Bool_ = some Bool_class ∧
      class_map_find cm Str = some Str_class) ∧
    (∀ c ∈ classes, class_map_find cm c.name = some c) ∧
    class_map_find cm SELF_TYPE = none ∧
    ((∀ c ∈ classes, c.name ≠ No_class) → class_map_find cm No_class = none) := by
  obtain ⟨hreg, hall⟩ := ClassTable_ok fuel classes cm h
  obtain ⟨h1, h2, h3, h4⟩ := register_classes_spec classes _ _ hreg
  have hObj : class_map_find cm Object = some Object_class :=
    h1 _ _ install_basic_classes_Object
  have hObj' : (class_map_find cm Object).isSome = true := by simp [hObj]
  have hreach := check_all_parents_reach cm fuel hObj' classes hall
  have hkey : ∀ k c, class_map_find cm k = some c → c.name = k := by
    intro k c hk
    rcases h2 k c hk with hb | ⟨_, hn⟩
    · exact (install_basic_classes_find k c hb).1
    · exact hn
  obtain ⟨b1, b2, b3, b4⟩ := install_basic_classes_entries
  refine ⟨hkey, ?_, ⟨hObj, h1 _ _ b1, h1 _ _ b2, h1 _ _ b3, h1 _ _ b4⟩, h3, ?_, ?_⟩
  · intro k c hk
    rcases h2 k c hk with hb | ⟨hm, hn⟩
    · rcases (install_basic_classes_find k c hb).2 with hc | hc
      · subst hc
        have : k = Object := (hkey k _ hk).symm
        subst this
        exact ⟨0, by simp [nth_parent, hObj]⟩
      · exact ⟨1, by simp [nth_parent, hk, hc, hObj]⟩
    · obtain ⟨n, hn'⟩ := hreach c hm
      exact ⟨n + 1, by simp [nth_parent, hk, hn']⟩
  · cases hc : class_map_find cm SELF_TYPE with
    | none => rfl
    | some c =>
      rcases h2 _ c hc with hb | ⟨hm, hn⟩
      · rw [install_basic_classes_SELF_TYPE] at hb; cases hb
      · exact absurd hn (h4 c hm)
  · intro hNo
    cases hc : class_map_find cm No_class with
    | none => rfl
    | some c =>
      rcases h2 _ c hc with hb | ⟨hm, hn⟩
      · rw [install_basic_classes_No_class] at hb; cases hb
      · exact absurd hn (hNo c hm)

theorem Validated.hierarchy {cm : ClassMap} (hv : Validated cm) : Hierarchy cm := by
  obtain ⟨classes, fuel, hNo, h⟩ := hv
  obtain ⟨hkey, hreach, ⟨hObj, _⟩, _, hself, hno⟩ := ClassTable_ok_structure fuel classes cm h
  have hnd := register_classes_nodup classes _ _ _ (ClassTable_ok fuel classes cm h).1
    install_basic_classes_nodup
  exact ⟨hkey, hreach, ⟨Object_class, hObj, rfl⟩, hno hNo, hself, hnd⟩

/-! ## Parent chains -/

theorem nth_parent_of_not_found (cm : ClassMap) (k : Symbol)
    (h : class_map_find cm k = none) : ∀ n, nth_parent cm n k = none := by
  intro n
  cases n <;> simp [nth_parent, h]

theorem nth_parent_zero_eq (cm : ClassMap) (k s : Symbol) (h : nth_parent cm 0 k = some s) :
    k = s := by
  simp only [nth_parent] at h
  split at h
  · exact Option.some.inj h
  · cases h

theorem nth_parent_source (cm : ClassMap) (n : Nat) (k s : Symbol)
    (h : nth_parent cm n k = some s) : ∃ c, class_map_find cm k = some c := by
  cases hk : class_map_find cm k with
  | some c => exact ⟨c, rfl⟩
  | none => rw [nth_parent_of_not_found cm k hk] at h; cases h

theorem nth_parent_target (cm : ClassMap) : ∀ (n : Nat) (k s : Symbol),
    nth_parent cm n k = some s → ∃ c, class_map_find cm s = some c := by
  intro n
  induction n with
  | zero =>
    intro k s h
    have := nth_parent_zero_eq cm k s h
    subst this
    exact nth_parent_source cm 0 k k h
  | succ n ih =>
    intro k s h
    simp only [nth_parent] at h
    split at h
    · cases h
    · exact ih _ _ h

theorem nth_parent_self (cm : ClassMap) (k : Symbol) (c : Class_)
    (h : class_map_find cm k = some c) : nth_parent cm 0 k = some k := by
  simp [nth_parent, h]

theorem nth_parent_succ (cm : ClassMap) (n : Nat) (k : Symbol) (c : Class_)
    (h : class_map_find cm k = some c) : nth_parent cm (n + 1) k = nth_parent cm n c.parent := by
  simp [nth_parent, h]

theorem nth_parent_add (cm : ClassMap) : ∀ (a b : Nat) (k : Symbol),
    nth_parent cm (a + b) k = (nth_parent cm a k).bind (nth_parent cm b) := by
  intro a
  induction a with
  | zero =>
    intro b k
    cases hk : class_map_find cm k with
    | none => simp [nth_parent_of_not_found cm k hk]
    | some c => simp [nth_parent_self cm k c hk]
  | succ a ih =>
    intro b k
    cases hk : class_map_find cm k with
    | none => simp [nth_parent_of_not_found cm k hk]
    | some c =>
      have e : a + 1 + b = (a + b) + 1 := by omega
      rw [e, nth_parent_succ cm _ k c hk, nth_parent_succ cm _ k c hk, ih]

theorem Ancestor.refl {cm : ClassMap} {k : Symbol} {c : Class_}
    (h : class_map_find cm k = some c) : Ancestor cm k k :=
  ⟨0, nth_parent_self cm k c h⟩

theorem Ancestor.trans {cm : ClassMap} {x y z : Symbol}
    (h1 : Ancestor cm x y) (h2 : Ancestor cm y z) : Ancestor cm x z := by
  obtain ⟨n, hn⟩ := h1
  obtain ⟨m, hm⟩ := h2
  exact ⟨n + m, by rw [nth_parent_add, hn]; exact hm⟩

theorem Hierarchy.above_Object {cm : ClassMap} (H : Hierarchy cm) (n : Nat) :
    nth_parent cm (n + 1) Object = none := by
  obtain ⟨c, hc, hp⟩ := H.object
  rw [nth_parent_succ cm n Object c hc, hp]
  exact nth_parent_of_not_found cm _ H.no_class n

theorem Hierarchy.step_depth {cm : ClassMap} (H : Hierarchy cm) {n d : Nat} {x y : Symbol}
    (hn : nth_parent cm n x = some y) (hd : nth_parent cm d x = some Object) :
    n ≤ d ∧ nth_parent cm (d - n) y = some Object := by
  by_cases hle : n ≤ d
  · refine ⟨hle, ?_⟩
    have e : d = n + (d - n) := by omega
    rw [e, nth_parent_add, hn] at hd
    exact hd
  · exfalso
    obtain ⟨m, hm⟩ : ∃ m, n = d + (m + 1) := ⟨n - d - 1, by omega⟩
    rw [hm, nth_parent_add, hd] at hn
    simp only [Option.some_bind] at hn
    rw [H.above_Object] at hn
    cases hn

theorem Hierarchy.depth_unique {cm : ClassMap} (H : Hierarchy cm) {a b : Nat} {k : Symbol}
    (ha : nth_parent cm a k = some Object) (hb : nth_parent cm b k = some Object) : a = b := by
  have h1 := (H.step_depth ha hb).1
  have h2 := (H.step_depth hb ha).1
  omega

theorem Hierarchy.antisymm {cm : ClassMap} (H : Hierarchy cm) {x y : Symbol}
    (h1 : Ancestor cm x y) (h2 : Ancestor cm y x) : x = y := by
  obtain ⟨n, hn⟩ := h1
  obtain ⟨m, hm⟩ := h2
  obtain ⟨c, hc⟩ := nth_parent_source cm n x y hn
  obtain ⟨d, hd⟩ := H.reach x c hc
  obtain ⟨hnd, hy⟩ := H.step_depth hn hd
  obtain ⟨hmd, hx⟩ := H.step_depth hm hy
  have := H.depth_unique hd hx
  have hn0 : n = 0 := by omega
  subst hn0
  exact nth_parent_zero_eq cm x y hn

theorem Hierarchy.depth_lt_length {cm : ClassMap} (H : Hierarchy cm) {d : Nat} {k : Symbol}
    (hd : nth_parent cm d k = some Object) : d < cm.length := by
  have hsome : ∀ i, i ≤ d → ∃ y, nth_parent cm i k = some y ∧
      nth_parent cm (d - i) y = some Object := by
    intro i hi
    have e : d = i + (d - i) := by omega
    have hd' := hd
    rw [e, nth_parent_add] at hd'
    cases hy : nth_parent cm i k with
    | none => rw [hy] at hd'; cases hd'
    | some y => rw [hy] at hd'; exact ⟨y, rfl, hd'⟩
  have hnodup : ((List.range (d + 1)).map (fun i => nth_parent cm i k)).Nodup := by
    apply List.Nodup.map_on _ (List.nodup_range _)
    intro i hi j hj hij
    have hi' : i ≤ d := by have := List.mem_range.mp hi; omega
    have hj' : j ≤ d := by have := List.mem_range.mp hj; omega
    obtain ⟨y, hy, hyd⟩ := hsome i hi'
    obtain ⟨z, hz, hzd⟩ := hsome j hj'
    rw [hy, hz] at hij
    cases hij
    have := H.depth_unique hyd hzd
    omega
  have hsub : (List.range (d + 1)).map (fun i => nth_parent cm i k) ⊆
      cm.map (fun p => some p.1) := by
    intro o ho
    obtain ⟨i, hi, rfl⟩ := List.mem_map.mp ho
    have hi' : i ≤ d := by have := List.mem_range.mp hi; omega
    obtain ⟨y, hy, _⟩ := hsome i hi'
    obtain ⟨c, hc⟩ := nth_parent_target cm i k y hy
    have := class_map_find_mem_keys cm y c hc
    obtain ⟨p, hp, rfl⟩ := List.mem_map.mp this
    rw [hy]
    exact List.mem_map.mpr ⟨p, hp, rfl⟩
  have := (List.subperm_of_subset hnodup hsub).length_le
  simp only [List.length_map, List.length_range] at this
  omega

/-! ## Conformance and join on a validated hierarchy -/

theorem Hierarchy.is_subclass_loop_spec {cm : ClassMap} (H : Hierarchy cm) (super : Symbol) :
    ∀ (d : Nat) (k : Symbol), nth_parent cm d k = some Object → ∀ fuel, d < fuel →
      ∃ b, is_subclass_loop cm super fuel (class_map_find cm k) = some b ∧
        (b = true ↔ Ancestor cm k super) := by
  intro d
  induction d with
  | zero =>
    intro k hk fuel hf
    have hkO := nth_parent_zero_eq cm k _ hk
    subst hkO
    obtain ⟨c, hc, hp⟩ := H.object
    obtain ⟨f, rfl⟩ : ∃ f, fuel = f + 1 := ⟨fuel - 1, by omega⟩
    rw [hc]
    simp only [is_subclass_loop]
    have hname := H.key_name _ _ hc
    by_cases hs : c.name = super
    · refine ⟨true, by simp [hs], ?_⟩
      simp only [true_iff]
      rw [← hs, hname]
      exact Ancestor.refl hc
    · refine ⟨false, ?_, ?_⟩
      · simp only [hs, if_false, hp, H.no_class]
        cases f <;> rfl
      · simp only [Bool.false_eq_true, false_iff]
        rintro ⟨n, hn⟩
        cases n with
        | zero => exact hs (by rw [hname]; exact nth_parent_zero_eq cm _ _ hn)
        | succ n => rw [H.above_Object] at hn; cases hn
  | succ d ih =>
    intro k hk fuel hf
    obtain ⟨c, hc⟩ := nth_parent_source cm _ k _ hk
    obtain ⟨f, rfl⟩ : ∃ f, fuel = f + 1 := ⟨fuel - 1, by omega⟩
    rw [nth_parent_succ cm d k c hc] at hk
    rw [hc]
    simp only [is_subclass_loop]
    have hname := H.key_name _ _ hc
    by_cases hs : c.name = super
    · refine ⟨true, by simp [hs], ?_⟩
      simp only [true_iff]
      rw [← hs, hname]
      exact Ancestor.refl hc
    · obtain ⟨b, hb, hiff⟩ := ih c.parent hk f (by omega)
      refine ⟨b, by simp [hs, hb], ?_⟩
      rw [hiff]
      constructor
      · rintro ⟨n, hn⟩
        exact ⟨n + 1, by rw [nth_parent_succ cm n k c hc]; exact hn⟩
      · rintro ⟨n, hn⟩
        cases n with
        | zero => exact absurd (by rw [hname]; exact nth_parent_zero_eq cm _ _ hn) hs
        | succ n => rw [nth_parent_succ cm n k c hc] at hn; exact ⟨n, hn⟩

/-- On a validated hierarchy, with fuel for the longest chain, the loop of
`is_subclass` started at a class `k` decides whether `super` is on the chain
of `k`. -/
theorem Hierarchy.is_subclass_loop_iff {cm : ClassMap} (H : Hierarchy cm) (super k : Symbol)
    (c : Class_) (hk : class_map_find cm k = some c) (fuel : Nat) (hf : cm.length ≤ fuel) :
    ∃ b, is_subclass_loop cm super fuel (class_map_find cm k) = some b ∧
      (b = true ↔ Ancestor cm k super) := by
  obtain ⟨d, hd⟩ := H.reach k c hk
  have := H.depth_lt_length hd
  exact H.is_subclass_loop_spec super d k hd fuel (by omega)

theorem is_subclass_loop_true_ancestor (cm : ClassMap) (super : Symbol)
    (hkey : ∀ k c, class_map_find cm k = some c → c.name = k) :
    ∀ (fuel : Nat) (k : Symbol),
      is_subclass_loop cm super fuel (class_map_find cm k) = some true → Ancestor cm k super := by
  intro fuel
  induction fuel with
  | zero =>
    intro k h
    cases hk : class_map_find cm k with
    | none => rw [hk] at h; simp [is_subclass_loop] at h
    | some c => rw [hk] at h; simp [is_subclass_loop] at h
  | succ f ih =>
    intro k h
    cases hk : class_map_find cm k with
    | none => rw [hk] at h; simp [is_subclass_loop] at h
    | some c =>
      rw [hk] at h
      simp only [is_subclass_loop] at h
      split at h
      · rename_i hs
        rw [← hs, hkey k c hk]
        exact Ancestor.refl hk
      · obtain ⟨n, hn⟩ := ih _ h
        exact ⟨n + 1, by rw [nth_parent_succ cm n k c hk]; exact hn⟩

theorem Hierarchy.is_subclass_class {cm : ClassMap} (H : Hierarchy cm) (sub super : Symbol)
    (C cs : Class_) (hs : class_map_find cm sub = some cs) (fuel : Nat)
    (hf : cm.length ≤ fuel) :
    ∃ b, is_subclass cm fuel sub super C = some b ∧ (b = true ↔ Ancestor cm sub super) := by
  have hne : sub ≠ SELF_TYPE := by
    intro e; rw [e, H.self_type] at hs; cases hs
  simp only [is_subclass, hne, if_false]
  exact H.is_subclass_loop_iff super sub cs hs fuel hf

theorem is_subclass_class_true (cm : ClassMap)
    (hkey : ∀ k c, class_map_find cm k = some c → c.name = k) (sub super : Symbol)
    (C : Class_) (hne : sub ≠ SELF_TYPE) (fuel : Nat)
    (h : is_subclass cm fuel sub super C = some true) : Ancestor cm sub super := by
  simp only [is_subclass, hne, if_false] at h
  exact is_subclass_loop_true_ancestor cm super hkey fuel sub h

theorem Hierarchy.cls_join_loop_spec {cm : ClassMap} (H : Hierarchy cm) (C cb : Class_)
    (b : Symbol) (hb : class_map_find cm b = some cb) (fuel : Nat) (hf : cm.length ≤ fuel) :
    ∀ (d : Nat) (x : Symbol), nth_parent cm d x = some Object → ∀ n, d ≤ n →
      ∃ j, cls_join_loop cm fuel b C n (class_map_find cm x) = .ok j ∧
        Ancestor cm x j ∧ Ancestor cm b j ∧
        ∀ D, Ancestor cm x D → Ancestor cm b D → Ancestor cm j D := by
  intro d
  induction d with
  | zero =>
    intro x hx n _
    have hxO := nth_parent_zero_eq cm x _ hx
    subst hxO
    obtain ⟨c, hc, _⟩ := H.object
    have hname := H.key_name _ _ hc
    obtain ⟨bb, hbb, hiff⟩ := H.is_subclass_class b c.name C cb hb fuel hf
    have hanc : Ancestor cm b c.name := by rw [hname]; exact H.reach b cb hb
    have hbt : bb = true := hiff.mpr hanc
    subst hbt
    refine ⟨c.name, ?_, ?_, hanc, ?_⟩
    · rw [hc]; cases n <;> simp [cls_join_loop, hbb]
    · rw [hname]; exact Ancestor.refl hc
    · intro D hD _; rw [hname]; exact hD
  | succ d ih =>
    intro x hx n hn
    obtain ⟨c, hc⟩ := nth_parent_source cm _ x _ hx
    rw [nth_parent_succ cm d x c hc] at hx
    have hname := H.key_name _ _ hc
    obtain ⟨bb, hbb, hiff⟩ := H.is_subclass_class b c.name C cb hb fuel hf
    cases bb with
    | true =>
      have hanc : Ancestor cm b c.name := hiff.mp rfl
      refine ⟨c.name, ?_, ?_, hanc, ?_⟩
      · rw [hc]; cases n <;> simp [cls_join_loop, hbb]
      · rw [hname]; exact Ancestor.refl hc
      · intro D hD _; rw [hname]; exact hD
    | false =>
      obtain ⟨n', rfl⟩ : ∃ n', n = n' + 1 := ⟨n - 1, by omega⟩
      obtain ⟨j, hj, hxj, hbj, hleast⟩ := ih c.parent hx n' (by omega)
      refine ⟨j, ?_, ?_, hbj, ?_⟩
      · rw [hc]; simp [cls_join_loop, hbb, hj]
      · obtain ⟨m, hm⟩ := hxj
        exact ⟨m + 1, by rw [nth_parent_succ cm m x c hc]; exact hm⟩
      · intro D hD hbD
        obtain ⟨m, hm⟩ := hD
        cases m with
        | zero =>
          exfalso
          have := nth_parent_zero_eq cm _ _ hm
          subst this
          rw [hname] at hiff
          have := hiff.mpr hbD
          cases this
        | succ m =>
          rw [nth_parent_succ cm m x c hc] at hm
          exact hleast D ⟨m, hm⟩ hbD

theorem scenario_ClassTable : ClassTable 2 scenario_classes = some (scenario_class_map, []) := by
  rfl

theorem scenario_validated : Validated scenario_class_map :=
  ⟨scenario_classes, 2, by decide, scenario_ClassTable⟩

theorem nth_parent_prefix (cm : ClassMap) (n : Nat) (k s : Symbol)
    (h : nth_parent cm n k = some s) (i : Nat) (hi : i ≤ n) :
    ∃ t c, nth_parent cm i k = some t ∧ class_map_find cm t = some c := by
  have e : n = i + (n - i) := by omega
  rw [e, nth_parent_add] at h
  cases ht : nth_parent cm i k with
  | none => rw [ht] at h; cases h
  | some t =>
    obtain ⟨c, hc⟩ := nth_parent_target cm i k t ht
    exact ⟨t, c, rfl, hc⟩

theorem Hierarchy.no_cycle {cm : ClassMap} (H : Hierarchy cm) (k : Symbol) (n : Nat) :
    nth_parent cm (n + 1) k ≠ some k := by
  intro h
  obtain ⟨c, hc⟩ := nth_parent_source cm _ k k h
  obtain ⟨d, hd⟩ := H.reach k c hc
  obtain ⟨hle, hd'⟩ := H.step_depth h hd
  have := H.depth_unique hd hd'
  omega

theorem Hierarchy.is_subclass_resolved {cm : ClassMap} (H : Hierarchy cm) (A super : Symbol)
    (C : Class_) (hC : class_map_find cm C.name = some C)
    (hA : A = SELF_TYPE ∨ ∃ ca, class_map_find cm A = some ca) (hs : super ≠ SELF_TYPE)
    (fuel : Nat) (hf : cm.length ≤ fuel) :
    ∃ b, is_subclass cm fuel A super C = some b ∧
      (b = true ↔ Ancestor cm (if A = SELF_TYPE then C.name else A) super) := by
  by_cases hA' : A = SELF_TYPE
  · simp only [is_subclass, hA', if_true, hs, if_false]
    exact H.is_subclass_loop_iff super C.name C hC fuel hf
  · rcases hA with hA | ⟨ca, hca⟩
    · exact absurd hA hA'
    · simp only [hA', if_false]
      exact H.is_subclass_class A super C ca hca fuel hf

/-! ## The claims on the hierarchy -/

/-- C1: when the construction of the class table finishes without an error,
the five basic classes and every user class are in the table under their own
names, every class of the table reaches `Object` by finitely many parent
links through classes of the table, and (no class bearing the reserved name
`_no_class`) no class is its own proper ancestor: the table is a tree rooted
at `Object`. -/
theorem C1_validated_hierarchy_is_tree (fuel : Nat) (classes : List Class_) (cm : ClassMap)
    (h : ClassTable fuel classes = some (cm, [])) :
    (class_map_find cm Object = some Object_class ∧ class_map_find cm IO_ = some IO_class ∧
      class_map_find cm Int_ = some Int_class ∧ class_map_find cm Bool_ = some Bool_class ∧
      class_map_find cm Str = some Str_class) ∧
    (∀ c ∈ classes, class_map_find cm c.name = some c) ∧
    (∀ k c, class_map_find cm k = some c →
      c.name = k ∧
      ∃ n, nth_parent cm n k = some Object ∧
        ∀ i, i ≤ n → ∃ t ct, nth_parent cm i k = some t ∧ class_map_find cm t = some ct) ∧
    ((∀ c ∈ classes, c.name ≠ No_class) →
      class_map_find cm No_class = none ∧ ∀ k n, nth_parent cm (n + 1) k ≠ some k) := by
  obtain ⟨hkey, hreach, hbasic, huser, _, hno⟩ := ClassTable_ok_structure fuel classes cm h
  refine ⟨hbasic, huser, ?_, ?_⟩
  · intro k c hk
    obtain ⟨n, hn⟩ := hreach k c hk
    exact ⟨hkey k c hk, n, hn, nth_parent_prefix cm n k _ hn⟩
  · intro hNo
    have H : Hierarchy cm := Validated.hierarchy ⟨classes, fuel, hNo, h⟩
    exact ⟨hno hNo, H.no_cycle⟩

theorem C1_validated_hierarchy_is_tree_witness :
    ClassTable 2 scenario_classes = some (scenario_class_map, []) ∧
      (∀ c ∈ scenario_classes, c.name ≠ No_class) ∧
      ∀ k n, nth_parent scenario_class_map (n + 1) k ≠ some k :=
  ⟨scenario_ClassTable, by decide,
    ((C1_validated_hierarchy_is_tree 2 scenario_classes scenario_class_map
      scenario_ClassTable).2.2.2 (by decide)).2⟩

/-- The join on a validated hierarchy, with fuel for the longest chain: it
returns a class `j` that is on the chain of both resolved arguments and below
every other such class. -/
theorem Hierarchy.cls_join_spec {cm : ClassMap} (H : Hierarchy cm) (C : Class_)
    (hC : class_map_find cm C.name = some C) (A B : Symbol)
    (hA : A = SELF_TYPE ∨ ∃ ca, class_map_find cm A = some ca)
    (hB : B = SELF_TYPE ∨ ∃ cb, class_map_find cm B = some cb)
    (fuel : Nat) (hf : cm.length ≤ fuel) :
    ∃ j, cls_join cm fuel A B C = .ok j ∧
      Ancestor cm (if A = SELF_TYPE then C.name else A) j ∧
      Ancestor cm (if B = SELF_TYPE then C.name else B) j ∧
      ∀ D, Ancestor cm (if A = SELF_TYPE then C.name else A) D →
        Ancestor cm (if B = SELF_TYPE then C.name else B) D → Ancestor cm j D := by
  have hA' : ∃ ca, class_map_find cm (if A = SELF_TYPE then C.name else A) = some ca := by
    by_cases h : A = SELF_TYPE
    · simp only [h, if_true]; exact ⟨C, hC⟩
    · simp only [h, if_false]; rcases hA with hA | hA
      · exact absurd hA h
      · exact hA
  have hB' : ∃ cb, class_map_find cm (if B = SELF_TYPE then C.name else B) = some cb := by
    by_cases h : B = SELF_TYPE
    · simp only [h, if_true]; exact ⟨C, hC⟩
    · simp only [h, if_false]; rcases hB with hB | hB
      · exact absurd hB h
      · exact hB
  obtain ⟨ca, hca⟩ := hA'
  obtain ⟨cb, hcb⟩ := hB'
  obtain ⟨d, hd⟩ := H.reach _ ca hca
  have hlt := H.depth_lt_length hd
  exact H.cls_join_loop_spec C cb _ hcb fuel hf d _ hd fuel (by omega)

/-- C2: on a validated hierarchy, for every current class `C` of it and all
`A`, `B` that are `SELF_TYPE` or classes of it, `cls_join(A, B, C)` returns
(for every fuel that covers the table) the name of a class of the table, not
`SELF_TYPE`, to which both `A` and `B` conform by `is_subclass`. -/
theorem C2_cls_join_upper_bound (cm : ClassMap) (hv : Validated cm) (C : Class_)
    (hC : class_map_find cm C.name = some C) (A B : Symbol)
    (hA : A = SELF_TYPE ∨ ∃ ca, class_map_find cm A = some ca)
    (hB : B = SELF_TYPE ∨ ∃ cb, class_map_find cm B = some cb)
    (fuel : Nat) (hf : cm.length ≤ fuel) :
    ∃ j, cls_join cm fuel A B C = .ok j ∧ j ≠ SELF_TYPE ∧
      (∃ cj, class_map_find cm j = some cj) ∧
      is_subclass cm fuel A j C = some true ∧ is_subclass cm fuel B j C = some true := by
  have H := hv.hierarchy
  obtain ⟨j, hj, haj, hbj, _⟩ := H.cls_join_spec C hC A B hA hB fuel hf
  obtain ⟨n, hn⟩ := haj
  obtain ⟨cj, hcj⟩ := nth_parent_target cm n _ j hn
  have hjs : j ≠ SELF_TYPE := by
    intro e; rw [e, H.self_type] at hcj; cases hcj
  obtain ⟨b1, hb1, hiff1⟩ := H.is_subclass_resolved A j C hC hA hjs fuel hf
  obtain ⟨b2, hb2, hiff2⟩ := H.is_subclass_resolved B j C hC hB hjs fuel hf
  have e1 : b1 = true := hiff1.mpr ⟨n, hn⟩
  have e2 : b2 = true := hiff2.mpr hbj
  subst e1 e2
  exact ⟨j, hj, hjs, ⟨cj, hcj⟩, hb1, hb2⟩

theorem C2_cls_join_upper_bound_witness :
    ∃ j, cls_join scenario_class_map 8 SELF_TYPE Int_ scenario_A = .ok j ∧ j ≠ SELF_TYPE ∧
      (∃ cj, class_map_find scenario_class_map j = some cj) ∧
      is_subclass scenario_class_map 8 SELF_TYPE j scenario_A = some true ∧
      is_subclass scenario_class_map 8 Int_ j scenario_A = some true :=
  C2_cls_join_upper_bound scenario_class_map scenario_validated scenario_A rfl SELF_TYPE Int_
    (Or.inl rfl) (Or.inr ⟨Int_class, rfl⟩) 8 (by decide)

/-- C3: on a validated hierarchy `is_subclass` is a preorder on the classes:
`is_subclass(X, X, _)` is true for every class `X` (given fuel for one
iteration), and from `is_subclass(X, Y, _)` and `is_subclass(Y, Z, _)` true
follows `is_subclass(X, Z, _)` true (for every fuel that covers the table),
whatever the current class. -/
theorem C3_is_subclass_preorder (cm : ClassMap) (hv : Validated cm) (C : Class_) :
    (∀ X cx, class_map_find cm X = some cx → ∀ fuel, 0 < fuel →
      is_subclass cm fuel X X C = some true) ∧
    (∀ X Y Z cx cy cz, class_map_find cm X = some cx → class_map_find cm Y = some cy →
      class_map_find cm Z = some cz → ∀ f1 f2,
      is_subclass cm f1 X Y C = some true → is_subclass cm f2 Y Z C = some true →
      ∀ fuel, cm.length ≤ fuel → is_subclass cm fuel X Z C = some true) := by
  have H := hv.hierarchy
  have hne : ∀ X cx, class_map_find cm X = some cx → X ≠ SELF_TYPE := by
    intro X cx hX e; rw [e, H.self_type] at hX; cases hX
  constructor
  · intro X cx hX fuel hfuel
    obtain ⟨f, rfl⟩ : ∃ f, fuel = f + 1 := ⟨fuel - 1, by omega⟩
    simp [is_subclass, hne X cx hX, hX, is_subclass_loop, H.key_name X cx hX]
  · intro X Y Z cx cy cz hX hY hZ f1 f2 h1 h2 fuel hf
    have a1 := is_subclass_class_true cm H.key_name X Y C (hne X cx hX) f1 h1
    have a2 := is_subclass_class_true cm H.key_name Y Z C (hne Y cy hY) f2 h2
    obtain ⟨b, hb, hiff⟩ := H.is_subclass_class X Z C cx hX fuel hf
    have e : b = true := hiff.mpr (a1.trans a2)
    subst e
    exact hb

theorem C3_is_subclass_preorder_witness :
    is_subclass scenario_class_map 1 "A" "A" scenario_Main = some true ∧
      is_subclass scenario_class_map 8 "A" Object scenario_Main = some true :=
  ⟨(C3_is_subclass_preorder scenario_class_map scenario_validated scenario_Main).1
      "A" scenario_A rfl 1 (by decide),
    (C3_is_subclass_preorder scenario_class_map scenario_validated scenario_Main).2
      "A" "B" Object scenario_A scenario_B Object_class rfl rfl rfl 2 2 rfl rfl 8 (by decide)⟩

/-- C4: on a validated hierarchy `cls_join` returns the least common
ancestor: for classes `A`, `B` of the table and every `D` to which both
conform by `is_subclass`, the join of `A` and `B` conforms to `D`. -/
theorem C4_cls_join_least (cm : ClassMap) (hv : Validated cm) (C : Class_)
    (A B D : Symbol) (ca cb : Class_) (hA : class_map_find cm A = some ca)
    (hB : class_map_find cm B = some cb) (f1 f2 : Nat)
    (h1 : is_subclass cm f1 A D C = some true) (h2 : is_subclass cm f2 B D C = some true)
    (fuel : Nat) (hf : cm.length ≤ fuel) :
    ∃ j, cls_join cm fuel A B C = .ok j ∧ is_subclass cm fuel j D C = some true := by
  have H := hv.hierarchy
  have hne : ∀ X cx, class_map_find cm X = some cx → X ≠ SELF_TYPE := by
    intro X cx hX e; rw [e, H.self_type] at hX; cases hX
  have hAn := hne A ca hA
  have hBn := hne B cb hB
  have a1 := is_subclass_class_true cm H.key_name A D C hAn f1 h1
  have a2 := is_subclass_class_true cm H.key_name B D C hBn f2 h2
  obtain ⟨d, hd⟩ := H.reach A ca hA
  have hlt := H.depth_lt_length hd
  obtain ⟨j, hj, haj, _, hleast⟩ :=
    H.cls_join_loop_spec C cb B hB fuel hf d A hd fuel (by omega)
  obtain ⟨n, hn⟩ := haj
  obtain ⟨cj, hcj⟩ := nth_parent_target cm n A j hn
  obtain ⟨b, hb, hiff⟩ := H.is_subclass_class j D C cj hcj fuel hf
  have e : b = true := hiff.mpr (hleast D a1 a2)
  subst e
  refine ⟨j, ?_, hb⟩
  simp only [cls_join, hAn, hBn, if_false]
  exact hj

theorem C4_cls_join_least_witness :
    ∃ j, cls_join scenario_class_map 8 "A" "B" scenario_Main = .ok j ∧
      is_subclass scenario_class_map 8 j "B" scenario_Main = some true :=
  C4_cls_join_least scenario_class_map scenario_validated scenario_Main "A" "B" "B"
    scenario_A scenario_B rfl rfl 2 1 rfl rfl 8 (by decide)

/-- C5: on a validated hierarchy, for a class `X` and a proper ancestor `Y`
of `X` (reached from `X` by parent links, `Y ≠ X`): `is_subclass(X, Y, _)` is
true, `is_subclass(Y, X, _)` is false and `cls_join(X, Y, _)` is `Y`; and the
relation is antisymmetric on classes: two classes that conform to each other
are the same class. -/
theorem C5_proper_ancestor (cm : ClassMap) (hv : Validated cm) (C : Class_) :
    (∀ (X Y : Symbol) (n : Nat), nth_parent cm n X = some Y → Y ≠ X →
      ∀ fuel, cm.length ≤ fuel →
        is_subclass cm fuel X Y C = some true ∧ is_subclass cm fuel Y X C = some false ∧
          cls_join cm fuel X Y C = .ok Y) ∧
    (∀ (X Y : Symbol) (cx cy : Class_), class_map_find cm X = some cx →
      class_map_find cm Y = some cy → ∀ f1 f2,
      is_subclass cm f1 X Y C = some true → is_subclass cm f2 Y X C = some true → X = Y) := by
  have H := hv.hierarchy
  have hnS : ∀ X cx, class_map_find cm X = some cx → X ≠ SELF_TYPE := by
    intro X cx hX e; rw [e, H.self_type] at hX; cases hX
  constructor
  · intro X Y n hXY hne fuel hf
    obtain ⟨cx, hX⟩ := nth_parent_source cm n X Y hXY
    obtain ⟨cy, hY⟩ := nth_parent_target cm n X Y hXY
    have hanc : Ancestor cm X Y := ⟨n, hXY⟩
    obtain ⟨b1, hb1, hiff1⟩ := H.is_subclass_class X Y C cx hX fuel hf
    obtain ⟨b2, hb2, hiff2⟩ := H.is_subclass_class Y X C cy hY fuel hf
    have e1 : b1 = true := hiff1.mpr hanc
    have e2 : b2 = false := by
      cases b2 with
      | false => rfl
      | true => exact absurd (H.antisymm hanc (hiff2.mp rfl)).symm hne
    subst e1 e2
    refine ⟨hb1, hb2, ?_⟩
    obtain ⟨d, hd⟩ := H.reach X cx hX
    have hlt := H.depth_lt_length hd
    obtain ⟨j, hj, _, hyj, hleast⟩ :=
      H.cls_join_loop_spec C cy Y hY fuel hf d X hd fuel (by omega)
    have hjY : j = Y := H.antisymm (hleast Y hanc (Ancestor.refl hY)) hyj
    subst hjY
    simp only [cls_join, hnS X cx hX, hnS _ cy hY, if_false]
    exact hj
  · intro X Y cx cy hX hY f1 f2 h1 h2
    exact H.antisymm
      (is_subclass_class_true cm H.key_name X Y C (hnS X cx hX) f1 h1)
      (is_subclass_class_true cm H.key_name Y X C (hnS Y cy hY) f2 h2)

theorem C5_proper_ancestor_witness :
    is_subclass scenario_class_map 8 "A" Object scenario_A = some true ∧
      is_subclass scenario_class_map 8 Object "A" scenario_A = some false ∧
      cls_join scenario_class_map 8 "A" Object scenario_A = .ok Object :=
  (C5_proper_ancestor scenario_class_map scenario_validated scenario_A).1 "A" Object 2 rfl
    (by decide) 8 (by decide)

/-! ## A cycle that does not pass through the class the walk starts from -/

theorem cycle_walk_never_ends (fuel : Nat) :
    check_parents cycle_class_map Main fuel cycle_A = none ∧
      check_parents cycle_class_map Main fuel cycle_B = none := by
  induction fuel with
  | zero => exact ⟨rfl, rfl⟩
  | succ f ih =>
    obtain ⟨ha, hb⟩ := ih
    constructor
    · unfold check_parents
      have e : class_map_find cycle_class_map cycle_A.parent = some cycle_B := rfl
      rw [if_neg (by decide)]
      simp only [e]
      rw [if_neg (by decide), if_neg (by decide)]
      exact hb
    · unfold check_parents
      have e : class_map_find cycle_class_map cycle_B.parent = some cycle_A := rfl
      rw [if_neg (by decide)]
      simp only [e]
      rw [if_neg (by decide), if_neg (by decide)]
      exact ha

/-- C6 (the code at the failing input): for `Main inherits A`, `A inherits B`,
`B inherits A` the class names are distinct, `Main` is present, every parent
exists and none is sealed, and `A` is its own ancestor; yet the construction
reports nothing and does not finish, whatever the fuel: the walk started at
`Main` goes round the cycle of `A` and `B` and never meets `Main` again. -/
theorem C6_cycle_behind_first_class_diverges :
    register_classes cycle_classes install_basic_classes = (cycle_class_map, none) ∧
      nth_parent cycle_class_map 2 "A" = some "A" ∧
      ∀ fuel, ClassTable fuel cycle_classes = none := by
  refine ⟨rfl, rfl, ?_⟩
  intro fuel
  have hreg : register_classes cycle_classes install_basic_classes = (cycle_class_map, none) :=
    rfl
  have hm : (class_map_find cycle_class_map Main).isNone = false := rfl
  have hwalk : check_parents cycle_class_map Main fuel cycle_Main = none := by
    cases fuel with
    | zero => rfl
    | succ f =>
      unfold check_parents
      have e : class_map_find cycle_class_map cycle_Main.parent = some cycle_A := rfl
      rw [if_neg (by decide)]
      simp only [e]
      rw [if_neg (by decide), if_neg (by decide)]
      exact (cycle_walk_never_ends f).1
  have hall : check_all_parents cycle_class_map fuel cycle_classes = none := by
    show check_all_parents cycle_class_map fuel (cycle_Main :: [cycle_A, cycle_B]) = none
    simp only [check_all_parents]
    have e : cycle_Main.name = Main := rfl
    rw [e, hwalk]
  unfold ClassTable
  rw [hreg]
  simp only [hm, hall]
  rfl

/-! ## The method environment -/

theorem method_env_find_set (me : MethodEnv) (k : Symbol × Symbol) (v : MethodPtr)
    (k' : Symbol × Symbol) :
    method_env_find (method_env_set me k v) k' =
      if k = k' then some v else method_env_find me k' := by
  induction me with
  | nil => simp [method_env_set, method_env_find]
  | cons hd tl ih =>
    obtain ⟨k0, v0⟩ := hd
    simp only [method_env_set]
    by_cases h0 : k0 = k
    · subst h0
      simp only [if_true, method_env_find]
      by_cases h1 : k0 = k' <;> simp [h1]
    · simp only [h0, if_false, method_env_find, ih]
      by_cases h1 : k0 = k'
      · have : k ≠ k' := fun e => h0 (h1.trans e.symm)
        simp [h1, this]
      · simp [h1]

theorem add_methods_find (cname cn mn : Symbol) :
    ∀ (fs : List Feature) (i : Nat) (me : MethodEnv),
      method_env_find (add_methods cname fs i me) (cn, mn) =
        if cn = cname then
          (match last_method_named mn fs i with
            | some p => some p
            | none => method_env_find me (cn, mn))
        else method_env_find me (cn, mn) := by
  intro fs
  induction fs with
  | nil => intro i me; simp [add_methods, last_method_named]
  | cons f fs ih =>
    intro i me
    cases f with
    | attr a => simp only [add_methods, last_method_named]; exact ih _ _
    | method m =>
      simp only [add_methods, last_method_named]
      rw [ih, method_env_find_set]
      by_cases hcn : cn = cname
      · subst hcn
        simp only [if_true]
        cases hl : last_method_named mn fs (i + 1) with
        | some p => rfl
        | none =>
          simp only
          by_cases hm : m.name = mn
          · simp [hm]
          · have : (cn, m.name) ≠ (cn, mn) := by
              intro e; exact hm (Prod.mk.inj e).2
            simp [hm, this]
      · have : (cname, m.name) ≠ (cn, mn) := by
          intro e; exact hcn (Prod.mk.inj e).1.symm
        simp [hcn, this]

theorem build_method_env_from_other (cn mn : Symbol) :
    ∀ (entries : ClassMap) (me : MethodEnv), cn ∉ entries.map (fun e => e.2.name) →
      method_env_find (build_method_env_from entries me) (cn, mn) =
        method_env_find me (cn, mn) := by
  intro entries
  induction entries with
  | nil => intro me _; rfl
  | cons hd tl ih =>
    intro me hnot
    obtain ⟨k, cls⟩ := hd
    simp only [List.map_cons, List.mem_cons, not_or] at hnot
    simp only [build_method_env_from]
    rw [ih _ hnot.2, add_methods_find]
    simp [hnot.1]

theorem build_method_env_from_mem (mn : Symbol) :
    ∀ (entries : ClassMap) (me : MethodEnv), (entries.map (fun e => e.2.name)).Nodup →
      ∀ k c, (k, c) ∈ entries →
      method_env_find (build_method_env_from entries me) (c.name, mn) =
        match last_method_named mn c.features 0 with
        | some p => some p
        | none => method_env_find me (c.name, mn) := by
  intro entries
  induction entries with
  | nil => intro me _ k c h; cases h
  | cons hd tl ih =>
    intro me hnd k c hmem
    obtain ⟨k0, cls⟩ := hd
    simp only [List.map_cons, List.nodup_cons] at hnd
    simp only [build_method_env_from]
    rcases List.mem_cons.mp hmem with e | hmem'
    · cases e
      rw [build_method_env_from_other _ _ _ _ hnd.1, add_methods_find]
      simp
    · have hne : c.name ≠ cls.name := by
        intro e
        apply hnd.1
        rw [← e]
        exact List.mem_map.mpr ⟨(k, c), hmem', rfl⟩
      rw [ih _ hnd.2 k c hmem', add_methods_find]
      simp [hne]

theorem Hierarchy.method_in_cls_eq {cm : ClassMap} (H : Hierarchy cm) (k mn : Symbol)
    (c : Class_) (hk : class_map_find cm k = some c) :
    method_in_cls (build_method_env cm) c.name mn = last_method_named mn c.features 0 := by
  have hnames : cm.map (fun e => e.2.name) = cm.map Prod.fst := by
    apply List.map_congr_left
    intro e he
    exact H.key_name e.1 e.2 (class_map_find_of_mem cm H.nodup_keys e.1 e.2 he)
  have hnd : (cm.map (fun e => e.2.name)).Nodup := by rw [hnames]; exact H.nodup_keys
  have := build_method_env_from_mem mn cm [] hnd k c (class_map_mem_of_find cm k c hk)
  unfold method_in_cls build_method_env
  rw [this]
  cases last_method_named mn c.features 0 <;> rfl

theorem last_method_named_none (m : Symbol) : ∀ (fs : List Feature) (i : Nat),
    last_method_named m fs i = none ↔ ∀ mm, Feature.method mm ∈ fs → mm.name ≠ m := by
  intro fs
  induction fs with
  | nil => intro i; simp [last_method_named]
  | cons f fs ih =>
    intro i
    cases f with
    | attr a =>
      simp only [last_method_named, ih, List.mem_cons]
      constructor
      · intro h mm hmm
        rcases hmm with e | hmm
        · cases e
        · exact h mm hmm
      · intro h mm hmm; exact h mm (Or.inr hmm)
    | method m0 =>
      simp only [last_method_named, List.mem_cons]
      cases hl : last_method_named m fs (i + 1) with
      | some p =>
        simp only [false_iff, reduceCtorEq]
        intro h
        have := (ih (i + 1)).mpr (fun mm hmm => h mm (Or.inr hmm))
        rw [hl] at this; cases this
      | none =>
        have hrest := (ih (i + 1)).mp hl
        simp only
        by_cases hm : m0.name = m
        · simp only [hm, if_true, false_iff, reduceCtorEq]
          intro h
          exact h m0 (Or.inl rfl) hm
        · simp only [hm, if_false, true_iff]
          intro mm hmm
          rcases hmm with e | hmm
          · cases e; exact hm
          · exact hrest mm hmm

theorem last_method_named_some (m : Symbol) : ∀ (fs : List Feature) (i : Nat) (p : MethodPtr),
    last_method_named m fs i = some p →
      i ≤ p.1 ∧ fs[p.1 - i]? = some (Feature.method p.2) ∧ p.2.name = m ∧
        ∀ j mm, p.1 - i < j → fs[j]? = some (Feature.method mm) → mm.name ≠ m := by
  intro fs
  induction fs with
  | nil => intro i p h; simp [last_method_named] at h
  | cons f fs ih =>
    intro i p h
    have hshift : ∀ q : MethodPtr, last_method_named m fs (i + 1) = some q →
        i ≤ q.1 ∧ (f :: fs)[q.1 - i]? = some (Feature.method q.2) ∧ q.2.name = m ∧
          ∀ j mm, q.1 - i < j → (f :: fs)[j]? = some (Feature.method mm) → mm.name ≠ m := by
      intro q hq
      obtain ⟨h1, h2, h3, h4⟩ := ih (i + 1) q hq
      obtain ⟨r, hr⟩ : ∃ r, q.1 - i = r + 1 := ⟨q.1 - i - 1, by omega⟩
      have hr' : q.1 - (i + 1) = r := by omega
      refine ⟨by omega, ?_, h3, ?_⟩
      · rw [hr, List.getElem?_cons_succ, ← hr']; exact h2
      · intro j mm hj hjm
        obtain ⟨j', rfl⟩ : ∃ j', j = j' + 1 := ⟨j - 1, by omega⟩
        rw [List.getElem?_cons_succ] at hjm
        exact h4 j' mm (by omega) hjm
    cases f with
    | attr a =>
      simp only [last_method_named] at h
      exact hshift p h
    | method m0 =>
      simp only [last_method_named] at h
      cases hl : last_method_named m fs (i + 1) with
      | some q =>
        rw [hl] at h
        simp only [Option.some.injEq] at h
        subst h
        exact hshift q hl
      | none =>
        rw [hl] at h
        simp only at h
        split at h
        · rename_i hm
          simp only [Option.some.injEq] at h
          subst h
          refine ⟨le_refl _, by simp, hm, ?_⟩
          intro j mm hj hjm
          obtain ⟨j', rfl⟩ : ∃ j', j = j' + 1 := ⟨j - 1, by omega⟩
          rw [List.getElem?_cons_succ] at hjm
          exact (last_method_named_none m fs (i + 1)).mp hl mm (List.getElem?_mem hjm)
        · cases h

theorem lookup_method_loop_end (cm : ClassMap) (me : MethodEnv) (mn : Symbol) (fuel : Nat) :
    lookup_method_loop cm me mn fuel none = some none := by
  cases fuel <;> rfl

theorem NearestMethod.here {cm : ClassMap} {mn k : Symbol} {c : Class_} {p : MethodPtr}
    (hk : class_map_find cm k = some c) (hp : last_method_named mn c.features 0 = some p) :
    NearestMethod cm mn k (some p) := by
  refine ⟨fun h => (by cases h), ?_⟩
  intro q hq
  cases hq
  exact ⟨0, k, c, nth_parent_self cm k c hk, hk, hp, fun i _ _ hi => absurd hi (Nat.not_lt_zero i)⟩

theorem NearestMethod.above {cm : ClassMap} {mn k : Symbol} {c : Class_}
    {r : Option MethodPtr} (hk : class_map_find cm k = some c)
    (hp : last_method_named mn c.features 0 = none)
    (hr : (r = none → ∀ i t ct, nth_parent cm i c.parent = some t →
        class_map_find cm t = some ct → last_method_named mn ct.features 0 = none) ∧
      (∀ p, r = some p → ∃ n t ct, nth_parent cm n c.parent = some t ∧
        class_map_find cm t = some ct ∧ last_method_named mn ct.features 0 = some p ∧
        ∀ i t' ct', i < n → nth_parent cm i c.parent = some t' →
          class_map_find cm t' = some ct' → last_method_named mn ct'.features 0 = none)) :
    NearestMethod cm mn k r := by
  have hzero : ∀ t' ct', nth_parent cm 0 k = some t' → class_map_find cm t' = some ct' →
      last_method_named mn ct'.features 0 = none := by
    intro t' ct' h0 hf
    have := nth_parent_zero_eq cm k t' h0
    subst this
    rw [hk] at hf
    cases hf
    exact hp
  constructor
  · intro hnone i t ct hi hf
    cases i with
    | zero => exact hzero t ct hi hf
    | succ i =>
      rw [nth_parent_succ cm i k c hk] at hi
      exact hr.1 hnone i t ct hi hf
  · intro p hsome
    obtain ⟨n, t, ct, hn, hf, hl, hnear⟩ := hr.2 p hsome
    refine ⟨n + 1, t, ct, by rw [nth_parent_succ cm n k c hk]; exact hn, hf, hl, ?_⟩
    intro i t' ct' hi hi' hf'
    cases i with
    | zero => exact hzero t' ct' hi' hf'
    | succ i =>
      rw [nth_parent_succ cm i k c hk] at hi'
      exact hnear i t' ct' (by omega) hi' hf'

theorem Hierarchy.lookup_method_loop_spec {cm : ClassMap} (H : Hierarchy cm) (mn : Symbol) :
    ∀ (d : Nat) (k : Symbol), nth_parent cm d k = some Object → ∀ fuel, d < fuel →
      ∃ r, lookup_method_loop cm (build_method_env cm) mn fuel (class_map_find cm k) = some r ∧
        NearestMethod cm mn k r := by
  intro d
  induction d with
  | zero =>
    intro k hk fuel hf
    have hkO := nth_parent_zero_eq cm k _ hk
    subst hkO
    obtain ⟨c, hc, hp⟩ := H.object
    obtain ⟨f, rfl⟩ : ∃ f, fuel = f + 1 := ⟨fuel - 1, by omega⟩
    rw [hc]
    simp only [lookup_method_loop, H.method_in_cls_eq Object mn c hc]
    cases hl : last_method_named mn c.features 0 with
    | some p => exact ⟨some p, rfl, NearestMethod.here hc hl⟩
    | none =>
      refine ⟨none, ?_, NearestMethod.above hc hl ⟨?_, fun p h => by cases h⟩⟩
      · simp only [hp, H.no_class]
        exact lookup_method_loop_end _ _ _ _
      · intro _ i t ct hi _
        rw [hp, nth_parent_of_not_found cm _ H.no_class] at hi
        cases hi
  | succ d ih =>
    intro k hk fuel hf
    obtain ⟨c, hc⟩ := nth_parent_source cm _ k _ hk
    obtain ⟨f, rfl⟩ : ∃ f, fuel = f + 1 := ⟨fuel - 1, by omega⟩
    rw [nth_parent_succ cm d k c hc] at hk
    rw [hc]
    simp only [lookup_method_loop, H.method_in_cls_eq k mn c hc]
    cases hl : last_method_named mn c.features 0 with
    | some p => exact ⟨some p, rfl, NearestMethod.here hc hl⟩
    | none =>
      obtain ⟨r, hr, hnear⟩ := ih c.parent hk f (by omega)
      exact ⟨r, hr, NearestMethod.above hc hl hnear⟩

/-- On a validated hierarchy, with fuel for the longest chain, `lookup_method`
returns the nearest method of that name on the chain of the class. -/
theorem Hierarchy.lookup_method_spec {cm : ClassMap} (H : Hierarchy cm) (k mn : Symbol)
    (c : Class_) (hk : class_map_find cm k = some c) (fuel : Nat) (hf : cm.length ≤ fuel) :
    ∃ r, lookup_method cm (build_method_env cm) fuel k mn = some r ∧
      NearestMethod cm mn k r := by
  obtain ⟨d, hd⟩ := H.reach k c hk
  have := H.depth_lt_length hd
  exact H.lookup_method_loop_spec mn d k hd fuel (by omega)

/-- C9: on a validated hierarchy with the method environment built from it,
for every class `C` of the table, every method name `m` and every fuel that
covers the table, `lookup_method(C, m)` returns; it returns null exactly when
no class on the chain of `C` declares a method named `m`; and a method `p` it
returns is a method named `m` in the feature list of a class `t` on the chain
(the last of that name in `t`), no class nearer to `C` declaring one. -/
theorem C9_lookup_method_nearest (cm : ClassMap) (hv : Validated cm) (C m : Symbol)
    (cC : Class_) (hC : class_map_find cm C = some cC) (fuel : Nat) (hf : cm.length ≤ fuel) :
    ∃ r, lookup_method cm (build_method_env cm) fuel C m = some r ∧
      (r = none ↔
        ∀ t ct, Ancestor cm C t → class_map_find cm t = some ct → ¬ declares ct m) ∧
      (∀ p, r = some p → ∃ n t ct, nth_parent cm n C = some t ∧
        class_map_find cm t = some ct ∧
        ct.features[p.1]? = some (Feature.method p.2) ∧ p.2.name = m ∧
        (∀ j mm, p.1 < j → ct.features[j]? = some (Feature.method mm) → mm.name ≠ m) ∧
        ∀ i t' ct', i < n → nth_parent cm i C = some t' →
          class_map_find cm t' = some ct' → ¬ declares ct' m) := by
  have H := hv.hierarchy
  obtain ⟨r, hr, hnone, hsome⟩ := H.lookup_method_spec C m cC hC fuel hf
  have hdecl : ∀ ct : Class_, last_method_named m ct.features 0 = none → ¬ declares ct m := by
    intro ct hl ⟨mm, hmem, hname⟩
    exact (last_method_named_none m ct.features 0).mp hl mm hmem hname
  refine ⟨r, hr, ⟨?_, ?_⟩, ?_⟩
  · intro h t ct ⟨i, hi⟩ hf'
    exact hdecl ct (hnone h i t ct hi hf')
  · intro h
    cases r with
    | none => rfl
    | some p =>
      exfalso
      obtain ⟨n, t, ct, hn, hf', hl, _⟩ := hsome p rfl
      obtain ⟨_, h2, h3, _⟩ := last_method_named_some m ct.features 0 p hl
      exact h t ct ⟨n, hn⟩ hf' ⟨p.2, List.getElem?_mem h2, h3⟩
  · intro p hp
    obtain ⟨n, t, ct, hn, hf', hl, hnear⟩ := hsome p hp
    obtain ⟨_, h2, h3, h4⟩ := last_method_named_some m ct.features 0 p hl
    refine ⟨n, t, ct, hn, hf', h2, h3, fun j mm hj => h4 j mm (by simpa using hj), ?_⟩
    intro i t' ct' hi hi' hf''
    exact hdecl ct' (hnear i t' ct' hi hi' hf'')

theorem C9_lookup_method_nearest_witness :
    ∃ r, lookup_method scenario_class_map (build_method_env scenario_class_map) 8 "A" copy =
        some r ∧
      (r = none ↔ ∀ t ct, Ancestor scenario_class_map "A" t →
        class_map_find scenario_class_map t = some ct → ¬ declares ct copy) ∧
      (∀ p, r = some p → ∃ n t ct, nth_parent scenario_class_map n "A" = some t ∧
        class_map_find scenario_class_map t = some ct ∧
        ct.features[p.1]? = some (Feature.method p.2) ∧ p.2.name = copy ∧
        (∀ j mm, p.1 < j → ct.features[j]? = some (Feature.method mm) → mm.name ≠ copy) ∧
        ∀ i t' ct', i < n → nth_parent scenario_class_map i "A" = some t' →
          class_map_find scenario_class_map t' = some ct' → ¬ declares ct' copy) :=
  C9_lookup_method_nearest scenario_class_map scenario_validated "A" copy scenario_A rfl 8
    (by decide)

/-! ## Rejections by the constructor -/

theorem check_all_parents_mem (cm : ClassMap) (fuel : Nat) :
    ∀ (classes : List Class_), check_all_parents cm fuel classes = some none →
      ∀ c ∈ classes, check_parents cm c.name fuel c = some none := by
  intro classes
  induction classes with
  | nil => intro _ c hc; cases hc
  | cons cls rest ih =>
    intro h c hc
    simp only [check_all_parents] at h
    split at h
    · simp at h
    · simp at h
    · rename_i hcp
      rcases List.mem_cons.mp hc with rfl | hc
      · exact hcp
      · exact ih h c hc

theorem check_parents_sealed (cm : ClassMap) (start : Symbol) (fuel : Nat) (X : Class_)
    (hp : X.parent = Int_ ∨ X.parent = Bool_ ∨ X.parent = Str ∨ X.parent = SELF_TYPE) :
    check_parents cm start fuel X ≠ some none := by
  have hne : X.parent ≠ Object := by
    rcases hp with h | h | h | h <;> rw [h] <;> decide
  unfold check_parents
  rw [if_neg hne]
  cases fuel with
  | zero => simp
  | succ f =>
    simp only
    cases class_map_find cm X.parent with
    | none => simp
    | some pcls => simp [hp]

theorem semant_of_ClassTable_error (fuel : Nat) (classes : List Class_) (cm : ClassMap)
    (e : SemantError) (h : ClassTable fuel classes = some (cm, [e])) :
    (program_class.semant fuel classes).errors = [e] ∧
      (program_class.semant fuel classes).outcome = .ok .halted_before_check := by
  unfold program_class.semant
  rw [h]
  simp

/-- C7: when some user class declares `Int`, `Bool`, `String` or `SELF_TYPE`
as its parent, the construction of the class table never finishes with zero
errors, wherever the class stands in the list; so `semant` either halts at its
first exit, before the method environment is built and any class is checked,
or is still in the constructor. -/
theorem C7_sealed_parent_never_validated (classes : List Class_) (X : Class_)
    (hX : X ∈ classes)
    (hp : X.parent = Int_ ∨ X.parent = Bool_ ∨ X.parent = Str ∨ X.parent = SELF_TYPE)
    (fuel : Nat) :
    (∀ cm errors, ClassTable fuel classes = some (cm, errors) → errors ≠ []) ∧
      ((ClassTable fuel classes = none ∧
          (program_class.semant fuel classes).outcome = .timeout) ∨
        (program_class.semant fuel classes).errors ≠ [] ∧
          (program_class.semant fuel classes).outcome = .ok .halted_before_check) := by
  have hmain : ∀ cm errors, ClassTable fuel classes = some (cm, errors) → errors ≠ [] := by
    intro cm errors h he
    subst he
    obtain ⟨_, hall⟩ := ClassTable_ok fuel classes cm h
    exact check_parents_sealed cm X.name fuel X hp (check_all_parents_mem cm fuel classes hall X hX)
  refine ⟨hmain, ?_⟩
  cases h : ClassTable fuel classes with
  | none =>
    left
    refine ⟨rfl, ?_⟩
    unfold program_class.semant
    rw [h]
  | some r =>
    right
    obtain ⟨cm, errors⟩ := r
    have hne := hmain cm errors h
    unfold program_class.semant
    rw [h]
    simp [hne]

theorem C7_sealed_parent_never_validated_witness :
    (∀ cm errors,
        ClassTable 3 [scenario_Main, { name := "R", parent := Int_, features := [] }] =
          some (cm, errors) → errors ≠ []) ∧
      ((ClassTable 3 [scenario_Main, { name := "R", parent := Int_, features := [] }] = none ∧
          (program_class.semant 3
            [scenario_Main, { name := "R", parent := Int_, features := [] }]).outcome =
            .timeout) ∨
        (program_class.semant 3
            [scenario_Main, { name := "R", parent := Int_, features := [] }]).errors ≠ [] ∧
          (program_class.semant 3
            [scenario_Main, { name := "R", parent := Int_, features := [] }]).outcome =
            .ok .halted_before_check) :=
  C7_sealed_parent_never_validated
    [scenario_Main, { name := "R", parent := Int_, features := [] }]
    { name := "R", parent := Int_, features := [] } (List.mem_cons_of_mem _ (List.mem_singleton.mpr rfl))
    (Or.inl rfl) 3

/-- C8: for a class list without a class named `Main` the construction of the
class table ends, whatever the fuel (the parent walks are not reached), with
exactly one error: the redefinition error met during registration, or else the
missing-`Main` error; and `semant` halts at its first exit, before the method
environment is built and any class is checked. -/
theorem C8_no_Main_rejected (classes : List Class_) (hMain : ∀ c ∈ classes, c.name ≠ Main) :
    ∃ cm e,
      ((register_classes classes install_basic_classes = (cm, none) ∧
          e = .main_not_defined) ∨
        (register_classes classes install_basic_classes = (cm, some e) ∧
          (e = .redefinition_of_SELF_TYPE ∨ ∃ n, e = .redefinition_of_class n))) ∧
      ∀ fuel, ClassTable fuel classes = some (cm, [e]) ∧
        (program_class.semant fuel classes).errors = [e] ∧
        (program_class.semant fuel classes).outcome = .ok .halted_before_check := by
  obtain ⟨cm, hreg | ⟨n, hreg⟩ | hreg⟩ := register_classes_error_or classes install_basic_classes
  · refine ⟨cm, .main_not_defined, Or.inl ⟨hreg, rfl⟩, ?_⟩
    intro fuel
    obtain ⟨_, h2, _, _⟩ := register_classes_spec classes _ _ hreg
    have hnone : class_map_find cm Main = none := by
      cases hc : class_map_find cm Main with
      | none => rfl
      | some c =>
        rcases h2 _ c hc with hb | ⟨hm, hn⟩
        · have : class_map_find install_basic_classes Main = none := rfl
          rw [this] at hb; cases hb
        · exact absurd hn (hMain c hm)
    have hT : ClassTable fuel classes = some (cm, [.main_not_defined]) := by
      unfold ClassTable
      rw [hreg]
      simp [hnone]
    exact ⟨hT, semant_of_ClassTable_error fuel classes cm _ hT⟩
  · refine ⟨cm, .redefinition_of_class n, Or.inr ⟨hreg, Or.inr ⟨n, rfl⟩⟩, ?_⟩
    intro fuel
    have hT : ClassTable fuel classes = some (cm, [.redefinition_of_class n]) := by
      unfold ClassTable
      rw [hreg]
    exact ⟨hT, semant_of_ClassTable_error fuel classes cm _ hT⟩
  · refine ⟨cm, .redefinition_of_SELF_TYPE, Or.inr ⟨hreg, Or.inl rfl⟩, ?_⟩
    intro fuel
    have hT : ClassTable fuel classes = some (cm, [.redefinition_of_SELF_TYPE]) := by
      unfold ClassTable
      rw [hreg]
    exact ⟨hT, semant_of_ClassTable_error fuel classes cm _ hT⟩

theorem C8_no_Main_rejected_witness :
    ∃ cm e,
      ((register_classes [scenario_A, scenario_B] install_basic_classes = (cm, none) ∧
          e = .main_not_defined) ∨
        (register_classes [scenario_A, scenario_B] install_basic_classes = (cm, some e) ∧
          (e = .redefinition_of_SELF_TYPE ∨ ∃ n, e = .redefinition_of_class n))) ∧
      ∀ fuel, ClassTable fuel [scenario_A, scenario_B] = some (cm, [e]) ∧
        (program_class.semant fuel [scenario_A, scenario_B]).errors = [e] ∧
        (program_class.semant fuel [scenario_A, scenario_B]).outcome =
          .ok .halted_before_check :=
  C8_no_Main_rejected [scenario_A, scenario_B] (by decide)

/-! ## Diagnostics of a computation -/

theorem Checked.bind_errors {α β : Type} (x : Checked α) (f : α → Checked β) :
    (x >>= f).errors =
      match x.outcome with
      | .ok a => x.errors ++ (f a).errors
      | _ => x.errors := by
  show (Checked.bind x f).errors = _
  unfold Checked.bind
  cases x.outcome <;> rfl

theorem Checked.bind_outcome {α β : Type} (x : Checked α) (f : α → Checked β) :
    (x >>= f).outcome =
      match x.outcome with
      | .ok a => (f a).outcome
      | .crash => .crash
      | .timeout => .timeout := by
  show (Checked.bind x f).outcome = _
  unfold Checked.bind
  cases x.outcome <;> rfl

theorem Checked.pure_errors {α : Type} (a : α) : (Pure.pure a : Checked α).errors = [] := rfl

theorem Checked.pure_outcome {α : Type} (a : α) :
    (Pure.pure a : Checked α).outcome = .ok a := rfl

theorem Checked.All.pure {α : Type} {P : SemantError → Prop} (a : α) :
    Checked.All P (Pure.pure a : Checked α) := by
  intro e he; cases he

theorem Checked.All.bind {α β : Type} {P : SemantError → Prop} {x : Checked α}
    {f : α → Checked β} (hx : Checked.All P x) (hf : ∀ a, Checked.All P (f a)) :
    Checked.All P (x >>= f) := by
  intro e he
  rw [Checked.bind_errors] at he
  split at he
  · rcases List.mem_append.mp he with h | h
    · exact hx e h
    · exact hf _ e h
  · exact hx e he

theorem Checked.All.semant_error {P : SemantError → Prop} {e : SemantError} (h : P e) :
    Checked.All P (Cool.semant_error e) := by
  intro e' he'
  simp only [Cool.semant_error, List.mem_singleton] at he'
  rw [he']; exact h

theorem Checked.All.semant_error_when {P : SemantError → Prop} {e : SemantError}
    {c : Prop} [Decidable c] (h : P e) : Checked.All P (Cool.semant_error_when c e) := by
  unfold Cool.semant_error_when
  split
  · exact .semant_error h
  · exact .pure _

theorem Checked.All.ofOption {α : Type} {P : SemantError → Prop} (x : Option α) :
    Checked.All P (Checked.ofOption x) := by
  intro e he; cases x <;> cases he

theorem Checked.All.ofTable {α : Type} {P : SemantError → Prop} (x : Option α) :
    Checked.All P (Checked.ofTable x) := by
  intro e he; cases x <;> cases he

theorem Checked.All.ofOutcome {α : Type} {P : SemantError → Prop} (x : Outcome α) :
    Checked.All P (Checked.ofOutcome x) := by
  intro e he; cases he

theorem Checked.All.check_init {P : SemantError → Prop} {e : SemantError}
    {Γ : Context} {t1 t0 : Symbol} (h : P e) : Checked.All P (Cool.check_init Γ t1 t0 e) := by
  unfold Cool.check_init
  split
  · exact .bind (.ofOption _) fun _ => .semant_error_when h
  · exact .pure _

mutual

/-- The rules of expressions report diagnostics of expressions only. -/
theorem Expression.typecheck_errors (Γ : Context) (P : SemantError → Prop)
    (hP : ∀ e, e.is_expression_error = true → P e) :
    ∀ (e : Expression) (o : SymbolTable), Checked.All P (Expression.typecheck Γ e o)
  | .int_const _ _, o => by simp only [Expression.typecheck]; exact .pure _
  | .string_const _ _, o => by simp only [Expression.typecheck]; exact .pure _
  | .bool_const _ _, o => by simp only [Expression.typecheck]; exact .pure _
  | .no_expr _, o => by simp only [Expression.typecheck]; exact .pure _
  | .new_ _ t, o => by
    simp only [Expression.typecheck]
    split
    · exact .bind (.semant_error (hP _ rfl)) fun _ => .pure _
    · exact .pure _
  | .object _ name, o => by
    simp only [Expression.typecheck]
    split
    · exact .bind (.semant_error (hP _ rfl)) fun _ => .pure _
    · exact .pure _
  | .isvoid _ e1, o => by
    simp only [Expression.typecheck]
    exact .bind (Expression.typecheck_errors Γ P hP e1 o) fun _ => .pure _
  | .assign _ name expr, o => by
    simp only [Expression.typecheck]
    split
    · exact .bind (.semant_error (hP _ rfl)) fun _ => .pure _
    · split
      · exact .bind (.semant_error (hP _ rfl)) fun _ => .pure _
      · refine .bind (Expression.typecheck_errors Γ P hP expr o) fun _ =>
          .bind (.ofOption _) fun _ => ?_
        split
        · exact .bind (.semant_error (hP _ rfl)) fun _ => .pure _
        · exact .pure _
  | .static_dispatch _ expr t name actual, o => by
    simp only [Expression.typecheck]
    refine .bind (Expression.typecheck_errors Γ P hP expr o) fun _ =>
      .bind (.ofOption _) fun _ => .bind (.semant_error_when (hP _ rfl)) fun _ =>
      .bind (.ofOption _) fun _ => ?_
    split
    · exact .bind (.semant_error (hP _ rfl)) fun _ => .pure _
    · exact .bind (typecheck_actuals_errors Γ P hP _ _ actual _ _) fun _ =>
        .bind (.semant_error_when (hP _ rfl)) fun _ => .pure _
  | .dispatch _ expr name actual, o => by
    simp only [Expression.typecheck]
    refine .bind (Expression.typecheck_errors Γ P hP expr o) fun _ =>
      .bind (.ofOption _) fun _ => ?_
    split
    · exact .bind (.semant_error (hP _ rfl)) fun _ => .pure _
    · exact .bind (typecheck_actuals_errors Γ P hP _ _ actual _ _) fun _ =>
        .bind (.semant_error_when (hP _ rfl)) fun _ => .pure _
  | .cond _ pred then_exp else_exp, o => by
    simp only [Expression.typecheck]
    exact .bind (Expression.typecheck_errors Γ P hP pred o) fun _ =>
      .bind (Expression.typecheck_errors Γ P hP then_exp _) fun _ =>
      .bind (Expression.typecheck_errors Γ P hP else_exp _) fun _ =>
      .bind (.semant_error_when (hP _ rfl)) fun _ =>
      .bind (.ofOutcome _) fun _ => .pure _
  | .loop _ pred body, o => by
    simp only [Expression.typecheck]
    exact .bind (Expression.typecheck_errors Γ P hP pred o) fun _ =>
      .bind (.semant_error_when (hP _ rfl)) fun _ =>
      .bind (Expression.typecheck_errors Γ P hP body _) fun _ => .pure _
  | .typcase _ expr (c_name, c_type, c_expr) cases, o => by
    simp only [Expression.typecheck]
    exact .bind (Expression.typecheck_errors Γ P hP expr o) fun _ =>
      .bind (.ofTable _) fun _ =>
      .bind (Expression.typecheck_errors Γ P hP c_expr _) fun _ =>
      .bind (.ofTable _) fun _ =>
      .bind (typecheck_cases_errors Γ P hP cases _ _ _) fun _ => .pure _
  | .block _ body0 body, o => by
    simp only [Expression.typecheck]
    exact .bind (Expression.typecheck_errors Γ P hP body0 o) fun _ =>
      .bind (typecheck_block_errors Γ P hP body _ _) fun _ => .pure _
  | .let_ _ identifier t0 init body, o => by
    simp only [Expression.typecheck]
    refine .bind (Expression.typecheck_errors Γ P hP init o) fun _ =>
      .bind (.check_init (hP _ rfl)) fun _ => .bind ?_ fun _ =>
      .bind (Expression.typecheck_errors Γ P hP body _) fun _ =>
      .bind (.ofTable _) fun _ => .pure _
    split
    · exact .ofTable _
    · exact .bind (.semant_error (hP _ rfl)) fun _ => .pure _
  | .plus _ e1 e2, o => by
    simp only [Expression.typecheck]
    refine .bind (Expression.typecheck_errors Γ P hP e1 o) fun _ =>
      .bind (Expression.typecheck_errors Γ P hP e2 _) fun _ => ?_
    split
    · exact .bind (.semant_error (hP _ rfl)) fun _ => .pure _
    · exact .pure _
  | .sub _ e1 e2, o => by
    simp only [Expression.typecheck]
    refine .bind (Expression.typecheck_errors Γ P hP e1 o) fun _ =>
      .bind (Expression.typecheck_errors Γ P hP e2 _) fun _ => ?_
    split
    · exact .bind (.semant_error (hP _ rfl)) fun _ => .pure _
    · exact .pure _
  | .mul _ e1 e2, o => by
    simp only [Expression.typecheck]
    refine .bind (Expression.typecheck_errors Γ P hP e1 o) fun _ =>
      .bind (Expression.typecheck_errors Γ P hP e2 _) fun _ => ?_
    split
    · exact .bind (.semant_error (hP _ rfl)) fun _ => .pure _
    · exact .pure _
  | .divide _ e1 e2, o => by
    simp only [Expression.typecheck]
    refine .bind (Expression.typecheck_errors Γ P hP e1 o) fun _ =>
      .bind (Expression.typecheck_errors Γ P hP e2 _) fun _ => ?_
    split
    · exact .bind (.semant_error (hP _ rfl)) fun _ => .pure _
    · exact .pure _
  | .neg _ e1, o => by
    simp only [Expression.typecheck]
    refine .bind (Expression.typecheck_errors Γ P hP e1 o) fun _ => ?_
    split
    · exact .bind (.semant_error (hP _ rfl)) fun _ => .pure _
    · exact .pure _
  | .lt _ e1 e2, o => by
    simp only [Expression.typecheck]
    refine .bind (Expression.typecheck_errors Γ P hP e1 o) fun _ =>
      .bind (Expression.typecheck_errors Γ P hP e2 _) fun _ => ?_
    split
    · exact .bind (.semant_error (hP _ rfl)) fun _ => .pure _
    · exact .pure _
  | .eq _ e1 e2, o => by
    simp only [Expression.typecheck]
    refine .bind (Expression.typecheck_errors Γ P hP e1 o) fun _ =>
      .bind (Expression.typecheck_errors Γ P hP e2 _) fun _ => .bind ?_ fun _ => .pure _
    split
    · exact .semant_error_when (hP _ rfl)
    · exact .pure _
  | .leq _ e1 e2, o => by
    simp only [Expression.typecheck]
    exact .bind (Expression.typecheck_errors Γ P hP e1 o) fun _ =>
      .bind (Expression.typecheck_errors Γ P hP e2 _) fun _ =>
      .bind (.semant_error_when (hP _ rfl)) fun _ => .pure _
  | .comp _ e1, o => by
    simp only [Expression.typecheck]
    exact .bind (Expression.typecheck_errors Γ P hP e1 o) fun _ =>
      .bind (.semant_error_when (hP _ rfl)) fun _ => .pure _

theorem typecheck_actuals_errors (Γ : Context) (P : SemantError → Prop)
    (hP : ∀ e, e.is_expression_error = true → P e) (name : Symbol) (formals : List Formal) :
    ∀ (actual : List Expression) (i : Nat) (o : SymbolTable),
      Checked.All P (typecheck_actuals Γ name formals actual i o)
  | [], i, o => by simp only [typecheck_actuals]; exact .pure _
  | a :: rest, i, o => by
    simp only [typecheck_actuals]
    refine .bind (Expression.typecheck_errors Γ P hP a o) fun _ => ?_
    split
    · exact .bind (.ofOption _) fun _ => .bind (.semant_error_when (hP _ rfl)) fun _ =>
        .bind (typecheck_actuals_errors Γ P hP name formals rest _ _) fun _ => .pure _
    · exact .bind (typecheck_actuals_errors Γ P hP name formals rest _ _) fun _ => .pure _

theorem typecheck_block_errors (Γ : Context) (P : SemantError → Prop)
    (hP : ∀ e, e.is_expression_error = true → P e) :
    ∀ (body : List Expression) (t : Symbol) (o : SymbolTable),
      Checked.All P (typecheck_block Γ body t o)
  | [], t, o => by simp only [typecheck_block]; exact .pure _
  | e :: rest, t, o => by
    simp only [typecheck_block]
    exact .bind (Expression.typecheck_errors Γ P hP e o) fun _ =>
      .bind (typecheck_block_errors Γ P hP rest _ _) fun _ => .pure _

theorem typecheck_cases_errors (Γ : Context) (P : SemantError → Prop)
    (hP : ∀ e, e.is_expression_error = true → P e) :
    ∀ (cases : List (Symbol × Symbol × Expression)) (used : List Symbol) (prev_type : Symbol)
      (o : SymbolTable), Checked.All P (typecheck_cases Γ cases used prev_type o)
  | [], used, prev_type, o => by simp only [typecheck_cases]; exact .pure _
  | (c_name, c_type, c_expr) :: rest, used, prev_type, o => by
    simp only [typecheck_cases]
    split
    · exact .bind (.semant_error (hP _ rfl)) fun _ => .pure _
    · exact .bind (.ofTable _) fun _ =>
        .bind (Expression.typecheck_errors Γ P hP c_expr _) fun _ =>
        .bind (.ofOutcome _) fun _ => .bind (.ofTable _) fun _ =>
        .bind (typecheck_cases_errors Γ P hP rest _ _ _) fun _ => .pure _

end

/-! ## The override check of methods -/

theorem Checked.any_bind {α β : Type} (Q : SemantError → Prop) (x : Checked α)
    (f : α → Checked β) :
    Checked.Any Q (x >>= f) ↔
      Checked.Any Q x ∨ ∃ a, x.outcome = .ok a ∧ Checked.Any Q (f a) := by
  unfold Checked.Any
  rw [Checked.bind_errors]
  cases h : x.outcome with
  | ok a =>
    simp only [List.mem_append]
    constructor
    · rintro ⟨e, he | he, hq⟩
      · exact Or.inl ⟨e, he, hq⟩
      · exact Or.inr ⟨a, rfl, e, he, hq⟩
    · rintro (⟨e, he, hq⟩ | ⟨a', ha', e, he, hq⟩)
      · exact ⟨e, Or.inl he, hq⟩
      · cases ha'; exact ⟨e, Or.inr he, hq⟩
  | crash =>
    simp only
    constructor
    · exact Or.inl
    · rintro (h' | ⟨a, ha, _⟩)
      · exact h'
      · cases ha
  | timeout =>
    simp only
    constructor
    · exact Or.inl
    · rintro (h' | ⟨a, ha, _⟩)
      · exact h'
      · cases ha

theorem Checked.any_pure {α : Type} (Q : SemantError → Prop) (a : α) :
    ¬ Checked.Any Q (Pure.pure a : Checked α) := by
  rintro ⟨e, he, _⟩; cases he

theorem Checked.any_semant_error_when (Q : SemantError → Prop) (c : Prop) [Decidable c]
    (e : SemantError) : Checked.Any Q (semant_error_when c e) ↔ c ∧ Q e := by
  unfold semant_error_when Checked.Any
  split
  · rename_i hc
    simp [semant_error, hc]
  · rename_i hc
    simp only [hc, false_and, iff_false]
    rintro ⟨e', he', _⟩; cases he'

theorem Checked.semant_error_when_outcome (c : Prop) [Decidable c] (e : SemantError) :
    (semant_error_when c e).outcome = .ok () := by
  unfold semant_error_when
  split <;> rfl

theorem Checked.not_any_of_all {α : Type} {Q : SemantError → Prop} {x : Checked α}
    (h : Checked.All (fun e => ¬ Q e) x) : ¬ Checked.Any Q x := by
  rintro ⟨e, he, hq⟩
  exact h e he hq

theorem check_formal_spec (Γ : Context) (formal : Formal) (defined : List Symbol)
    (o : SymbolTable) (ho : o ≠ []) :
    (∃ d' o', (check_formal Γ formal defined o).outcome = .ok (d', o') ∧ o' ≠ []) ∧
      Checked.All (fun e => ¬ e.is_override_error = true) (check_formal Γ formal defined o) := by
  obtain ⟨sc, rest, rfl⟩ : ∃ sc rest, o = sc :: rest := by
    cases o with
    | nil => exact absurd rfl ho
    | cons sc rest => exact ⟨sc, rest, rfl⟩
  unfold check_formal
  split
  · constructor
    · refine ⟨defined, sc :: rest, ?_, ho⟩
      simp [Checked.bind_outcome, semant_error, Checked.pure_outcome]
    · exact .bind (.semant_error (by simp [SemantError.is_override_error])) fun _ => .pure _
  · constructor
    · simp only [Checked.bind_outcome]
      have h1 : ∀ (x : Checked Unit) (y : Checked Unit),
          x.outcome = .ok () → y.outcome = .ok () →
          (if formal.type_decl = SELF_TYPE then x else y).outcome = .ok () := by
        intro x y hx hy; split <;> assumption
      rw [h1 _ _ rfl (Checked.semant_error_when_outcome _ _)]
      simp only
      by_cases hd : formal.name ∉ defined
      · rw [if_pos hd]
        simp only [Checked.pure_outcome, addid, Checked.ofTable, Checked.bind_outcome]
        exact ⟨_, _, rfl, by simp⟩
      · rw [if_neg hd]
        simp only [Checked.bind_outcome, Checked.pure_outcome, addid, Checked.ofTable,
          semant_error]
        exact ⟨_, _, rfl, by simp⟩
    · refine .bind ?_ fun _ => .bind ?_ fun _ => .bind (.ofTable _) fun _ => .pure _
      · split
        · exact .semant_error (by simp [SemantError.is_override_error])
        · exact .semant_error_when (by simp [SemantError.is_override_error])
      · split
        · exact .pure _
        · exact .bind (.semant_error (by simp [SemantError.is_override_error])) fun _ => .pure _

theorem check_redefined_formal_spec (name : Symbol) (inh : MethodPtr) (formal : Formal)
    (i : Nat) (less : Bool) :
    (∃ less', (check_redefined_formal name (some inh) formal i less).outcome = .ok less' ∧
      (less' = true ↔ less = true ∨ inh.2.formals.length ≤ i)) ∧
    (Checked.Any (fun e => e.is_override_error = true)
        (check_redefined_formal name (some inh) formal i less) ↔
      ∃ f, inh.2.formals[i]? = some f ∧ f.type_decl ≠ formal.type_decl) := by
  unfold check_redefined_formal
  simp only
  cases hf : inh.2.formals[i]? with
  | none =>
    have hlen : inh.2.formals.length ≤ i := List.getElem?_eq_none_iff.mp hf
    simp only
    refine ⟨⟨true, rfl, by simp [hlen]⟩, ?_⟩
    simp only [reduceCtorEq, false_and, exists_false, iff_false]
    exact Checked.any_pure _ _
  | some f =>
    have hlen : i < inh.2.formals.length := by
      by_contra hc
      rw [List.getElem?_eq_none_iff.mpr (by omega)] at hf
      cases hf
    simp only
    constructor
    · refine ⟨less, ?_, ?_⟩
      · rw [Checked.bind_outcome, Checked.semant_error_when_outcome]
        rfl
      · constructor
        · exact Or.inl
        · rintro (h | h)
          · exact h
          · omega
    · rw [Checked.any_bind, Checked.any_semant_error_when]
      simp only [SemantError.is_override_error, and_true, Option.some.injEq, exists_eq_left']
      constructor
      · rintro (h | ⟨_, _, h⟩)
        · exact h
        · exact absurd h (Checked.any_pure _ _)
      · exact Or.inl

theorem check_formals_spec (Γ : Context) (name : Symbol) (inh : MethodPtr) :
    ∀ (fs : List Formal) (i : Nat) (defined : List Symbol) (less : Bool) (o : SymbolTable),
      o ≠ [] →
      (∃ less' o', (check_formals Γ name (some inh) fs i defined less o).outcome =
          .ok (less', i + fs.length, o') ∧ o' ≠ [] ∧
        (less' = true ↔ less = true ∨ (0 < fs.length ∧ inh.2.formals.length < i + fs.length))) ∧
      (Checked.Any (fun e => e.is_override_error = true)
          (check_formals Γ name (some inh) fs i defined less o) ↔
        ∃ (j : Nat) (g f : Formal), fs[j]? = some g ∧ inh.2.formals[i + j]? = some f ∧
          f.type_decl ≠ g.type_decl) := by
  intro fs
  induction fs with
  | nil =>
    intro i defined less o ho
    simp only [check_formals]
    refine ⟨⟨less, o, rfl, ho, by simp⟩, ?_⟩
    simp only [List.getElem?_nil, reduceCtorEq, false_and, exists_false, iff_false]
    exact Checked.any_pure _ _
  | cons formal rest ih =>
    intro i defined less o ho
    obtain ⟨⟨d', o1, hcf, ho1⟩, hall⟩ := check_formal_spec Γ formal defined o ho
    obtain ⟨⟨less1, hr, hless1⟩, hany1⟩ := check_redefined_formal_spec name inh formal i less
    obtain ⟨⟨less', o', hout, ho', hless'⟩, hany⟩ := ih (i + 1) d' less1 o1 ho1
    simp only [check_formals]
    constructor
    · refine ⟨less', o', ?_, ho', ?_⟩
      · simp only [Checked.bind_outcome, hcf, hr, hout, List.length_cons]
        have e : i + 1 + rest.length = i + (rest.length + 1) := by omega
        rw [e]
      · rw [hless', hless1]
        simp only [List.length_cons]
        constructor
        · rintro ((h | h) | ⟨_, h⟩)
          · exact Or.inl h
          · exact Or.inr ⟨by omega, by omega⟩
          · exact Or.inr ⟨by omega, by omega⟩
        · rintro (h | ⟨_, h⟩)
          · exact Or.inl (Or.inl h)
          · by_cases hi : inh.2.formals.length ≤ i
            · exact Or.inl (Or.inr hi)
            · exact Or.inr ⟨by omega, by omega⟩
    · rw [Checked.any_bind, hcf]
      simp only [Outcome.ok.injEq, exists_eq_left']
      rw [Checked.any_bind, hr]
      simp only [Outcome.ok.injEq, exists_eq_left']
      rw [hany1, hany]
      constructor
      · rintro (h | h | ⟨j, g, f, hg, hf, hne⟩)
        · exact absurd h (Checked.not_any_of_all hall)
        · obtain ⟨f, hf, hne⟩ := h
          exact ⟨0, formal, f, by simp, by simpa using hf, hne⟩
        · refine ⟨j + 1, g, f, by simpa using hg, ?_, hne⟩
          have e : i + (j + 1) = i + 1 + j := by omega
          rw [e]; exact hf
      · rintro ⟨j, g, f, hg, hf, hne⟩
        cases j with
        | zero =>
          simp only [List.getElem?_cons_zero, Option.some.injEq] at hg
          subst hg
          exact Or.inr (Or.inl ⟨f, by simpa using hf, hne⟩)
        | succ j =>
          simp only [List.getElem?_cons_succ] at hg
          have e : i + (j + 1) = i + 1 + j := by omega
          rw [e] at hf
          exact Or.inr (Or.inr ⟨j, g, f, hg, hf, hne⟩)

theorem formal_types_ne_iff : ∀ (l1 l2 : List Formal),
    l1.map Formal.type_decl ≠ l2.map Formal.type_decl ↔
      (∃ (j : Nat) (g f : Formal), l1[j]? = some g ∧ l2[j]? = some f ∧
          f.type_decl ≠ g.type_decl) ∨
        l2.length < l1.length ∨ l1.length < l2.length := by
  intro l1
  induction l1 with
  | nil =>
    intro l2
    cases l2 with
    | nil => simp
    | cons b l2 => simp
  | cons a l1 ih =>
    intro l2
    cases l2 with
    | nil => simp
    | cons b l2 =>
      have hih := ih l2
      simp only [List.map_cons, ne_eq, List.cons.injEq, not_and_or, List.length_cons,
        Nat.add_lt_add_iff_right]
      simp only [ne_eq] at hih
      by_cases hab : a.type_decl = b.type_decl
      · simp only [hab, not_true_eq_false, false_or]
        rw [hih]
        constructor
        · rintro (⟨j, g, f, hg, hf, hne⟩ | h)
          · exact Or.inl ⟨j + 1, g, f, by simpa using hg, by simpa using hf, hne⟩
          · exact Or.inr h
        · rintro (⟨j, g, f, hg, hf, hne⟩ | h)
          · cases j with
            | zero =>
              simp only [List.getElem?_cons_zero, Option.some.injEq] at hg hf
              subst hg hf
              exact absurd hab.symm hne
            | succ j =>
              simp only [List.getElem?_cons_succ] at hg hf
              exact Or.inl ⟨j, g, f, hg, hf, hne⟩
          · exact Or.inr h
      · simp only [hab, not_false_eq_true, true_or, true_iff]
        exact Or.inl ⟨0, a, b, by simp, by simp, fun e => hab e.symm⟩

theorem Checked.any_bind_of_ok {α β : Type} {Q : SemantError → Prop} {x : Checked α}
    {f : α → Checked β} {a : α} (hq : ¬ Checked.Any Q x) (ha : x.outcome = .ok a) :
    Checked.Any Q (x >>= f) ↔ Checked.Any Q (f a) := by
  rw [Checked.any_bind, ha]
  simp only [Outcome.ok.injEq, exists_eq_left']
  constructor
  · rintro (h | h)
    · exact absurd h hq
    · exact h
  · exact Or.inr

theorem Checked.not_any_of_errors_nil {α : Type} {Q : SemantError → Prop} {x : Checked α}
    (h : x.errors = []) : ¬ Checked.Any Q x := by
  rintro ⟨e, he, _⟩
  rw [h] at he
  cases he

theorem SemantError.expression_error_not_override (e : SemantError)
    (h : e.is_expression_error = true) : ¬ e.is_override_error = true := by
  cases e <;> simp [SemantError.is_expression_error, SemantError.is_override_error] at h ⊢

/-- C10: for a method of the current class whose parent is in `class_map` and
for which `lookup_method` from the parent finds a method `inh` of the same
name, the check of the method (body included, however it ends) reports one of
the two override diagnostics exactly when the list of the declared types of
its formals differs from that of `inh`; the names of the formals and the
declared return types do not enter. -/
theorem C10_override_check (Γ : Context) (this : MethodPtr) (o : SymbolTable)
    (pcls : Class_) (inh : MethodPtr) (hp : class_map_find Γ.cm Γ.c.parent = some pcls)
    (hl : lookup_method Γ.cm Γ.me Γ.fuel pcls.name this.2.name = some (some inh)) :
    (∃ e ∈ (method_class.typecheck Γ this o).errors, e.is_override_error = true) ↔
      this.2.formals.map Formal.type_decl ≠ inh.2.formals.map Formal.type_decl := by
  have hinh : ∀ m0, inherited_method Γ this.2.name m0 = Checked.ofOption (some (some inh)) := by
    intro m0
    unfold inherited_method
    rw [hp]
    simp only
    rw [hl]
  obtain ⟨⟨less', o2, hout, _, hless'⟩, hany⟩ :=
    check_formals_spec Γ this.2.name inh this.2.formals 0 [] false
      (((self, SELF_TYPE) :: []) :: o) (by simp)
  have htail : ∀ (p : Bool × Nat × SymbolTable),
      ¬ Checked.Any (fun e => e.is_override_error = true)
        (Expression.typecheck Γ this.2.expr p.2.2 >>= fun q =>
          Checked.ofTable (exitscope q.2.2) >>= fun o4 =>
          Checked.ofOption (is_subclass Γ.cm Γ.fuel q.1 this.2.return_type Γ.c) >>= fun b =>
          semant_error_when (b = false) (.return_type_mismatch q.1 this.2.return_type) >>=
            fun _ => (pure (Object, { this.2 with expr := q.2.1 }, o4) :
              Checked (Symbol × method_class × SymbolTable))) := by
    intro p
    apply Checked.not_any_of_all
    exact .bind (Expression.typecheck_errors Γ _ SemantError.expression_error_not_override _ _)
      fun _ => .bind (.ofTable _) fun _ => .bind (.ofOption _) fun _ =>
        .bind (.semant_error_when (by simp [SemantError.is_override_error])) fun _ => .pure _
  show Checked.Any (fun e => e.is_override_error = true) (method_class.typecheck Γ this o) ↔ _
  unfold method_class.typecheck
  simp only [enterscope, addid, hinh]
  rw [Checked.any_bind_of_ok (Checked.not_any_of_errors_nil rfl) rfl]
  rw [Checked.any_bind_of_ok
    (by rw [Checked.any_semant_error_when]; simp [SemantError.is_override_error])
    (Checked.semant_error_when_outcome _ _)]
  rw [Checked.any_bind_of_ok (Checked.not_any_of_errors_nil rfl) rfl]
  rw [Checked.any_bind, hout]
  simp only [Outcome.ok.injEq, exists_eq_left']
  rw [Checked.any_bind]
  have hw : (SemantError.redefined_wrong_number this.2.name).is_override_error = true := rfl
  simp only [check_redefined_arity, Checked.semant_error_when_outcome, Outcome.ok.injEq,
    exists_eq_left', Checked.any_semant_error_when, hw, and_true]
  rw [hany, hless', formal_types_ne_iff]
  simp only [Nat.zero_add, Bool.false_eq_true, false_or]
  constructor
  · rintro (h | (⟨_, h⟩ | h) | h)
    · exact Or.inl h
    · exact Or.inr (Or.inl h)
    · exact Or.inr (Or.inr h)
    · obtain ⟨_, _, h⟩ := h
      exact absurd h (htail (less', 0, o2))
  · rintro (h | h | h)
    · exact Or.inl h
    · exact Or.inr (Or.inl (Or.inl ⟨by omega, h⟩))
    · exact Or.inr (Or.inl (Or.inr h))

theorem C10_override_check_witness :
    (∃ e ∈ (method_class.typecheck override_context
        (0, ⟨"f", [⟨"a", Int_⟩, ⟨"b", Str⟩], Bool_, .bool_const none true⟩) [[]]).errors,
        e.is_override_error = true) ↔
      [Int_, Str] ≠ [Int_, Str] :=
  C10_override_check override_context
    (0, ⟨"f", [⟨"a", Int_⟩, ⟨"b", Str⟩], Bool_, .bool_const none true⟩) [[]] override_P
    (0, ⟨"f", [⟨"x", Int_⟩, ⟨"y", Str⟩], Int_, .int_const none "0"⟩) rfl rfl

/-! ## Rules that miss what their siblings do -/

/-- C12 (the code at the failing input): the node `1 < "a"` is given the type
`Bool` and reports nothing, in every context and every environment: the rule
of `<` tests its left operand only, while `+`, `-`, `*`, `/` (and `<=`) test
both, as the second part shows for `1 + "a"`. -/
theorem C12_lt_right_operand_unchecked (Γ : Context) (o : SymbolTable) :
    (Expression.typecheck Γ (.lt none (.int_const none "1") (.string_const none "a")) o).errors
        = [] ∧
      (Expression.typecheck Γ (.lt none (.int_const none "1") (.string_const none "a"))
          o).outcome =
        .ok (Bool_, .lt (some Bool_) (.int_const (some Int_) "1") (.string_const (some Str) "a"),
          o) ∧
      (Expression.typecheck Γ (.plus none (.int_const none "1") (.string_const none "a"))
          o).errors = [.non_int_arguments "+" Int_ Str] :=
  ⟨rfl, rfl, rfl⟩

/-- C13 (the code at the failing input): in class `Main` the dispatches
`self.copy()` and `self@Main.copy()` get the slot `SELF_TYPE` but hand back
`Main`; so the method `m() : SELF_TYPE { self.copy() }` is reported with a
return-type error and the program is halted after the check. -/
theorem C13_self_dispatch_returns_class_name :
    (Expression.typecheck selfcopy_context (.dispatch none (.object none self) copy [])
        [[(self, SELF_TYPE)]]).outcome =
      .ok (Main, .dispatch (some SELF_TYPE) (.object (some SELF_TYPE) self) copy [],
        [[(self, SELF_TYPE)]]) ∧
    (Expression.typecheck selfcopy_context
        (.static_dispatch none (.object none self) Main copy []) [[(self, SELF_TYPE)]]).outcome =
      .ok (Main, .static_dispatch (some SELF_TYPE) (.object (some SELF_TYPE) self) Main copy [],
        [[(self, SELF_TYPE)]]) ∧
    ClassTable 8 [selfcopy_Main] = some (selfcopy_class_map, []) ∧
    (program_class.semant 8 [selfcopy_Main]).errors = [.return_type_mismatch Main SELF_TYPE] ∧
    (program_class.semant 8 [selfcopy_Main]).outcome = .ok .halted_after_check :=
  ⟨rfl, rfl, rfl, rfl, rfl⟩

/-! ## Computations that end with a value -/

theorem Checked.bind_errors_of_ok {α β : Type} {x : Checked α} {a : α} (f : α → Checked β)
    (h : x.outcome = .ok a) : (x >>= f).errors = x.errors ++ (f a).errors := by
  rw [Checked.bind_errors, h]

theorem Checked.bind_outcome_of_ok {α β : Type} {x : Checked α} {a : α} (f : α → Checked β)
    (h : x.outcome = .ok a) : (x >>= f).outcome = (f a).outcome := by
  rw [Checked.bind_outcome, h]

theorem Checked.bind_ok_inv {α β : Type} {x : Checked α} {f : α → Checked β} {b : β}
    (h : (x >>= f).outcome = .ok b) : ∃ a, x.outcome = .ok a ∧ (f a).outcome = .ok b := by
  rw [Checked.bind_outcome] at h
  cases hx : x.outcome with
  | ok a => rw [hx] at h; exact ⟨a, rfl, h⟩
  | crash => rw [hx] at h; cases h
  | timeout => rw [hx] at h; cases h

theorem Checked.semant_error_when_errors (c : Prop) [Decidable c] (e : SemantError) :
    (semant_error_when c e).errors = if c then [e] else [] := by
  unfold semant_error_when
  split <;> rfl

theorem Checked.Ok.ret {α : Type} {P : α → Prop} {a : α} (h : P a) :
    Checked.Ok P (Pure.pure a : Checked α) := by
  intro b hb
  cases hb
  exact h

theorem Checked.Ok.seq {α β : Type} {P : β → Prop} {Q : α → Prop} {x : Checked α}
    {f : α → Checked β} (hx : Checked.Ok Q x) (hf : ∀ a, Q a → Checked.Ok P (f a)) :
    Checked.Ok P (x >>= f) := by
  intro b hb
  obtain ⟨a, ha, hfa⟩ := Checked.bind_ok_inv hb
  exact hf a (hx a ha) b hfa

theorem Checked.Ok.trivial {α : Type} (x : Checked α) : Checked.Ok (fun _ => True) x :=
  fun _ _ => True.intro

/-! ## The rules of single nodes -/

/-- C17: for an equality node whose operands are checked with the types `t1`
and `t2`, the node adds the illegal-comparison diagnostic to those of its
operands exactly when one of `t1`, `t2` is `Int`, `String` or `Bool` and
`t1 ≠ t2` (so never when neither is one of the three), and its type, slot and
returned value, is `Bool` in every case. -/
theorem C17_eq_rule (Γ : Context) (sl : Option Symbol) (e1 e2 : Expression)
    (o : SymbolTable) (t1 t2 : Symbol) (e1' e2' : Expression) (o1 o2 : SymbolTable)
    (h1 : (Expression.typecheck Γ e1 o).outcome = .ok (t1, e1', o1))
    (h2 : (Expression.typecheck Γ e2 o1).outcome = .ok (t2, e2', o2)) :
    (Expression.typecheck Γ (.eq sl e1 e2) o).errors =
        (Expression.typecheck Γ e1 o).errors ++ (Expression.typecheck Γ e2 o1).errors ++
          (if (t1 = Int_ ∨ t1 = Str ∨ t1 = Bool_ ∨ t2 = Int_ ∨ t2 = Str ∨ t2 = Bool_) ∧ t1 ≠ t2
            then [.illegal_basic_comparison] else []) ∧
      (Expression.typecheck Γ (.eq sl e1 e2) o).outcome =
        .ok (Bool_, .eq (some Bool_) e1' e2', o2) := by
  have hown : ∀ (x : Checked Unit),
      x = (if t1 = Int_ ∨ t1 = Str ∨ t1 = Bool_ ∨ t2 = Int_ ∨ t2 = Str ∨ t2 = Bool_ then
        semant_error_when (t1 ≠ t2) .illegal_basic_comparison else pure ()) →
      x.outcome = .ok () ∧
        x.errors =
          (if (t1 = Int_ ∨ t1 = Str ∨ t1 = Bool_ ∨ t2 = Int_ ∨ t2 = Str ∨ t2 = Bool_) ∧ t1 ≠ t2
            then [.illegal_basic_comparison] else []) := by
    intro x hx
    subst hx
    by_cases hc : t1 = Int_ ∨ t1 = Str ∨ t1 = Bool_ ∨ t2 = Int_ ∨ t2 = Str ∨ t2 = Bool_
    · rw [if_pos hc]
      refine ⟨Checked.semant_error_when_outcome _ _, ?_⟩
      rw [Checked.semant_error_when_errors]
      simp only [hc, true_and]
    · rw [if_neg hc]
      refine ⟨rfl, ?_⟩
      simp only [hc, false_and, if_false]
      rfl
  obtain ⟨ho, he⟩ := hown _ rfl
  simp only [Expression.typecheck]
  constructor
  · rw [Checked.bind_errors_of_ok _ h1, Checked.bind_errors_of_ok _ h2,
      Checked.bind_errors_of_ok _ ho, he, Checked.pure_errors]
    simp
  · rw [Checked.bind_outcome_of_ok _ h1, Checked.bind_outcome_of_ok _ h2,
      Checked.bind_outcome_of_ok _ ho]
    rfl

theorem C17_eq_rule_witness :
    (Expression.typecheck scenario_context
        (.eq none (.int_const none "1") (.string_const none "a")) [[]]).errors =
        (Expression.typecheck scenario_context (.int_const none "1") [[]]).errors ++
          (Expression.typecheck scenario_context (.string_const none "a") [[]]).errors ++
          (if (Int_ = Int_ ∨ Int_ = Str ∨ Int_ = Bool_ ∨ Str = Int_ ∨ Str = Str ∨ Str = Bool_) ∧
              Int_ ≠ Str
            then [.illegal_basic_comparison] else []) ∧
      (Expression.typecheck scenario_context
        (.eq none (.int_const none "1") (.string_const none "a")) [[]]).outcome =
        .ok (Bool_, .eq (some Bool_) (.int_const (some Int_) "1") (.string_const (some Str) "a"),
          [[]]) :=
  C17_eq_rule scenario_context none (.int_const none "1") (.string_const none "a") [[]]
    Int_ Str (.int_const (some Int_) "1") (.string_const (some Str) "a") [[]] [[]] rfl rfl

/-- C18: for an assignment `name <- expr`: when `name` is `self` the node
reports one self-assignment diagnostic; when `name` is not `self` and is
unbound it reports one assignment-to-undeclared diagnostic (in both cases
`expr` is not checked); when `name` is bound to `T` and `expr` is checked with
a type `T'` that does not conform to `T` the node adds one mismatch diagnostic;
in these three cases the type of the assignment is `Object`.  When `T'`
conforms to `T` the node adds nothing and the type of the assignment is `T'`. -/
theorem C18_assign_rule (Γ : Context) (sl : Option Symbol) (name : Symbol)
    (expr : Expression) (o : SymbolTable) :
    (name = self →
      (Expression.typecheck Γ (.assign sl name expr) o).errors = [.assign_self] ∧
      (Expression.typecheck Γ (.assign sl name expr) o).outcome =
        .ok (Object, .assign (some Object) name expr, o)) ∧
    (name ≠ self → lookup o name = none →
      (Expression.typecheck Γ (.assign sl name expr) o).errors = [.assign_undeclared name] ∧
      (Expression.typecheck Γ (.assign sl name expr) o).outcome =
        .ok (Object, .assign (some Object) name expr, o)) ∧
    (∀ (T T' : Symbol) (expr' : Expression) (o1 : SymbolTable),
      name ≠ self → lookup o name = some T →
      (Expression.typecheck Γ expr o).outcome = .ok (T', expr', o1) →
      (is_subclass Γ.cm Γ.fuel T' T Γ.c = some false →
        (Expression.typecheck Γ (.assign sl name expr) o).errors =
          (Expression.typecheck Γ expr o).errors ++ [.assign_mismatch T' T name] ∧
        (Expression.typecheck Γ (.assign sl name expr) o).outcome =
          .ok (Object, .assign (some Object) name expr', o1)) ∧
      (is_subclass Γ.cm Γ.fuel T' T Γ.c = some true →
        (Expression.typecheck Γ (.assign sl name expr) o).errors =
          (Expression.typecheck Γ expr o).errors ∧
        (Expression.typecheck Γ (.assign sl name expr) o).outcome =
          .ok (T', .assign (some T') name expr', o1))) := by
  refine ⟨?_, ?_, ?_⟩
  · intro hs
    simp only [Expression.typecheck, hs, if_true]
    exact ⟨rfl, rfl⟩
  · intro hs hl
    simp only [Expression.typecheck, hs, if_false, hl]
    exact ⟨rfl, rfl⟩
  · intro T T' expr' o1 hs hl he
    constructor
    · intro hb
      have hb' : (Checked.ofOption (is_subclass Γ.cm Γ.fuel T' T Γ.c)).outcome = .ok false := by
        rw [hb]; rfl
      simp only [Expression.typecheck, hs, if_false, hl]
      constructor
      · rw [Checked.bind_errors_of_ok _ he, Checked.bind_errors_of_ok _ hb']
        simp only [if_true]
        rw [hb]
        rfl
      · rw [Checked.bind_outcome_of_ok _ he, Checked.bind_outcome_of_ok _ hb']
        rfl
    · intro hb
      have hb' : (Checked.ofOption (is_subclass Γ.cm Γ.fuel T' T Γ.c)).outcome = .ok true := by
        rw [hb]; rfl
      simp only [Expression.typecheck, hs, if_false, hl]
      constructor
      · rw [Checked.bind_errors_of_ok _ he, Checked.bind_errors_of_ok _ hb']
        simp only [Bool.true_eq_false, if_false]
        rw [hb]
        simp [Checked.ofOption, Checked.pure_errors]
      · rw [Checked.bind_outcome_of_ok _ he, Checked.bind_outcome_of_ok _ hb']
        rfl

theorem C18_assign_rule_witness :
    (Expression.typecheck scenario_context (.assign none "x" (.new_ none "B"))
        [[("x", "A")]]).errors =
      (Expression.typecheck scenario_context (.new_ none "B") [[("x", "A")]]).errors ++
        [.assign_mismatch "B" "A" "x"] ∧
    (Expression.typecheck scenario_context (.assign none "x" (.new_ none "B"))
        [[("x", "A")]]).outcome =
      .ok (Object, .assign (some Object) "x" (.new_ (some "B") "B"), [[("x", "A")]]) :=
  ((C18_assign_rule scenario_context none "x" (.new_ none "B") [[("x", "A")]]).2.2
    "A" "B" (.new_ (some "B") "B") [[("x", "A")]] (by decide) rfl rfl).1 rfl

/-- C16: on a validated hierarchy, for a conditional whose predicate and
branches are checked with the types `t1`, `t2`, `t3`, the branch types being
`SELF_TYPE` or classes of the table: the node adds the predicate diagnostic to
those of its three parts exactly when `t1` is not `Bool`, and in both cases its
type, slot and returned value, is `cls_join(t2, t3)` for the current class. -/
theorem C16_cond_rule (Γ : Context) (hv : Validated Γ.cm)
    (hc : class_map_find Γ.cm Γ.c.name = some Γ.c) (hf : Γ.cm.length ≤ Γ.fuel)
    (sl : Option Symbol) (pred then_exp else_exp : Expression) (o : SymbolTable)
    (t1 t2 t3 : Symbol) (pred' then_exp' else_exp' : Expression) (o1 o2 o3 : SymbolTable)
    (h1 : (Expression.typecheck Γ pred o).outcome = .ok (t1, pred', o1))
    (h2 : (Expression.typecheck Γ then_exp o1).outcome = .ok (t2, then_exp', o2))
    (h3 : (Expression.typecheck Γ else_exp o2).outcome = .ok (t3, else_exp', o3))
    (ht2 : t2 = SELF_TYPE ∨ ∃ c2, class_map_find Γ.cm t2 = some c2)
    (ht3 : t3 = SELF_TYPE ∨ ∃ c3, class_map_find Γ.cm t3 = some c3) :
    ∃ j, cls_join Γ.cm Γ.fuel t2 t3 Γ.c = .ok j ∧
      (Expression.typecheck Γ (.cond sl pred then_exp else_exp) o).errors =
        (Expression.typecheck Γ pred o).errors ++ (Expression.typecheck Γ then_exp o1).errors ++
          (Expression.typecheck Γ else_exp o2).errors ++
          (if t1 ≠ Bool_ then [.if_pred_not_bool] else []) ∧
      (Expression.typecheck Γ (.cond sl pred then_exp else_exp) o).outcome =
        .ok (j, .cond (some j) pred' then_exp' else_exp', o3) := by
  obtain ⟨j, hj, _⟩ := hv.hierarchy.cls_join_spec Γ.c hc t2 t3 ht2 ht3 Γ.fuel hf
  have hj' : (Checked.ofOutcome (cls_join Γ.cm Γ.fuel t2 t3 Γ.c)).outcome = .ok j := hj
  refine ⟨j, hj, ?_, ?_⟩
  · simp only [Expression.typecheck]
    rw [Checked.bind_errors_of_ok _ h1, Checked.bind_errors_of_ok _ h2,
      Checked.bind_errors_of_ok _ h3,
      Checked.bind_errors_of_ok _ (Checked.semant_error_when_outcome _ _),
      Checked.bind_errors_of_ok _ hj', Checked.semant_error_when_errors]
    simp [Checked.ofOutcome, Checked.pure_errors]
  · simp only [Expression.typecheck]
    rw [Checked.bind_outcome_of_ok _ h1, Checked.bind_outcome_of_ok _ h2,
      Checked.bind_outcome_of_ok _ h3,
      Checked.bind_outcome_of_ok _ (Checked.semant_error_when_outcome _ _),
      Checked.bind_outcome_of_ok _ hj']
    rfl

theorem C16_cond_rule_witness :
    ∃ j, cls_join scenario_class_map 8 "A" Int_ scenario_A = .ok j ∧
      (Expression.typecheck scenario_context
          (.cond none (.int_const none "1") (.new_ none "A") (.int_const none "2")) [[]]).errors =
        (Expression.typecheck scenario_context (.int_const none "1") [[]]).errors ++
          (Expression.typecheck scenario_context (.new_ none "A") [[]]).errors ++
          (Expression.typecheck scenario_context (.int_const none "2") [[]]).errors ++
          (if Int_ ≠ Bool_ then [.if_pred_not_bool] else []) ∧
      (Expression.typecheck scenario_context
          (.cond none (.int_const none "1") (.new_ none "A") (.int_const none "2")) [[]]).outcome =
        .ok (j, .cond (some j) (.int_const (some Int_) "1") (.new_ (some "A") "A")
          (.int_const (some Int_) "2"), [[]]) :=
  C16_cond_rule scenario_context scenario_validated rfl (by decide) none
    (.int_const none "1") (.new_ none "A") (.int_const none "2") [[]] Int_ "A" Int_
    (.int_const (some Int_) "1") (.new_ (some "A") "A") (.int_const (some Int_) "2")
    [[]] [[]] [[]] rfl rfl rfl (Or.inr ⟨scenario_A, rfl⟩) (Or.inr ⟨Int_class, rfl⟩)

/-! ## The symbol table is restored -/

theorem Checked.Ok.table {α : Type} (x : Option α) :
    Checked.Ok (fun a => x = some a) (Checked.ofTable x) := by
  intro a ha
  cases x with
  | none => cases ha
  | some b => cases ha; rfl

theorem Checked.Ok.option {α : Type} (x : Option α) :
    Checked.Ok (fun a => x = some a) (Checked.ofOption x) := by
  intro a ha
  cases x with
  | none => cases ha
  | some b => cases ha; rfl

theorem Checked.Ok.result {α : Type} (x : Outcome α) :
    Checked.Ok (fun a => x = .ok a) (Checked.ofOutcome x) := by
  intro a ha
  exact ha

theorem exitscope_addid_enterscope (o : SymbolTable) (s t : Symbol) (o2 : SymbolTable)
    (h : addid (enterscope o) s t = some o2) : exitscope o2 = some o := by
  simp only [enterscope, addid, Option.some.injEq] at h
  subst h
  rfl

mutual

/-- A rule of expressions that returns leaves the symbol table as it found
it. -/
theorem Expression.typecheck_table (Γ : Context) :
    ∀ (e : Expression) (o : SymbolTable),
      Checked.Ok (fun r => r.2.2 = o) (Expression.typecheck Γ e o)
  | .int_const _ _, o => by simp only [Expression.typecheck]; exact .ret rfl
  | .string_const _ _, o => by simp only [Expression.typecheck]; exact .ret rfl
  | .bool_const _ _, o => by simp only [Expression.typecheck]; exact .ret rfl
  | .no_expr _, o => by simp only [Expression.typecheck]; exact .ret rfl
  | .new_ _ t, o => by
    simp only [Expression.typecheck]
    split
    · exact .seq (.trivial _) fun _ _ => .ret rfl
    · exact .ret rfl
  | .object _ name, o => by
    simp only [Expression.typecheck]
    split
    · exact .seq (.trivial _) fun _ _ => .ret rfl
    · exact .ret rfl
  | .isvoid _ e1, o => by
    simp only [Expression.typecheck]
    exact .seq (Expression.typecheck_table Γ e1 o) fun _ h1 => .ret h1
  | .assign _ name expr, o => by
    simp only [Expression.typecheck]
    split
    · exact .seq (.trivial _) fun _ _ => .ret rfl
    · split
      · exact .seq (.trivial _) fun _ _ => .ret rfl
      · refine .seq (Expression.typecheck_table Γ expr o) fun _ h1 =>
          .seq (.trivial _) fun _ _ => ?_
        split
        · exact .seq (.trivial _) fun _ _ => .ret h1
        · exact .ret h1
  | .static_dispatch _ expr t name actual, o => by
    simp only [Expression.typecheck]
    refine .seq (Expression.typecheck_table Γ expr o) fun r1 h1 =>
      .seq (.trivial _) fun _ _ => .seq (.trivial _) fun _ _ =>
      .seq (.trivial _) fun _ _ => ?_
    split
    · exact .seq (.trivial _) fun _ _ => .ret h1
    · exact .seq (typecheck_actuals_table Γ _ _ actual _ _) fun _ h2 =>
        .seq (.trivial _) fun _ _ => .ret (h2.trans h1)
  | .dispatch _ expr name actual, o => by
    simp only [Expression.typecheck]
    refine .seq (Expression.typecheck_table Γ expr o) fun r1 h1 =>
      .seq (.trivial _) fun _ _ => ?_
    split
    · exact .seq (.trivial _) fun _ _ => .ret h1
    · exact .seq (typecheck_actuals_table Γ _ _ actual _ _) fun _ h2 =>
        .seq (.trivial _) fun _ _ => .ret (h2.trans h1)
  | .cond _ pred then_exp else_exp, o => by
    simp only [Expression.typecheck]
    exact .seq (Expression.typecheck_table Γ pred o) fun _ h1 =>
      .seq (Expression.typecheck_table Γ then_exp _) fun _ h2 =>
      .seq (Expression.typecheck_table Γ else_exp _) fun _ h3 =>
      .seq (.trivial _) fun _ _ =>
      .seq (.trivial _) fun _ _ => .ret (h3.trans (h2.trans h1))
  | .loop _ pred body, o => by
    simp only [Expression.typecheck]
    exact .seq (Expression.typecheck_table Γ pred o) fun _ h1 =>
      .seq (.trivial _) fun _ _ =>
      .seq (Expression.typecheck_table Γ body _) fun _ h2 => .ret (h2.trans h1)
  | .typcase _ expr (c_name, c_type, c_expr) cases, o => by
    simp only [Expression.typecheck]
    exact .seq (Expression.typecheck_table Γ expr o) fun r1 h1 =>
      .seq (.table _) fun o2 h2 =>
      .seq (Expression.typecheck_table Γ c_expr _) fun r3 h3 =>
      .seq (.table _) fun o4 h4 =>
      .seq (typecheck_cases_table Γ cases _ _ _) fun _ h5 =>
        .ret (by
          have e := exitscope_addid_enterscope _ _ _ _ h2
          rw [← h3] at e
          rw [e] at h4
          exact h5.trans ((Option.some.inj h4).symm.trans h1))
  | .block _ body0 body, o => by
    simp only [Expression.typecheck]
    exact .seq (Expression.typecheck_table Γ body0 o) fun _ h1 =>
      .seq (typecheck_block_table Γ body _ _) fun _ h2 => .ret (h2.trans h1)
  | .let_ _ identifier t0 init body, o => by
    simp only [Expression.typecheck]
    refine .seq (Expression.typecheck_table Γ init o) fun r1 h1 =>
      .seq (.trivial _) fun _ _ =>
      .seq (Q := fun o2 => exitscope o2 = some r1.2.2) ?_ fun o2 h2 =>
      .seq (Expression.typecheck_table Γ body _) fun r3 h3 =>
      .seq (.table _) fun o4 h4 =>
        .ret (by
          rw [← h3] at h2
          rw [h2] at h4
          exact (Option.some.inj h4).symm.trans h1)
    split
    · intro o2 ho2
      exact exitscope_addid_enterscope _ _ _ _ (Checked.Ok.table _ o2 ho2)
    · exact .seq (.trivial _) fun _ _ => .ret rfl
  | .plus _ e1 e2, o => by
    simp only [Expression.typecheck]
    refine .seq (Expression.typecheck_table Γ e1 o) fun _ h1 =>
      .seq (Expression.typecheck_table Γ e2 _) fun _ h2 => ?_
    split
    · exact .seq (.trivial _) fun _ _ => .ret (h2.trans h1)
    · exact .ret (h2.trans h1)
  | .sub _ e1 e2, o => by
    simp only [Expression.typecheck]
    refine .seq (Expression.typecheck_table Γ e1 o) fun _ h1 =>
      .seq (Expression.typecheck_table Γ e2 _) fun _ h2 => ?_
    split
    · exact .seq (.trivial _) fun _ _ => .ret (h2.trans h1)
    · exact .ret (h2.trans h1)
  | .mul _ e1 e2, o => by
    simp only [Expression.typecheck]
    refine .seq (Expression.typecheck_table Γ e1 o) fun _ h1 =>
      .seq (Expression.typecheck_table Γ e2 _) fun _ h2 => ?_
    split
    · exact .seq (.trivial _) fun _ _ => .ret (h2.trans h1)
    · exact .ret (h2.trans h1)
  | .divide _ e1 e2, o => by
    simp only [Expression.typecheck]
    refine .seq (Expression.typecheck_table Γ e1 o) fun _ h1 =>
      .seq (Expression.typecheck_table Γ e2 _) fun _ h2 => ?_
    split
    · exact .seq (.trivial _) fun _ _ => .ret (h2.trans h1)
    · exact .ret (h2.trans h1)
  | .neg _ e1, o => by
    simp only [Expression.typecheck]
    refine .seq (Expression.typecheck_table Γ e1 o) fun _ h1 => ?_
    split
    · exact .seq (.trivial _) fun _ _ => .ret h1
    · exact .ret h1
  | .lt _ e1 e2, o => by
    simp only [Expression.typecheck]
    refine .seq (Expression.typecheck_table Γ e1 o) fun _ h1 =>
      .seq (Expression.typecheck_table Γ e2 _) fun _ h2 => ?_
    split
    · exact .seq (.trivial _) fun _ _ => .ret (h2.trans h1)
    · exact .ret (h2.trans h1)
  | .eq _ e1 e2, o => by
    simp only [Expression.typecheck]
    exact .seq (Expression.typecheck_table Γ e1 o) fun _ h1 =>
      .seq (Expression.typecheck_table Γ e2 _) fun _ h2 =>
      .seq (.trivial _) fun _ _ => .ret (h2.trans h1)
  | .leq _ e1 e2, o => by
    simp only [Expression.typecheck]
    exact .seq (Expression.typecheck_table Γ e1 o) fun _ h1 =>
      .seq (Expression.typecheck_table Γ e2 _) fun _ h2 =>
      .seq (.trivial _) fun _ _ => .ret (h2.trans h1)
  | .comp _ e1, o => by
    simp only [Expression.typecheck]
    exact .seq (Expression.typecheck_table Γ e1 o) fun _ h1 =>
      .seq (.trivial _) fun _ _ => .ret h1

theorem typecheck_actuals_table (Γ : Context) (name : Symbol) (formals : List Formal) :
    ∀ (actual : List Expression) (i : Nat) (o : SymbolTable),
      Checked.Ok (fun r => r.2.2.2 = o) (typecheck_actuals Γ name formals actual i o)
  | [], i, o => by simp only [typecheck_actuals]; exact .ret rfl
  | a :: rest, i, o => by
    simp only [typecheck_actuals]
    refine .seq (Expression.typecheck_table Γ a o) fun _ h1 => ?_
    split
    · exact .seq (.trivial _) fun _ _ => .seq (.trivial _) fun _ _ =>
        .seq (typecheck_actuals_table Γ name formals rest _ _) fun _ h2 =>
          .ret (h2.trans h1)
    · exact .seq (typecheck_actuals_table Γ name formals rest _ _) fun _ h2 =>
        .ret (h2.trans h1)

theorem typecheck_block_table (Γ : Context) :
    ∀ (body : List Expression) (t : Symbol) (o : SymbolTable),
      Checked.Ok (fun r => r.2.2 = o) (typecheck_block Γ body t o)
  | [], t, o => by simp only [typecheck_block]; exact .ret rfl
  | e :: rest, t, o => by
    simp only [typecheck_block]
    exact .seq (Expression.typecheck_table Γ e o) fun _ h1 =>
      .seq (typecheck_block_table Γ rest _ _) fun _ h2 => .ret (h2.trans h1)

theorem typecheck_cases_table (Γ : Context) :
    ∀ (cases : List (Symbol × Symbol × Expression)) (used : List Symbol) (prev_type : Symbol)
      (o : SymbolTable), Checked.Ok (fun r => r.2.2 = o) (typecheck_cases Γ cases used prev_type o)
  | [], used, prev_type, o => by simp only [typecheck_cases]; exact .ret rfl
  | (c_name, c_type, c_expr) :: rest, used, prev_type, o => by
    simp only [typecheck_cases]
    split
    · exact .seq (.trivial _) fun _ _ => .ret rfl
    · exact .seq (.table _) fun o1 h1 =>
        .seq (Expression.typecheck_table Γ c_expr _) fun r2 h2 =>
        .seq (.trivial _) fun _ _ =>
        .seq (.table _) fun o3 h3 =>
        .seq (typecheck_cases_table Γ rest _ _ _) fun _ h4 =>
          .ret (by
            have e := exitscope_addid_enterscope _ _ _ _ h1
            rw [← h2] at e
            rw [e] at h3
            exact h4.trans (Option.some.inj h3).symm)

end

theorem lookup_enterscope (o : SymbolTable) (y : Symbol) : lookup ([] :: o) y = lookup o y := by
  simp [lookup, scope_lookup]

theorem lookup_bind_new_scope (o : SymbolTable) (x T : Symbol) :
    lookup ([(x, T)] :: o) x = some T ∧
      ∀ y, y ≠ x → lookup ([(x, T)] :: o) y = lookup o y := by
  constructor
  · simp [lookup, scope_lookup]
  · intro y hy
    have : ¬ x = y := fun e => hy e.symm
    simp [lookup, scope_lookup, this]

/-- C20: for a `let x : T <- init in body` checked in the environment `o`,
the initialiser being checked with type `t1` and the conformance test of `t1`
against `T` ending: the initialiser is checked in `o` and leaves `o` as it
was.  When `x` is not `self` the body is checked in `o` with one more scope that
binds `x` to `T` (so `x` looks up to `T` and every other identifier as in `o`),
the type of the `let` is the type of the body, and `o` is the environment
afterwards.  When `x` is `self` the node reports one diagnostic and the body is
checked in `o` with one more, empty, scope, where every identifier looks up as
in `o`. -/
theorem C20_let_rule (Γ : Context) (sl : Option Symbol) (x T : Symbol)
    (init body : Expression) (o : SymbolTable) (t1 : Symbol) (init' : Expression)
    (o1 : SymbolTable) (hi : (Expression.typecheck Γ init o).outcome = .ok (t1, init', o1))
    (hci : (check_init Γ t1 T (.let_init_mismatch t1 x)).outcome = .ok ()) :
    o1 = o ∧
    (x ≠ self →
      lookup ([(x, T)] :: o) x = some T ∧
      (∀ y, y ≠ x → lookup ([(x, T)] :: o) y = lookup o y) ∧
      ∀ (t : Symbol) (body' : Expression) (o3 : SymbolTable),
        (Expression.typecheck Γ body ([(x, T)] :: o)).outcome = .ok (t, body', o3) →
        (Expression.typecheck Γ (.let_ sl x T init body) o).outcome =
          .ok (t, .let_ (some t) x T init' body', o) ∧
        (Expression.typecheck Γ (.let_ sl x T init body) o).errors =
          (Expression.typecheck Γ init o).errors ++
            (check_init Γ t1 T (.let_init_mismatch t1 x)).errors ++
            (Expression.typecheck Γ body ([(x, T)] :: o)).errors) ∧
    (x = self →
      (∀ y, lookup ([] :: o) y = lookup o y) ∧
      ∀ (t : Symbol) (body' : Expression) (o3 : SymbolTable),
        (Expression.typecheck Γ body ([] :: o)).outcome = .ok (t, body', o3) →
        (Expression.typecheck Γ (.let_ sl x T init body) o).outcome =
          .ok (t, .let_ (some t) x T init' body', o) ∧
        (Expression.typecheck Γ (.let_ sl x T init body) o).errors =
          (Expression.typecheck Γ init o).errors ++
            (check_init Γ t1 T (.let_init_mismatch t1 x)).errors ++ [.let_self] ++
            (Expression.typecheck Γ body ([] :: o)).errors) := by
  have ho1 : o1 = o := Expression.typecheck_table Γ init o _ hi
  subst ho1
  refine ⟨rfl, ?_, ?_⟩
  · intro hx
    refine ⟨(lookup_bind_new_scope o1 x T).1, (lookup_bind_new_scope o1 x T).2, ?_⟩
    intro t body' o3 hb
    have ho3 : o3 = [(x, T)] :: o1 := Expression.typecheck_table Γ body _ _ hb
    subst ho3
    have hsc : ∀ o' : SymbolTable, (if x ≠ self then Checked.ofTable (addid (enterscope o') x T)
        else (semant_error .let_self >>= fun _ => pure (enterscope o'))) =
        (⟨[], .ok ([(x, T)] :: o')⟩ : Checked SymbolTable) := by
      intro o'; rw [if_pos hx]; rfl
    have hex : (Checked.ofTable (exitscope ([(x, T)] :: o1))).outcome = .ok o1 := rfl
    simp only [Expression.typecheck, hsc]
    constructor
    · rw [Checked.bind_outcome_of_ok _ hi, Checked.bind_outcome_of_ok _ hci,
        Checked.bind_outcome_of_ok _ rfl, Checked.bind_outcome_of_ok _ hb,
        Checked.bind_outcome_of_ok _ hex]
      rfl
    · rw [Checked.bind_errors_of_ok _ hi, Checked.bind_errors_of_ok _ hci,
        Checked.bind_errors_of_ok _ rfl, Checked.bind_errors_of_ok _ hb,
        Checked.bind_errors_of_ok _ hex]
      simp [Checked.ofTable, Checked.pure_errors, exitscope]
  · intro hx
    refine ⟨lookup_enterscope o1, ?_⟩
    intro t body' o3 hb
    have ho3 : o3 = [] :: o1 := Expression.typecheck_table Γ body _ _ hb
    subst ho3
    have hsc : ∀ o' : SymbolTable, (if x ≠ self then Checked.ofTable (addid (enterscope o') x T)
        else (semant_error .let_self >>= fun _ => pure (enterscope o'))) =
        (⟨[.let_self], .ok ([] :: o')⟩ : Checked SymbolTable) := by
      intro o'; rw [if_neg (not_not.mpr hx)]; rfl
    have hex : (Checked.ofTable (exitscope ([] :: o1))).outcome = .ok o1 := rfl
    simp only [Expression.typecheck, hsc]
    constructor
    · rw [Checked.bind_outcome_of_ok _ hi, Checked.bind_outcome_of_ok _ hci,
        Checked.bind_outcome_of_ok _ rfl, Checked.bind_outcome_of_ok _ hb,
        Checked.bind_outcome_of_ok _ hex]
      rfl
    · rw [Checked.bind_errors_of_ok _ hi, Checked.bind_errors_of_ok _ hci,
        Checked.bind_errors_of_ok _ rfl, Checked.bind_errors_of_ok _ hb,
        Checked.bind_errors_of_ok _ hex]
      simp [Checked.ofTable, Checked.pure_errors, exitscope]

theorem C20_let_rule_witness :
    (Expression.typecheck scenario_context
        (.let_ none "x" Int_ (.object none "x") (.object none "x")) [[("x", "A")]]).outcome =
      .ok (Int_, .let_ (some Int_) "x" Int_ (.object (some "A") "x") (.object (some Int_) "x"),
        [[("x", "A")]]) ∧
    (Expression.typecheck scenario_context
        (.let_ none "x" Int_ (.object none "x") (.object none "x")) [[("x", "A")]]).errors =
      (Expression.typecheck scenario_context (.object none "x") [[("x", "A")]]).errors ++
        (check_init scenario_context "A" Int_ (.let_init_mismatch "A" "x")).errors ++
        (Expression.typecheck scenario_context (.object none "x")
          ([("x", Int_)] :: [[("x", "A")]])).errors :=
  ((C20_let_rule scenario_context none "x" Int_ (.object none "x") (.object none "x")
    [[("x", "A")]] "A" (.object (some "A") "x") [[("x", "A")]] rfl rfl).2.1 (by decide)).2.2
    Int_ (.object (some Int_) "x") ([("x", Int_)] :: [[("x", "A")]]) rfl

theorem actuals_checked_length (Γ : Context) (name : Symbol) (formals : List Formal) :
    ∀ (actual : List Expression) (i : Nat) (o : SymbolTable) (errs : List SemantError)
      (actual' : List Expression) (o' : SymbolTable),
      ActualsCheckedInOrder Γ name formals actual i o errs actual' o' →
      actual'.length = actual.length := by
  intro actual
  induction actual with
  | nil =>
    intro i o errs actual' o' h
    simp only [ActualsCheckedInOrder] at h
    rw [h.2.1]
  | cons a rest ih =>
    intro i o errs actual' o' h
    simp only [ActualsCheckedInOrder] at h
    obtain ⟨t, a', o1, errs_rest, rest', _, hrest, ha, _⟩ := h
    rw [ha, List.length_cons, List.length_cons, ih _ _ _ _ _ hrest]

theorem typecheck_actuals_spec (Γ : Context) (name : Symbol) (formals : List Formal) :
    ∀ (actual : List Expression) (i : Nat) (o : SymbolTable) (less : Bool) (j : Nat)
      (actual' : List Expression) (o2 : SymbolTable),
      (typecheck_actuals Γ name formals actual i o).outcome = .ok (less, j, actual', o2) →
      j = i + actual.length ∧
      (less = true ↔ 0 < actual.length ∧ formals.length < i + actual.length) ∧
      ActualsCheckedInOrder Γ name formals actual i o
        (typecheck_actuals Γ name formals actual i o).errors actual' o2 := by
  intro actual
  induction actual with
  | nil =>
    intro i o less j actual' o2 h
    simp only [typecheck_actuals, Checked.pure_outcome, Outcome.ok.injEq, Prod.mk.injEq] at h
    obtain ⟨h1, h2, h3, h4⟩ := h
    subst h1 h2 h3 h4
    simp [ActualsCheckedInOrder, typecheck_actuals, Checked.pure_errors]
  | cons a rest ih =>
    intro i o less j actual' o2 h
    simp only [typecheck_actuals] at h
    obtain ⟨r1, h1, h⟩ := Checked.bind_ok_inv h
    simp only [typecheck_actuals, ActualsCheckedInOrder, List.length_cons]
    rw [Checked.bind_errors_of_ok _ h1]
    cases hf : formals[i]? with
    | none =>
      have hlen : formals.length ≤ i := List.getElem?_eq_none_iff.mp hf
      rw [hf] at h
      simp only at h
      obtain ⟨r2, h2, h⟩ := Checked.bind_ok_inv h
      simp only [Checked.pure_outcome, Outcome.ok.injEq, Prod.mk.injEq] at h
      obtain ⟨hl, hj, ha, ho⟩ := h
      obtain ⟨ihj, _, ihc⟩ := ih (i + 1) r1.2.2 r2.1 r2.2.1 r2.2.2.1 r2.2.2.2 h2
      refine ⟨by rw [← hj, ihj]; omega, ?_, ?_⟩
      · rw [← hl]
        simp only [true_iff]
        omega
      · refine ⟨r1.1, r1.2.1, r1.2.2, (typecheck_actuals Γ name formals rest (i + 1) r1.2.2).errors,
          r2.2.2.1, h1, ?_, ha.symm, ?_⟩
        · rw [← ho]; exact ihc
        · simp only
          rw [Checked.bind_errors_of_ok _ h2]
          simp [arg_mismatch_errors, hf, Checked.pure_errors]
    | some f =>
      have hlen : i < formals.length := by
        by_contra hc
        rw [List.getElem?_eq_none_iff.mpr (by omega)] at hf
        cases hf
      rw [hf] at h
      simp only at h
      obtain ⟨b, hb, h⟩ := Checked.bind_ok_inv h
      obtain ⟨u, hu, h⟩ := Checked.bind_ok_inv h
      obtain ⟨r2, h2, h⟩ := Checked.bind_ok_inv h
      simp only [Checked.pure_outcome, Outcome.ok.injEq, Prod.mk.injEq] at h
      obtain ⟨hl, hj, ha, ho⟩ := h
      obtain ⟨ihj, ihl, ihc⟩ := ih (i + 1) r1.2.2 r2.1 r2.2.1 r2.2.2.1 r2.2.2.2 h2
      have hbs : is_subclass Γ.cm Γ.fuel r1.1 f.type_decl Γ.c = some b :=
        Checked.Ok.option _ b hb
      refine ⟨by rw [← hj, ihj]; omega, ?_, ?_⟩
      · rw [← hl, ihl]
        constructor
        · rintro ⟨_, h'⟩
          exact ⟨by omega, by omega⟩
        · rintro ⟨_, h'⟩
          exact ⟨by omega, by omega⟩
      · refine ⟨r1.1, r1.2.1, r1.2.2, (typecheck_actuals Γ name formals rest (i + 1) r1.2.2).errors,
          r2.2.2.1, h1, ?_, ha.symm, ?_⟩
        · rw [← ho]; exact ihc
        · simp only
          rw [Checked.bind_errors_of_ok _ hb, Checked.bind_errors_of_ok _ hu,
            Checked.bind_errors_of_ok _ h2, Checked.semant_error_when_errors]
          simp only [arg_mismatch_errors, hf, hbs, Option.some.injEq, Checked.pure_errors,
            List.append_nil]
          cases b <;> simp [Checked.ofOption]

/-- C15: for a dynamic dispatch whose receiver is checked, whose method `m`
is found from the resolved type of the receiver and whose loop over the actuals
ends: the node adds the wrong-number diagnostic, once, after the diagnostics of
the receiver and of the actuals, exactly when the number of actuals differs
from the number of formals of `m`; and whether it does or not every actual has
been checked exactly once, in order, each in the table left by the one
before. -/
theorem C15_dispatch_arity (Γ : Context) (sl : Option Symbol) (expr : Expression)
    (name : Symbol) (actual : List Expression) (o : SymbolTable) (tv : Symbol)
    (expr' : Expression) (o1 : SymbolTable) (m : MethodPtr) (less : Bool) (j : Nat)
    (actual' : List Expression) (o2 : SymbolTable)
    (hrecv : (Expression.typecheck Γ expr o).outcome = .ok (tv, expr', o1))
    (hm : lookup_method Γ.cm Γ.me Γ.fuel (if tv = SELF_TYPE then Γ.c.name else tv) name =
      some (some m))
    (hact : (typecheck_actuals Γ name m.2.formals actual 0 o1).outcome =
      .ok (less, j, actual', o2)) :
    (Expression.typecheck Γ (.dispatch sl expr name actual) o).errors =
        (Expression.typecheck Γ expr o).errors ++
          (typecheck_actuals Γ name m.2.formals actual 0 o1).errors ++
          (if actual.length ≠ m.2.formals.length then [.wrong_number_of_parameters name]
            else []) ∧
      ActualsCheckedInOrder Γ name m.2.formals actual 0 o1
        (typecheck_actuals Γ name m.2.formals actual 0 o1).errors actual' o2 ∧
      actual'.length = actual.length ∧
      ∃ slot r, (Expression.typecheck Γ (.dispatch sl expr name actual) o).outcome =
        .ok (r, .dispatch slot expr' name actual', o2) := by
  obtain ⟨hj, hless, hin⟩ := typecheck_actuals_spec Γ name m.2.formals actual 0 o1 less j
    actual' o2 hact
  have hm' : (Checked.ofOption (lookup_method Γ.cm Γ.me Γ.fuel
      (if tv = SELF_TYPE then Γ.c.name else tv) name)).outcome = .ok (some m) := by
    rw [hm]; rfl
  have hcond : (less = true ∨ j < m.2.formals.length) ↔ actual.length ≠ m.2.formals.length := by
    rw [hless, hj]
    omega
  refine ⟨?_, hin, ?_, ?_⟩
  · simp only [Expression.typecheck]
    rw [Checked.bind_errors_of_ok _ hrecv, Checked.bind_errors_of_ok _ hm']
    simp only
    rw [Checked.bind_errors_of_ok _ hact,
      Checked.bind_errors_of_ok _ (Checked.semant_error_when_outcome _ _),
      Checked.semant_error_when_errors, hm]
    simp only [Checked.ofOption, Checked.pure_errors, List.append_nil, List.nil_append,
      List.append_assoc]
    by_cases hc : actual.length ≠ m.2.formals.length
    · rw [if_pos (hcond.mpr hc), if_pos hc]
    · rw [if_neg (fun h => hc (hcond.mp h)), if_neg hc]
  · exact actuals_checked_length Γ name m.2.formals actual 0 o1 _ actual' o2 hin
  · refine ⟨(dispatch_result m.2.return_type expr'.type
        (if tv = SELF_TYPE then Γ.c.name else tv)).1,
      (dispatch_result m.2.return_type expr'.type
        (if tv = SELF_TYPE then Γ.c.name else tv)).2, ?_⟩
    simp only [Expression.typecheck]
    rw [Checked.bind_outcome_of_ok _ hrecv, Checked.bind_outcome_of_ok _ hm']
    simp only
    rw [Checked.bind_outcome_of_ok _ hact,
      Checked.bind_outcome_of_ok _ (Checked.semant_error_when_outcome _ _)]
    rfl

theorem C15_dispatch_arity_witness :
    (Expression.typecheck scenario_context
        (.dispatch none (.string_const none "a") substr
          [.int_const none "1", .int_const none "2", .int_const none "3"]) [[]]).errors =
      (Expression.typecheck scenario_context (.string_const none "a") [[]]).errors ++
        (typecheck_actuals scenario_context substr [⟨arg, Int_⟩, ⟨arg2, Int_⟩]
          [.int_const none "1", .int_const none "2", .int_const none "3"] 0 [[]]).errors ++
        [.wrong_number_of_parameters substr] ∧
      [Expression.int_const (some Int_) "1", .int_const (some Int_) "2",
        .int_const (some Int_) "3"].length = 3 :=
  ⟨(C15_dispatch_arity scenario_context none (.string_const none "a") substr
      [.int_const none "1", .int_const none "2", .int_const none "3"] [[]] Str
      (.string_const (some Str) "a") [[]]
      (4, ⟨substr, [⟨arg, Int_⟩, ⟨arg2, Int_⟩], Str, .no_expr none⟩) true 3
      [.int_const (some Int_) "1", .int_const (some Int_) "2", .int_const (some Int_) "3"] [[]]
      rfl rfl rfl).1,
    (C15_dispatch_arity scenario_context none (.string_const none "a") substr
      [.int_const none "1", .int_const none "2", .int_const none "3"] [[]] Str
      (.string_const (some Str) "a") [[]]
      (4, ⟨substr, [⟨arg, Int_⟩, ⟨arg2, Int_⟩], Str, .no_expr none⟩) true 3
      [.int_const (some Int_) "1", .int_const (some Int_) "2", .int_const (some Int_) "3"] [[]]
      rfl rfl rfl).2.2.1⟩

/-! ## The slot and the returned value of a node -/

theorem dispatch_result_slot (return_type : Symbol) (expr_type : Option Symbol) (tv c : Symbol)
    (h : expr_type = some tv ∨ expr_type = some SELF_TYPE) :
    (dispatch_result return_type expr_type (if tv = SELF_TYPE then c else tv)).1 =
        some (dispatch_result return_type expr_type (if tv = SELF_TYPE then c else tv)).2 ∨
      (dispatch_result return_type expr_type (if tv = SELF_TYPE then c else tv)).1 =
        some SELF_TYPE := by
  unfold dispatch_result
  by_cases hr : return_type = SELF_TYPE
  · rw [if_pos hr]
    by_cases he : expr_type = some SELF_TYPE
    · rw [if_pos he]
      exact Or.inr rfl
    · rw [if_neg he]
      rcases h with h | h
      · have ht : tv ≠ SELF_TYPE := fun ht => he (by rw [h, ht])
        rw [if_neg ht]
        exact Or.inl h
      · exact absurd h he
  · rw [if_neg hr]
    exact Or.inl rfl

/-- The slot of a checked node holds the value its rule returned, or
`SELF_TYPE`. -/
theorem Expression.typecheck_slot (Γ : Context) :
    ∀ (e : Expression) (o : SymbolTable),
      Checked.Ok (fun r => r.2.1.type = some r.1 ∨ r.2.1.type = some SELF_TYPE)
        (Expression.typecheck Γ e o)
  | .int_const _ _, o => by simp only [Expression.typecheck]; exact .ret (Or.inl rfl)
  | .string_const _ _, o => by simp only [Expression.typecheck]; exact .ret (Or.inl rfl)
  | .bool_const _ _, o => by simp only [Expression.typecheck]; exact .ret (Or.inl rfl)
  | .no_expr _, o => by simp only [Expression.typecheck]; exact .ret (Or.inl rfl)
  | .new_ _ t, o => by
    simp only [Expression.typecheck]
    split
    · exact .seq (.trivial _) fun _ _ => .ret (Or.inl rfl)
    · exact .ret (Or.inl rfl)
  | .object _ name, o => by
    simp only [Expression.typecheck]
    split
    · exact .seq (.trivial _) fun _ _ => .ret (Or.inl rfl)
    · exact .ret (Or.inl rfl)
  | .isvoid _ e1, o => by
    simp only [Expression.typecheck]
    exact .seq (.trivial _) fun _ _ => .ret (Or.inl rfl)
  | .assign _ name expr, o => by
    simp only [Expression.typecheck]
    split
    · exact .seq (.trivial _) fun _ _ => .ret (Or.inl rfl)
    · split
      · exact .seq (.trivial _) fun _ _ => .ret (Or.inl rfl)
      · refine .seq (.trivial _) fun _ _ => .seq (.trivial _) fun _ _ => ?_
        split
        · exact .seq (.trivial _) fun _ _ => .ret (Or.inl rfl)
        · exact .ret (Or.inl rfl)
  | .static_dispatch _ expr t name actual, o => by
    simp only [Expression.typecheck]
    refine .seq (Expression.typecheck_slot Γ expr o) fun r1 h1 =>
      .seq (.trivial _) fun _ _ => .seq (.trivial _) fun _ _ =>
      .seq (.trivial _) fun _ _ => ?_
    split
    · exact .seq (.trivial _) fun _ _ => .ret (Or.inl rfl)
    · exact .seq (.trivial _) fun _ _ =>
        .seq (.trivial _) fun _ _ => .ret (dispatch_result_slot _ _ _ _ h1)
  | .dispatch _ expr name actual, o => by
    simp only [Expression.typecheck]
    refine .seq (Expression.typecheck_slot Γ expr o) fun r1 h1 =>
      .seq (.trivial _) fun _ _ => ?_
    split
    · exact .seq (.trivial _) fun _ _ => .ret (Or.inl rfl)
    · exact .seq (.trivial _) fun _ _ =>
        .seq (.trivial _) fun _ _ => .ret (dispatch_result_slot _ _ _ _ h1)
  | .cond _ pred then_exp else_exp, o => by
    simp only [Expression.typecheck]
    exact .seq (.trivial _) fun _ _ => .seq (.trivial _) fun _ _ =>
      .seq (.trivial _) fun _ _ => .seq (.trivial _) fun _ _ =>
      .seq (.trivial _) fun _ _ => .ret (Or.inl rfl)
  | .loop _ pred body, o => by
    simp only [Expression.typecheck]
    exact .seq (.trivial _) fun _ _ => .seq (.trivial _) fun _ _ =>
      .seq (.trivial _) fun _ _ => .ret (Or.inl rfl)
  | .typcase _ expr (c_name, c_type, c_expr) cases, o => by
    simp only [Expression.typecheck]
    exact .seq (.trivial _) fun _ _ => .seq (.trivial _) fun _ _ =>
      .seq (.trivial _) fun _ _ => .seq (.trivial _) fun _ _ =>
      .seq (.trivial _) fun _ _ => .ret (Or.inl rfl)
  | .block _ body0 body, o => by
    simp only [Expression.typecheck]
    exact .seq (.trivial _) fun _ _ => .seq (.trivial _) fun _ _ => .ret (Or.inl rfl)
  | .let_ _ identifier t0 init body, o => by
    simp only [Expression.typecheck]
    exact .seq (.trivial _) fun _ _ => .seq (.trivial _) fun _ _ =>
      .seq (.trivial _) fun _ _ => .seq (.trivial _) fun _ _ =>
      .seq (.trivial _) fun _ _ => .ret (Or.inl rfl)
  | .plus _ e1 e2, o => by
    simp only [Expression.typecheck]
    refine .seq (.trivial _) fun _ _ => .seq (.trivial _) fun _ _ => ?_
    split
    · exact .seq (.trivial _) fun _ _ => .ret (Or.inl rfl)
    · exact .ret (Or.inl rfl)
  | .sub _ e1 e2, o => by
    simp only [Expression.typecheck]
    refine .seq (.trivial _) fun _ _ => .seq (.trivial _) fun _ _ => ?_
    split
    · exact .seq (.trivial _) fun _ _ => .ret (Or.inl rfl)
    · exact .ret (Or.inl rfl)
  | .mul _ e1 e2, o => by
    simp only [Expression.typecheck]
    refine .seq (.trivial _) fun _ _ => .seq (.trivial _) fun _ _ => ?_
    split
    · exact .seq (.trivial _) fun _ _ => .ret (Or.inl rfl)
    · exact .ret (Or.inl rfl)
  | .divide _ e1 e2, o => by
    simp only [Expression.typecheck]
    refine .seq (.trivial _) fun _ _ => .seq (.trivial _) fun _ _ => ?_
    split
    · exact .seq (.trivial _) fun _ _ => .ret (Or.inl rfl)
    · exact .ret (Or.inl rfl)
  | .neg _ e1, o => by
    simp only [Expression.typecheck]
    refine .seq (.trivial _) fun _ _ => ?_
    split
    · exact .seq (.trivial _) fun _ _ => .ret (Or.inl rfl)
    · exact .ret (Or.inl rfl)
  | .lt _ e1 e2, o => by
    simp only [Expression.typecheck]
    refine .seq (.trivial _) fun _ _ => .seq (.trivial _) fun _ _ => ?_
    split
    · exact .seq (.trivial _) fun _ _ => .ret (Or.inl rfl)
    · exact .ret (Or.inl rfl)
  | .eq _ e1 e2, o => by
    simp only [Expression.typecheck]
    exact .seq (.trivial _) fun _ _ => .seq (.trivial _) fun _ _ =>
      .seq (.trivial _) fun _ _ => .ret (Or.inl rfl)
  | .leq _ e1 e2, o => by
    simp only [Expression.typecheck]
    exact .seq (.trivial _) fun _ _ => .seq (.trivial _) fun _ _ =>
      .seq (.trivial _) fun _ _ => .ret (Or.inl rfl)
  | .comp _ e1, o => by
    simp only [Expression.typecheck]
    exact .seq (.trivial _) fun _ _ => .seq (.trivial _) fun _ _ => .ret (Or.inl rfl)

theorem dispatch_result_self_type (return_type T tv c : Symbol) (expr_type : Option Symbol)
    (hr : return_type = SELF_TYPE) (hT : expr_type = some T) (hne : T ≠ SELF_TYPE)
    (h : expr_type = some tv ∨ expr_type = some SELF_TYPE) :
    dispatch_result return_type expr_type (if tv = SELF_TYPE then c else tv) = (some T, T) := by
  have he : expr_type ≠ some SELF_TYPE := fun he => hne (Option.some.inj (hT.symm.trans he))
  have htv : tv = T := by
    rcases h with h | h
    · exact Option.some.inj (h.symm.trans hT)
    · exact absurd h he
  unfold dispatch_result
  rw [if_pos hr, if_neg he, htv, if_neg hne, hT]

theorem dispatch_result_declared (return_type t0 : Symbol) (expr_type : Option Symbol)
    (hr : return_type ≠ SELF_TYPE) :
    dispatch_result return_type expr_type t0 = (some return_type, return_type) := by
  unfold dispatch_result
  rw [if_neg hr]

theorem dispatch_outcome (Γ : Context) (sl : Option Symbol) (expr : Expression)
    (name : Symbol) (actual : List Expression) (o : SymbolTable) (tv : Symbol)
    (expr' : Expression) (o1 : SymbolTable) (m : MethodPtr) (less : Bool) (j : Nat)
    (actual' : List Expression) (o2 : SymbolTable)
    (hrecv : (Expression.typecheck Γ expr o).outcome = .ok (tv, expr', o1))
    (hm : lookup_method Γ.cm Γ.me Γ.fuel (if tv = SELF_TYPE then Γ.c.name else tv) name =
      some (some m))
    (hact : (typecheck_actuals Γ name m.2.formals actual 0 o1).outcome =
      .ok (less, j, actual', o2)) :
    (Expression.typecheck Γ (.dispatch sl expr name actual) o).outcome =
      .ok ((dispatch_result m.2.return_type expr'.type
          (if tv = SELF_TYPE then Γ.c.name else tv)).2,
        .dispatch (dispatch_result m.2.return_type expr'.type
          (if tv = SELF_TYPE then Γ.c.name else tv)).1 expr' name actual', o2) := by
  have hm' : (Checked.ofOption (lookup_method Γ.cm Γ.me Γ.fuel
      (if tv = SELF_TYPE then Γ.c.name else tv) name)).outcome = .ok (some m) := by
    rw [hm]; rfl
  simp only [Expression.typecheck]
  rw [Checked.bind_outcome_of_ok _ hrecv, Checked.bind_outcome_of_ok _ hm']
  simp only
  rw [Checked.bind_outcome_of_ok _ hact,
    Checked.bind_outcome_of_ok _ (Checked.semant_error_when_outcome _ _)]
  rfl

theorem static_dispatch_outcome (Γ : Context) (sl : Option Symbol) (expr : Expression)
    (t name : Symbol) (actual : List Expression) (o : SymbolTable) (tv : Symbol)
    (expr' : Expression) (o1 : SymbolTable) (b : Bool) (m : MethodPtr) (less : Bool) (j : Nat)
    (actual' : List Expression) (o2 : SymbolTable)
    (hrecv : (Expression.typecheck Γ expr o).outcome = .ok (tv, expr', o1))
    (hb : is_subclass Γ.cm Γ.fuel (if tv = SELF_TYPE then Γ.c.name else tv) t Γ.c = some b)
    (hm : lookup_method Γ.cm Γ.me Γ.fuel t name = some (some m))
    (hact : (typecheck_actuals Γ name m.2.formals actual 0 o1).outcome =
      .ok (less, j, actual', o2)) :
    (Expression.typecheck Γ (.static_dispatch sl expr t name actual) o).outcome =
      .ok ((dispatch_result m.2.return_type expr'.type
          (if tv = SELF_TYPE then Γ.c.name else tv)).2,
        .static_dispatch (dispatch_result m.2.return_type expr'.type
          (if tv = SELF_TYPE then Γ.c.name else tv)).1 expr' t name actual', o2) := by
  have hb' : (Checked.ofOption (is_subclass Γ.cm Γ.fuel
      (if tv = SELF_TYPE then Γ.c.name else tv) t Γ.c)).outcome = .ok b := by
    rw [hb]; rfl
  have hm' : (Checked.ofOption (lookup_method Γ.cm Γ.me Γ.fuel t name)).outcome =
      .ok (some m) := by
    rw [hm]; rfl
  simp only [Expression.typecheck]
  rw [Checked.bind_outcome_of_ok _ hrecv]
  simp only
  rw [Checked.bind_outcome_of_ok _ hb',
    Checked.bind_outcome_of_ok _ (Checked.semant_error_when_outcome _ _),
    Checked.bind_outcome_of_ok _ hm']
  simp only
  rw [Checked.bind_outcome_of_ok _ hact,
    Checked.bind_outcome_of_ok _ (Checked.semant_error_when_outcome _ _)]
  rfl

/-- C14: for a dispatch, dynamic or static, whose receiver is checked, whose
method `m` is resolved and whose loop over the actuals ends: when `m` declares
the return type `SELF_TYPE` and the slot of the checked receiver holds a type
`T` other than `SELF_TYPE`, the rule returns `T` and writes `T` into the slot
of the dispatch; when `m` declares a return type `R` other than `SELF_TYPE`,
the rule returns `R` and writes `R` into the slot. -/
theorem C14_dispatch_type (Γ : Context) (sl : Option Symbol) (expr : Expression)
    (name : Symbol) (actual : List Expression) (o : SymbolTable) (tv : Symbol)
    (expr' : Expression) (o1 : SymbolTable) (m : MethodPtr) (less : Bool) (j : Nat)
    (actual' : List Expression) (o2 : SymbolTable)
    (hrecv : (Expression.typecheck Γ expr o).outcome = .ok (tv, expr', o1))
    (hact : (typecheck_actuals Γ name m.2.formals actual 0 o1).outcome =
      .ok (less, j, actual', o2)) :
    (lookup_method Γ.cm Γ.me Γ.fuel (if tv = SELF_TYPE then Γ.c.name else tv) name =
        some (some m) →
      (∀ T : Symbol, m.2.return_type = SELF_TYPE → expr'.type = some T → T ≠ SELF_TYPE →
        (Expression.typecheck Γ (.dispatch sl expr name actual) o).outcome =
          .ok (T, .dispatch (some T) expr' name actual', o2)) ∧
      (m.2.return_type ≠ SELF_TYPE →
        (Expression.typecheck Γ (.dispatch sl expr name actual) o).outcome =
          .ok (m.2.return_type, .dispatch (some m.2.return_type) expr' name actual', o2))) ∧
    (∀ (t : Symbol) (b : Bool),
      is_subclass Γ.cm Γ.fuel (if tv = SELF_TYPE then Γ.c.name else tv) t Γ.c = some b →
      lookup_method Γ.cm Γ.me Γ.fuel t name = some (some m) →
      (∀ T : Symbol, m.2.return_type = SELF_TYPE → expr'.type = some T → T ≠ SELF_TYPE →
        (Expression.typecheck Γ (.static_dispatch sl expr t name actual) o).outcome =
          .ok (T, .static_dispatch (some T) expr' t name actual', o2)) ∧
      (m.2.return_type ≠ SELF_TYPE →
        (Expression.typecheck Γ (.static_dispatch sl expr t name actual) o).outcome =
          .ok (m.2.return_type,
            .static_dispatch (some m.2.return_type) expr' t name actual', o2))) := by
  have hslot := Expression.typecheck_slot Γ expr o _ hrecv
  refine ⟨fun hm => ⟨fun T hr hT hne => ?_, fun hr => ?_⟩,
    fun t b hb hm => ⟨fun T hr hT hne => ?_, fun hr => ?_⟩⟩
  · rw [dispatch_outcome Γ sl expr name actual o tv expr' o1 m less j actual' o2 hrecv hm hact,
      dispatch_result_self_type _ T tv _ _ hr hT hne hslot]
  · rw [dispatch_outcome Γ sl expr name actual o tv expr' o1 m less j actual' o2 hrecv hm hact,
      dispatch_result_declared _ _ _ hr]
  · rw [static_dispatch_outcome Γ sl expr t name actual o tv expr' o1 b m less j actual' o2
        hrecv hb hm hact,
      dispatch_result_self_type _ T tv _ _ hr hT hne hslot]
  · rw [static_dispatch_outcome Γ sl expr t name actual o tv expr' o1 b m less j actual' o2
        hrecv hb hm hact,
      dispatch_result_declared _ _ _ hr]

theorem C14_dispatch_type_witness :
    (Expression.typecheck scenario_context (.dispatch none (.new_ none "A") copy []) [[]]).outcome =
        .ok ("A", .dispatch (some "A") (.new_ (some "A") "A") copy [], [[]]) ∧
      (Expression.typecheck scenario_context
          (.static_dispatch none (.new_ none "A") "B" copy []) [[]]).outcome =
        .ok ("A", .static_dispatch (some "A") (.new_ (some "A") "A") "B" copy [], [[]]) :=
  ⟨((C14_dispatch_type scenario_context none (.new_ none "A") copy [] [[]] "A"
      (.new_ (some "A") "A") [[]] (2, ⟨copy, [], SELF_TYPE, .no_expr none⟩) false 0 [] [[]]
      rfl rfl).1 rfl).1 "A" rfl rfl (by decide),
    ((C14_dispatch_type scenario_context none (.new_ none "A") copy [] [[]] "A"
      (.new_ (some "A") "A") [[]] (2, ⟨copy, [], SELF_TYPE, .no_expr none⟩) false 0 [] [[]]
      rfl rfl).2 "B" true rfl rfl).1 "A" rfl rfl (by decide)⟩

/-! ## The initial environment of a class -/

theorem lookup_addid (o o1 : SymbolTable) (x T : Symbol) (h : addid o x T = some o1) :
    o1 ≠ [] ∧ ∀ s, lookup o1 s = if x = s then some T else lookup o s := by
  cases o with
  | nil => cases h
  | cons sc rest =>
    simp only [addid, Option.some.injEq] at h
    subst h
    refine ⟨fun h => (by cases h), fun s => ?_⟩
    by_cases hx : x = s
    · simp [lookup, scope_lookup, hx]
    · simp [lookup, scope_lookup, hx]

theorem addid_some (o : SymbolTable) (ho : o ≠ []) (x T : Symbol) :
    ∃ o1, addid o x T = some o1 := by
  cases o with
  | nil => exact absurd rfl ho
  | cons sc rest => exact ⟨_, rfl⟩

theorem attrs_ClassTable : ClassTable 3 attrs_classes = some (attrs_class_map, []) := by
  rfl

theorem attrs_validated : Validated attrs_class_map :=
  ⟨attrs_classes, 3, by decide, attrs_ClassTable⟩

/-- The inner loop over the features of an ancestor reports nothing and ends;
a name bound afterwards was bound before or is an attribute of the features,
and every such name is bound. -/
theorem add_attributes_spec : ∀ (fs : List Feature) (o : SymbolTable), o ≠ [] →
    ∃ o1, add_attributes fs o = ⟨[], .ok o1⟩ ∧ o1 ≠ [] ∧
      (∀ s t, lookup o1 s = some t →
        lookup o s = some t ∨ ∃ a ∈ attributes_of fs, a.name = s ∧ a.type_decl = t) ∧
      (∀ s, ((lookup o s).isSome ∨ ∃ a ∈ attributes_of fs, a.name = s) →
        (lookup o1 s).isSome)
  | [], o, ho => ⟨o, rfl, ho, fun s t h => Or.inl h, fun s h => by
      rcases h with h | ⟨a, ha, _⟩
      · exact h
      · cases ha⟩
  | .method _ :: fs, o, ho => by
    simp only [add_attributes, attributes_of]
    exact add_attributes_spec fs o ho
  | .attr a :: fs, o, ho => by
    obtain ⟨o', ho'⟩ := addid_some o ho a.name a.type_decl
    obtain ⟨hne, hl⟩ := lookup_addid o o' _ _ ho'
    obtain ⟨o1, h1, hne1, hs, hc⟩ := add_attributes_spec fs o' hne
    refine ⟨o1, ?_, hne1, ?_, ?_⟩
    · simp only [add_attributes, ho']
      exact h1
    · intro s t h
      rcases hs s t h with h' | ⟨b, hb, hbn, hbt⟩
      · rw [hl] at h'
        by_cases hx : a.name = s
        · rw [if_pos hx] at h'
          exact Or.inr ⟨a, List.mem_cons_self _ _, hx, Option.some.inj h'⟩
        · rw [if_neg hx] at h'
          exact Or.inl h'
      · exact Or.inr ⟨b, List.mem_cons_of_mem _ hb, hbn, hbt⟩
    · intro s h
      apply hc
      by_cases hx : a.name = s
      · left
        rw [hl, if_pos hx]
        rfl
      · rcases h with h | ⟨b, hb, hbn⟩
        · left
          rw [hl, if_neg hx]
          exact h
        · simp only [attributes_of, List.mem_cons] at hb
          rcases hb with rfl | hb
          · exact absurd hbn hx
          · exact Or.inr ⟨b, hb, hbn⟩

theorem Checked.ok_bind {α β : Type} (a : α) (f : α → Checked β) :
    ((⟨[], .ok a⟩ : Checked α) >>= f) = f a := rfl

theorem add_inherited_attributes_end (cm : ClassMap) (fuel : Nat) (o : SymbolTable) :
    add_inherited_attributes cm fuel none o = ⟨[], .ok o⟩ := by
  cases fuel <;> rfl

/-- The loop over the ancestors, entered at a class of a validated hierarchy
with fuel for its chain, reports nothing and ends; a name bound afterwards was
bound before or is an attribute of a class of the chain, and every such name is
bound. -/
theorem Hierarchy.add_inherited_attributes_spec {cm : ClassMap} (H : Hierarchy cm) :
    ∀ (d : Nat) (k : Symbol), nth_parent cm d k = some Object → ∀ fuel, d < fuel →
      ∀ o : SymbolTable, o ≠ [] →
      ∃ o1, add_inherited_attributes cm fuel (class_map_find cm k) o = ⟨[], .ok o1⟩ ∧ o1 ≠ [] ∧
        (∀ s t, lookup o1 s = some t →
          lookup o s = some t ∨ ∃ (k' : Symbol) (ck : Class_) (a : attr_class),
            Ancestor cm k k' ∧ class_map_find cm k' = some ck ∧
              a ∈ attributes_of ck.features ∧ a.name = s ∧ a.type_decl = t) ∧
        (∀ s, ((lookup o s).isSome ∨ ∃ (k' : Symbol) (ck : Class_) (a : attr_class),
            Ancestor cm k k' ∧ class_map_find cm k' = some ck ∧
              a ∈ attributes_of ck.features ∧ a.name = s) →
          (lookup o1 s).isSome) := by
  intro d
  induction d with
  | zero =>
    intro k hk fuel hf o ho
    have hkO := nth_parent_zero_eq cm k _ hk
    subst hkO
    obtain ⟨c, hc, hp⟩ := H.object
    obtain ⟨f, rfl⟩ : ∃ f, fuel = f + 1 := ⟨fuel - 1, by omega⟩
    obtain ⟨o', h', hne', hs, hcp⟩ := add_attributes_spec c.features o ho
    refine ⟨o', ?_, hne', ?_, ?_⟩
    · rw [hc]
      simp only [add_inherited_attributes, h', hp, H.no_class]
      rw [Checked.ok_bind]
      rfl
    · intro s t h
      rcases hs s t h with h1 | ⟨a, ha, hn, ht⟩
      · exact Or.inl h1
      · exact Or.inr ⟨Object, c, a, ⟨0, hk⟩, hc, ha, hn, ht⟩
    · intro s h
      apply hcp
      rcases h with h | ⟨k', ck, a, ⟨n, hn⟩, hck, ha, hname⟩
      · exact Or.inl h
      · cases n with
        | zero =>
          have := nth_parent_zero_eq cm _ _ hn
          subst this
          rw [hc] at hck
          cases hck
          exact Or.inr ⟨a, ha, hname⟩
        | succ n =>
          rw [nth_parent_succ cm n Object c hc, hp,
            nth_parent_of_not_found cm _ H.no_class] at hn
          cases hn
  | succ d ih =>
    intro k hk fuel hf o ho
    obtain ⟨c, hc⟩ := nth_parent_source cm _ k _ hk
    obtain ⟨f, rfl⟩ : ∃ f, fuel = f + 1 := ⟨fuel - 1, by omega⟩
    rw [nth_parent_succ cm d k c hc] at hk
    obtain ⟨o', h', hne', hs, hcp⟩ := add_attributes_spec c.features o ho
    obtain ⟨o1, h1, hne1, hs1, hcp1⟩ := ih c.parent hk f (by omega) o' hne'
    refine ⟨o1, ?_, hne1, ?_, ?_⟩
    · rw [hc]
      simp only [add_inherited_attributes, h']
      rw [Checked.ok_bind]
      exact h1
    · intro s t h
      rcases hs1 s t h with h2 | ⟨k', ck, a, ⟨n, hn⟩, hck, ha, hname, ht⟩
      · rcases hs s t h2 with h3 | ⟨a, ha, hn, ht⟩
        · exact Or.inl h3
        · exact Or.inr ⟨k, c, a, ⟨0, nth_parent_self cm k c hc⟩, hc, ha, hn, ht⟩
      · exact Or.inr ⟨k', ck, a, ⟨n + 1, by rw [nth_parent_succ cm n k c hc]; exact hn⟩, hck, ha,
          hname, ht⟩
    · intro s h
      apply hcp1
      rcases h with h | ⟨k', ck, a, ⟨n, hn⟩, hck, ha, hname⟩
      · exact Or.inl (hcp s (Or.inl h))
      · cases n with
        | zero =>
          have := nth_parent_zero_eq cm _ _ hn
          subst this
          rw [hc] at hck
          cases hck
          exact Or.inl (hcp s (Or.inr ⟨a, ha, hname⟩))
        | succ n =>
          rw [nth_parent_succ cm n k c hc] at hn
          exact Or.inr ⟨k', ck, a, ⟨n, hn⟩, hck, ha, hname⟩

theorem declared_type_append (s : Symbol) (a : attr_class) : ∀ l : List attr_class,
    declared_type s (l ++ [a]) =
      match declared_type s l with
      | some t => some t
      | none => if a.name = s then some a.type_decl else none
  | [] => by simp [declared_type]
  | b :: l => by
    by_cases hb : b.name = s
    · simp [declared_type, hb]
    · simp only [List.cons_append, declared_type, if_neg hb]
      exact declared_type_append s a l

theorem declared_type_none (s : Symbol) : ∀ l : List attr_class,
    declared_type s l = none ↔ ∀ a ∈ l, a.name ≠ s
  | [] => by simp [declared_type]
  | b :: l => by
    by_cases hb : b.name = s
    · simp [declared_type, hb]
    · simp only [declared_type, if_neg hb, List.mem_cons, forall_eq_or_imp]
      rw [declared_type_none s l]
      exact ⟨fun h => ⟨hb, h⟩, fun h => h.2⟩

theorem declared_type_first (s : Symbol) (a : attr_class) (post : List attr_class)
    (ha : a.name = s) : ∀ pre : List attr_class, (∀ b ∈ pre, b.name ≠ s) →
      declared_type s (pre ++ a :: post) = some a.type_decl
  | [], _ => by simp [declared_type, ha]
  | b :: pre, h => by
    have hb : b.name ≠ s := h b (List.mem_cons_self _ _)
    simp only [List.cons_append, declared_type, if_neg hb]
    exact declared_type_first s a post ha pre fun b' hb' => h b' (List.mem_cons_of_mem _ hb')

theorem declared_type_earlier (s : Symbol) (l : List attr_class) : ∀ pre : List attr_class,
    (∃ b ∈ pre, b.name = s) →
      ∃ b ∈ pre, b.name = s ∧ declared_type s (pre ++ l) = some b.type_decl
  | [], h => by
    obtain ⟨b, hb, _⟩ := h
    cases hb
  | c :: pre, h => by
    by_cases hc : c.name = s
    · exact ⟨c, List.mem_cons_self _ _, hc, by simp [declared_type, hc]⟩
    · obtain ⟨b, hb, hbn⟩ := h
      have hb' : b ∈ pre := by
        rcases List.mem_cons.mp hb with rfl | hb'
        · exact absurd hbn hc
        · exact hb'
      obtain ⟨b2, hb2, hn2, hd2⟩ := declared_type_earlier s l pre ⟨b, hb', hbn⟩
      exact ⟨b2, List.mem_cons_of_mem _ hb2, hn2, by
        simp only [List.cons_append, declared_type, if_neg hc]
        exact hd2⟩

theorem visible_type_isSome (o1 : SymbolTable) (earlier : List attr_class) (s : Symbol) :
    (visible_type o1 earlier s).isSome = true ↔
      AlreadyVisible (fun s => (lookup o1 s).isSome = true) earlier s := by
  unfold visible_type AlreadyVisible
  show (match lookup o1 s with
    | some t => some t
    | none => declared_type s earlier).isSome = true ↔
      ((lookup o1 s).isSome = true ∨ ∃ a ∈ earlier, a.name = s)
  cases h1 : lookup o1 s with
  | some t => simp
  | none =>
    simp only [Option.isSome_none, Bool.false_eq_true, false_or]
    cases h2 : declared_type s earlier with
    | none =>
      simp only [Option.isSome_none, Bool.false_eq_true, false_iff]
      rintro ⟨a, ha, hn⟩
      exact (declared_type_none s earlier).mp h2 a ha hn
    | some t =>
      simp only [Option.isSome_some, true_iff]
      by_contra hcon
      have : declared_type s earlier = none :=
        (declared_type_none s earlier).mpr fun a ha hn => hcon ⟨a, ha, hn⟩
      rw [this] at h2
      cases h2

theorem visible_type_keep (o1 : SymbolTable) (earlier : List attr_class) (a : attr_class)
    (h : (visible_type o1 earlier a.name).isSome = true) (s : Symbol) :
    visible_type o1 (earlier ++ [a]) s = visible_type o1 earlier s := by
  unfold visible_type at h ⊢
  cases h1 : lookup o1 s with
  | some t => rfl
  | none =>
    simp only
    rw [declared_type_append]
    cases h2 : declared_type s earlier with
    | some t => rfl
    | none =>
      simp only
      by_cases hn : a.name = s
      · rw [hn, h1] at h
        simp only [h2] at h
        cases h
      · rw [if_neg hn]

theorem visible_type_add (o1 : SymbolTable) (earlier : List attr_class) (a : attr_class)
    (h : visible_type o1 earlier a.name = none) (s : Symbol) :
    visible_type o1 (earlier ++ [a]) s =
      if a.name = s then some a.type_decl else visible_type o1 earlier s := by
  unfold visible_type at h ⊢
  by_cases hn : a.name = s
  · rw [if_pos hn]
    rw [hn] at h
    cases h1 : lookup o1 s with
    | some t => rw [h1] at h; cases h
    | none =>
      rw [h1] at h
      simp only at h ⊢
      rw [declared_type_append, h]
      simp [hn]
  · rw [if_neg hn]
    cases h1 : lookup o1 s with
    | some t => rfl
    | none =>
      simp only
      rw [declared_type_append]
      cases h2 : declared_type s earlier with
      | some t => rfl
      | none => simp [hn]

/-- The loop over the attributes of the class itself, entered with a table
that binds every name as it is visible after `earlier`, ends; it leaves every
name bound as it is visible after all the attributes, and reports one
diagnostic for each attribute whose name was visible where it is declared. -/
theorem add_own_attributes_spec (o1 : SymbolTable) :
    ∀ (fs : List Feature) (earlier : List attr_class) (o : SymbolTable), o ≠ [] →
      (∀ s, lookup o s = visible_type o1 earlier s) →
      ∃ o2, (add_own_attributes fs o).outcome = .ok o2 ∧ o2 ≠ [] ∧
        (∀ s, lookup o2 s = visible_type o1 (earlier ++ attributes_of fs) s) ∧
        DuplicateAttributeErrors (fun s => (lookup o1 s).isSome = true) earlier
          (attributes_of fs) (add_own_attributes fs o).errors
  | [], earlier, o, ho, hinv => by
    refine ⟨o, rfl, ho, ?_, ?_⟩
    · intro s
      rw [attributes_of, List.append_nil]
      exact hinv s
    · simp only [attributes_of, DuplicateAttributeErrors]
      rfl
  | .method _ :: fs, earlier, o, ho, hinv => by
    simp only [add_own_attributes, attributes_of]
    exact add_own_attributes_spec o1 fs earlier o ho hinv
  | .attr a :: fs, earlier, o, ho, hinv => by
    have happ : earlier ++ attributes_of (.attr a :: fs) = (earlier ++ [a]) ++ attributes_of fs := by
      simp [attributes_of]
    have hvis := visible_type_isSome o1 earlier a.name
    by_cases hv : (lookup o a.name).isSome = true
    · have hv' : (visible_type o1 earlier a.name).isSome = true := by rw [← hinv]; exact hv
      obtain ⟨o2, h2, hne2, hl2, hd2⟩ := add_own_attributes_spec o1 fs (earlier ++ [a]) o ho
        (fun s => by rw [visible_type_keep o1 earlier a hv' s]; exact hinv s)
      have herr : (add_own_attributes (.attr a :: fs) o).errors =
          .attribute_already_defined a.name :: (add_own_attributes fs o).errors := by
        simp only [add_own_attributes, if_pos hv]
        rfl
      have hout : (add_own_attributes (.attr a :: fs) o).outcome =
          (add_own_attributes fs o).outcome := by
        simp only [add_own_attributes, if_pos hv]
        rfl
      refine ⟨o2, hout.trans h2, hne2, fun s => by rw [happ]; exact hl2 s, ?_⟩
      simp only [attributes_of, DuplicateAttributeErrors]
      exact ⟨_, hd2, fun _ => herr, fun hn => absurd (hvis.mp hv') hn⟩
    · have hnone : visible_type o1 earlier a.name = none := by
        rw [← hinv]
        cases h : lookup o a.name with
        | none => rfl
        | some t => rw [h] at hv; exact absurd rfl hv
      obtain ⟨o', ho'⟩ := addid_some o ho a.name a.type_decl
      obtain ⟨hne', hl'⟩ := lookup_addid o o' _ _ ho'
      obtain ⟨o2, h2, hne2, hl2, hd2⟩ := add_own_attributes_spec o1 fs (earlier ++ [a]) o' hne'
        (fun s => by rw [visible_type_add o1 earlier a hnone s, hl' s, hinv s])
      have heq : add_own_attributes (.attr a :: fs) o = add_own_attributes fs o' := by
        simp only [add_own_attributes, if_neg hv, ho']
        rfl
      refine ⟨o2, by rw [heq]; exact h2, hne2, fun s => by rw [happ]; exact hl2 s, ?_⟩
      simp only [attributes_of, DuplicateAttributeErrors]
      refine ⟨_, hd2, fun hy => ?_, fun _ => by rw [heq]⟩
      have := hvis.mpr hy
      rw [hnone] at this
      cases this

theorem DuplicateAttributeErrors.congr {P Q : Symbol → Prop} (h : ∀ s, P s ↔ Q s)
    (earlier l : List attr_class) (errs : List SemantError)
    (hd : DuplicateAttributeErrors P earlier l errs) : DuplicateAttributeErrors Q earlier l errs := by
  have e : P = Q := funext fun s => propext (h s)
  rw [← e]
  exact hd

/-- For a class of a validated hierarchy, with fuel for the table, the loop
over the ancestors reports nothing and ends with a table that binds exactly the
names of the attributes declared above the class, each to the declared type of
such an attribute. -/
theorem Hierarchy.inherited_attributes {cm : ClassMap} (H : Hierarchy cm) (c : Class_)
    (hc : class_map_find cm c.name = some c) (fuel : Nat) (hf : cm.length ≤ fuel) :
    ∃ o1, add_inherited_attributes cm fuel (class_map_find cm c.parent) (enterscope []) =
        ⟨[], .ok o1⟩ ∧ o1 ≠ [] ∧
      (∀ s t, lookup o1 s = some t → InheritedAttribute cm c s t) ∧
      (∀ s t, InheritedAttribute cm c s t → (lookup o1 s).isSome = true) := by
  obtain ⟨n, hn⟩ := H.reach c.name c hc
  cases n with
  | zero =>
    have hO := nth_parent_zero_eq cm _ _ hn
    obtain ⟨c0, hc0, hp0⟩ := H.object
    rw [hO, hc0] at hc
    cases hc
    refine ⟨enterscope [], ?_, fun h => (by cases h), ?_, ?_⟩
    · rw [hp0, H.no_class]
      exact add_inherited_attributes_end _ _ _
    · intro s t h
      cases h
    · rintro s t ⟨k, ck, a, ⟨i, hi⟩, _⟩
      rw [hp0, nth_parent_of_not_found cm _ H.no_class] at hi
      cases hi
  | succ m =>
    have hlen := H.depth_lt_length hn
    rw [nth_parent_succ cm m c.name c hc] at hn
    obtain ⟨o1, h1, hne1, hs, hcp⟩ :=
      H.add_inherited_attributes_spec m c.parent hn fuel (by omega) (enterscope [])
        (fun h => by cases h)
    refine ⟨o1, h1, hne1, ?_, ?_⟩
    · intro s t h
      rcases hs s t h with h' | h'
      · cases h'
      · exact h'
    · rintro s t ⟨k, ck, a, hk, hck, ha, hname, _⟩
      exact hcp s (Or.inr ⟨k, ck, a, hk, hck, ha, hname⟩)

/-- C11: for a class of a validated hierarchy, checked with fuel for the
table, `build_initial_obj_env` ends.  Its first loop reports nothing and binds
the names of the attributes declared above the class.  Its second loop reports
one duplicate diagnostic for each attribute of the class whose name is
inherited or declared by an earlier attribute of the class, and none for the
others; after it, the name of such an attribute is bound to the declared type
of an inherited attribute or of an earlier attribute of the class, and the name
of any other attribute is bound to its own declared type.  Then `self` is bound
to `SELF_TYPE`, the other names staying as they were. -/
theorem C11_initial_environment (Γ : Context) (hv : Validated Γ.cm)
    (hc : class_map_find Γ.cm Γ.c.name = some Γ.c) (hf : Γ.cm.length ≤ Γ.fuel) :
    ∃ o1 o2 o3 : SymbolTable,
      add_inherited_attributes Γ.cm Γ.fuel (class_map_find Γ.cm Γ.c.parent) (enterscope []) =
        ⟨[], .ok o1⟩ ∧
      (∀ s t, lookup o1 s = some t → InheritedAttribute Γ.cm Γ.c s t) ∧
      (∀ s t, InheritedAttribute Γ.cm Γ.c s t → (lookup o1 s).isSome = true) ∧
      (add_own_attributes Γ.c.features o1).outcome = .ok o2 ∧
      addid o2 self SELF_TYPE = some o3 ∧
      (build_initial_obj_env Γ (enterscope [])).outcome = .ok o3 ∧
      DuplicateAttributeErrors (fun s => ∃ t, InheritedAttribute Γ.cm Γ.c s t) []
        (attributes_of Γ.c.features) (build_initial_obj_env Γ (enterscope [])).errors ∧
      (∀ (pre : List attr_class) (a : attr_class) (post : List attr_class),
        attributes_of Γ.c.features = pre ++ a :: post →
        (AlreadyVisible (fun s => ∃ t, InheritedAttribute Γ.cm Γ.c s t) pre a.name →
          (∃ t, InheritedAttribute Γ.cm Γ.c a.name t ∧ lookup o2 a.name = some t) ∨
            ∃ b ∈ pre, b.name = a.name ∧ lookup o2 a.name = some b.type_decl) ∧
        (¬ AlreadyVisible (fun s => ∃ t, InheritedAttribute Γ.cm Γ.c s t) pre a.name →
          lookup o2 a.name = some a.type_decl)) ∧
      lookup o3 self = some SELF_TYPE ∧ ∀ s, s ≠ self → lookup o3 s = lookup o2 s := by
  have H := hv.hierarchy
  obtain ⟨o1, h1, hne1, hs1, hc1⟩ := H.inherited_attributes Γ.c hc Γ.fuel hf
  have hiff : ∀ s, (lookup o1 s).isSome = true ↔ ∃ t, InheritedAttribute Γ.cm Γ.c s t := by
    intro s
    constructor
    · intro h
      cases hl : lookup o1 s with
      | none => rw [hl] at h; cases h
      | some t => exact ⟨t, hs1 s t hl⟩
    · rintro ⟨t, ht⟩
      exact hc1 s t ht
  obtain ⟨o2, h2, hne2, hl2, hd2⟩ := add_own_attributes_spec o1 Γ.c.features [] o1 hne1
    (fun s => by
      unfold visible_type
      cases lookup o1 s <;> rfl)
  rw [List.nil_append] at hl2
  obtain ⟨o3, h3⟩ := addid_some o2 hne2 self SELF_TYPE
  obtain ⟨_, hl3⟩ := lookup_addid o2 o3 _ _ h3
  have hbuild : build_initial_obj_env Γ (enterscope []) =
      (add_own_attributes Γ.c.features o1 >>= fun o2 =>
        Checked.ofTable (addid o2 self SELF_TYPE)) := by
    unfold build_initial_obj_env
    rw [h1, Checked.ok_bind]
  refine ⟨o1, o2, o3, h1, hs1, hc1, h2, h3, ?_, ?_, ?_, ?_, ?_⟩
  · rw [hbuild, Checked.bind_outcome_of_ok _ h2, h3]
    rfl
  · rw [hbuild, Checked.bind_errors_of_ok _ h2, h3]
    simp only [Checked.ofTable, List.append_nil]
    exact DuplicateAttributeErrors.congr hiff _ _ _ hd2
  · intro pre a post hsplit
    have hlook := hl2 a.name
    rw [hsplit] at hlook
    unfold visible_type at hlook
    constructor
    · intro hvis
      cases hl : lookup o1 a.name with
      | some t =>
        rw [hl] at hlook
        exact Or.inl ⟨t, hs1 _ t hl, hlook⟩
      | none =>
        rw [hl] at hlook
        right
        have hpre : ∃ b ∈ pre, b.name = a.name := by
          rcases hvis with hi | hp
          · have := (hiff a.name).mpr hi
            rw [hl] at this
            cases this
          · exact hp
        obtain ⟨b, hb, hbn, hbd⟩ := declared_type_earlier a.name (a :: post) pre hpre
        exact ⟨b, hb, hbn, by rw [hlook]; exact hbd⟩
    · intro hnv
      have hni : lookup o1 a.name = none := by
        cases hl : lookup o1 a.name with
        | none => rfl
        | some t => exact absurd (Or.inl ⟨t, hs1 _ t hl⟩) hnv
      rw [hni] at hlook
      rw [hlook]
      exact declared_type_first a.name a post rfl pre fun b hb hbn => hnv (Or.inr ⟨b, hb, hbn⟩)
  · rw [hl3, if_pos rfl]
  · intro s hs
    rw [hl3, if_neg (fun h => hs h.symm)]

theorem C11_initial_environment_witness :
    Validated attrs_context.cm ∧
      class_map_find attrs_context.cm attrs_context.c.name = some attrs_context.c ∧
      (build_initial_obj_env attrs_context (enterscope [])).errors =
        [.attribute_already_defined "x", .attribute_already_defined "y"] ∧
      ∃ o3 : SymbolTable,
        (build_initial_obj_env attrs_context (enterscope [])).outcome = .ok o3 ∧
          lookup o3 "x" = some Int_ ∧ lookup o3 "y" = some Int_ ∧
          lookup o3 self = some SELF_TYPE := by
  obtain ⟨o1, o2, o3, _, _, _, _, _, h6, _, _, h9, _⟩ :=
    C11_initial_environment attrs_context attrs_validated rfl (by decide)
  refine ⟨attrs_validated, rfl, rfl, o3, h6, ?_, ?_, h9⟩
  · have e : (build_initial_obj_env attrs_context (enterscope [])).outcome =
        .ok [[(self, SELF_TYPE), ("y", Int_), ("x", Int_)]] := rfl
    rw [e] at h6
    cases h6
    rfl
  · have e : (build_initial_obj_env attrs_context (enterscope [])).outcome =
        .ok [[(self, SELF_TYPE), ("y", Int_), ("x", Int_)]] := rfl
    rw [e] at h6
    cases h6
    rfl

/-! ## The parent `SELF_TYPE` -/

theorem check_parents_inherit_basic (cm : ClassMap) (start p : Symbol) :
    ∀ (fuel : Nat) (cls : Class_),
      check_parents cm start fuel cls = some (some (.inherit_basic p)) →
      (class_map_find cm p).isSome = true := by
  intro fuel
  induction fuel with
  | zero =>
    intro cls h
    unfold check_parents at h
    split at h
    · cases h
    · cases h
  | succ f ih =>
    intro cls h
    unfold check_parents at h
    split at h
    · cases h
    · simp only at h
      split at h
      · cases h
      · rename_i pcls hp
        split at h
        · simp only [Option.some.injEq, SemantError.inherit_basic.injEq] at h
          rw [← h, hp]
          rfl
        · split at h
          · cases h
          · exact ih pcls h

theorem check_all_parents_inherit_basic (cm : ClassMap) (fuel : Nat) (p : Symbol) :
    ∀ classes : List Class_,
      check_all_parents cm fuel classes = some (some (.inherit_basic p)) →
      (class_map_find cm p).isSome = true := by
  intro classes
  induction classes with
  | nil => intro h; cases h
  | cons cls rest ih =>
    intro h
    simp only [check_all_parents] at h
    split at h
    · cases h
    · rename_i e he
      simp only [Option.some.injEq] at h
      subst h
      exact check_parents_inherit_basic cm _ p fuel cls he
    · exact ih h

/-- The constructor never reports that a class inherits from the basic class
`SELF_TYPE`: the parent `SELF_TYPE` is not in `class_map`, and the test for an
absent parent comes first. -/
theorem ClassTable_never_inherit_basic_SELF_TYPE (fuel : Nat) (classes : List Class_)
    (cm : ClassMap) (errors : List SemantError)
    (h : ClassTable fuel classes = some (cm, errors)) :
    SemantError.inherit_basic SELF_TYPE ∉ errors := by
  unfold ClassTable at h
  split at h
  · rename_i cm' e hreg
    simp only [Option.some.injEq, Prod.mk.injEq] at h
    obtain ⟨_, rfl⟩ := h
    obtain ⟨cm2, h2 | ⟨n, h2⟩ | h2⟩ := register_classes_error_or classes install_basic_classes
    · rw [h2] at hreg; cases hreg
    · rw [h2] at hreg
      simp only [Prod.mk.injEq, Option.some.injEq] at hreg
      rw [← hreg.2]
      simp
    · rw [h2] at hreg
      simp only [Prod.mk.injEq, Option.some.injEq] at hreg
      rw [← hreg.2]
      simp
  · rename_i cm' hreg
    have hself : class_map_find cm' SELF_TYPE = none := by
      obtain ⟨_, hfrom, _, hne⟩ := register_classes_spec classes install_basic_classes cm' hreg
      cases hf : class_map_find cm' SELF_TYPE with
      | none => rfl
      | some c =>
        rcases hfrom SELF_TYPE c hf with hb | ⟨hc, hn⟩
        · rw [install_basic_classes_SELF_TYPE] at hb; cases hb
        · exact absurd hn (hne c hc)
    split at h
    · simp only [Option.some.injEq, Prod.mk.injEq] at h
      obtain ⟨_, rfl⟩ := h
      simp
    · split at h
      · cases h
      · rename_i e he
        simp only [Option.some.injEq, Prod.mk.injEq] at h
        obtain ⟨_, rfl⟩ := h
        intro hmem
        simp only [List.mem_singleton] at hmem
        rw [← hmem] at he
        have := check_all_parents_inherit_basic cm' fuel SELF_TYPE classes he
        rw [hself] at this
        cases this
      · simp only [Option.some.injEq, Prod.mk.injEq] at h
        obtain ⟨_, rfl⟩ := h
        simp

/-- C24 (the code at the failing input): for the classes `Main` and
`R inherits SELF_TYPE` the constructor reports that the parent class
`SELF_TYPE` is not defined, where for `R inherits Int` it reports that classes
cannot inherit from the basic class `Int`; and no construction at all reports
the latter diagnostic for `SELF_TYPE`. -/
theorem C24_SELF_TYPE_parent_reported_undefined :
    (∃ cm, ClassTable 3 [scenario_Main, sealed_R_SELF_TYPE] =
      some (cm, [.parent_not_defined SELF_TYPE])) ∧
    (∃ cm, ClassTable 3 [scenario_Main, sealed_R_Int] = some (cm, [.inherit_basic Int_])) ∧
    ∀ (fuel : Nat) (classes : List Class_) (cm : ClassMap) (errors : List SemantError),
      ClassTable fuel classes = some (cm, errors) →
      SemantError.inherit_basic SELF_TYPE ∉ errors :=
  ⟨⟨_, rfl⟩, ⟨_, rfl⟩, ClassTable_never_inherit_basic_SELF_TYPE⟩

/-! ## Programs the checker mishandles -/

/-- C25 (the code at the failing input): the program
`class Main { main() : Object { case 1 of self : Int => self; esac }; }` is
accepted without a diagnostic and the reference to `self` in the branch is
given the type `Int`: the rule of `case` binds the name of the branch without
testing it, while `let` reports `self` as a bound name and leaves it bound to
`SELF_TYPE`. -/
theorem C25_case_branch_rebinds_self :
    ClassTable 8 [selfcase_Main] = some (Main_only_class_map selfcase_Main, []) ∧
    (program_class.semant 8 [selfcase_Main]).errors = [] ∧
    (program_class.semant 8 [selfcase_Main]).outcome =
      .ok (.accepted [selfcase_Main_checked]) ∧
    (Expression.typecheck ⟨Main_only_class_map selfcase_Main,
        build_method_env (Main_only_class_map selfcase_Main), 8, selfcase_Main⟩
        (.let_ none self Int_ (.no_expr none) (.object none self))
        [[(self, SELF_TYPE)]]).errors = [.let_self] ∧
    (Expression.typecheck ⟨Main_only_class_map selfcase_Main,
        build_method_env (Main_only_class_map selfcase_Main), 8, selfcase_Main⟩
        (.let_ none self Int_ (.no_expr none) (.object none self))
        [[(self, SELF_TYPE)]]).outcome =
      .ok (SELF_TYPE, .let_ (some SELF_TYPE) self Int_ (.no_expr (some No_type))
        (.object (some SELF_TYPE) self), [[(self, SELF_TYPE)]]) :=
  ⟨rfl, rfl, rfl, rfl, rfl⟩

/-- C26 (the code at the failing input): the program
`class Main { main() : Object { { let x : Undefined in x; 0; } }; }`, in whose
table there is no class `Undefined`, is accepted without a diagnostic; the
nodes of the `let` and of the reference to `x` are given the type `Undefined`.
The rules of `new` and of the formals test the same thing and report it. -/
theorem C26_undefined_declared_type_accepted :
    ClassTable 8 [undeflet_Main] = some (Main_only_class_map undeflet_Main, []) ∧
    class_map_find (Main_only_class_map undeflet_Main) "Undefined" = none ∧
    (program_class.semant 8 [undeflet_Main]).errors = [] ∧
    (program_class.semant 8 [undeflet_Main]).outcome =
      .ok (.accepted [undeflet_Main_checked]) ∧
    (Expression.typecheck ⟨Main_only_class_map undeflet_Main,
        build_method_env (Main_only_class_map undeflet_Main), 8, undeflet_Main⟩
        (.new_ none "Undefined") [[(self, SELF_TYPE)]]).errors = [.new_undefined "Undefined"] ∧
    (check_formal ⟨Main_only_class_map undeflet_Main,
        build_method_env (Main_only_class_map undeflet_Main), 8, undeflet_Main⟩
        ⟨"x", "Undefined"⟩ [] [[(self, SELF_TYPE)]]).errors =
      [.formal_undefined_class "Undefined" "x"] :=
  ⟨rfl, rfl, rfl, rfl, rfl, rfl⟩

/-- C22 (the code at the failing inputs): on a validated hierarchy the check
of `class Main { main() : Object { if true then 1 + "a" else 0 fi }; }` reports
the diagnostic of `+` and then dereferences a null class: the fallback type
`No_type` of the sum is no key of `class_map`, and `cls_join` reads
`class_map[No_type]`.  The check of
`class Main { main() : Object { let x : Undefined in if true then x else 0 fi }; }`
ends the same way for the declared type `Undefined`, with no diagnostic at
all. -/
theorem C22_cls_join_dereferences_absent_class :
    Validated (Main_only_class_map nojoin_Main) ∧
    (program_class.semant 8 [nojoin_Main]).errors = [.non_int_arguments "+" Int_ Str] ∧
    (program_class.semant 8 [nojoin_Main]).outcome = .crash ∧
    cls_join (Main_only_class_map nojoin_Main) 8 No_type Int_ nojoin_Main = .crash ∧
    Validated (Main_only_class_map undefjoin_Main) ∧
    (program_class.semant 8 [undefjoin_Main]).errors = [] ∧
    (program_class.semant 8 [undefjoin_Main]).outcome = .crash :=
  ⟨⟨[nojoin_Main], 8, by decide, rfl⟩, rfl, rfl, rfl,
    ⟨[undefjoin_Main], 8, by decide, rfl⟩, rfl, rfl⟩

/-! ## Scopes are paired -/

theorem exitscope_addid (o o1 : SymbolTable) (s t : Symbol) (h : addid o s t = some o1) :
    exitscope o1 = exitscope o := by
  cases o with
  | nil => cases h
  | cons sc rest =>
    simp only [addid, Option.some.injEq] at h
    subst h
    rfl

theorem check_formal_table (Γ : Context) (formal : Formal) (defined : List Symbol)
    (o : SymbolTable) :
    Checked.Ok (fun r => exitscope r.2 = exitscope o) (check_formal Γ formal defined o) := by
  unfold check_formal
  split
  · exact .seq (.trivial _) fun _ _ => .ret rfl
  · exact .seq (.trivial _) fun _ _ => .seq (.trivial _) fun _ _ =>
      .seq (.table _) fun o1 h1 => .ret (exitscope_addid _ _ _ _ h1)

theorem check_formals_table (Γ : Context) (name : Symbol) (m : Option MethodPtr) :
    ∀ (formals : List Formal) (i : Nat) (defined : List Symbol) (less : Bool) (o : SymbolTable),
      Checked.Ok (fun r => exitscope r.2.2 = exitscope o)
        (check_formals Γ name m formals i defined less o)
  | [], i, defined, less, o => by
    simp only [check_formals]
    exact .ret rfl
  | formal :: rest, i, defined, less, o => by
    simp only [check_formals]
    exact .seq (check_formal_table Γ formal defined o) fun r1 h1 =>
      .seq (.trivial _) fun _ _ => fun r2 h2 =>
        (check_formals_table Γ name m rest (i + 1) _ _ _ r2 h2).trans h1

/-- The rule of a method that returns leaves the symbol table as it found
it. -/
theorem method_class.method_table (Γ : Context) (this : MethodPtr) (o : SymbolTable) :
    Checked.Ok (fun r => r.2.2 = o) (method_class.typecheck Γ this o) := by
  unfold method_class.typecheck
  exact .seq (.table _) fun o1 h1 =>
    .seq (.trivial _) fun _ _ =>
    .seq (.trivial _) fun _ _ =>
    .seq (check_formals_table Γ _ _ _ _ _ _ _) fun r2 h2 =>
    .seq (.trivial _) fun _ _ =>
    .seq (Expression.typecheck_table Γ _ _) fun r3 h3 =>
    .seq (.table _) fun o4 h4 =>
    .seq (.trivial _) fun _ _ =>
    .seq (.trivial _) fun _ _ =>
      .ret (by
        have e := exitscope_addid_enterscope _ _ _ _ h1
        rw [← h2, ← h3, h4] at e
        exact Option.some.inj e)

/-- The rule of an attribute that returns leaves the symbol table as it found
it. -/
theorem attr_class.attr_table (Γ : Context) (a : attr_class) (o : SymbolTable) :
    Checked.Ok (fun r => r.2.2 = o) (attr_class.typecheck Γ a o) := by
  unfold attr_class.typecheck
  split
  · exact .seq (.trivial _) fun _ _ => .ret rfl
  · exact .seq (Expression.typecheck_table Γ _ _) fun r1 h1 =>
      .seq (.trivial _) fun _ _ => .ret h1

/-- The rule of a feature that returns leaves the symbol table as it found
it. -/
theorem Feature.feature_table (Γ : Context) (i : Nat) :
    ∀ (f : Feature) (o : SymbolTable), Checked.Ok (fun r => r.2 = o) (Feature.typecheck Γ i f o)
  | .attr a, o => by
    simp only [Feature.typecheck]
    exact .seq (attr_class.attr_table Γ a o) fun _ h => .ret h
  | .method m, o => by
    simp only [Feature.typecheck]
    exact .seq (method_class.method_table Γ (i, m) o) fun _ h => .ret h

/-- C21: in every context, for every expression and every feature (attribute
or method, at any position) and every symbol table: when the rule returns,
whatever it reported, the table it leaves is the table it was given; so the
stack of scopes has the same depth and every identifier has the same binding
as before. -/
theorem C21_scope_pairing (Γ : Context) :
    (∀ (e : Expression) (o : SymbolTable) (r : Symbol × Expression × SymbolTable),
      (Expression.typecheck Γ e o).outcome = .ok r →
      r.2.2 = o ∧ r.2.2.length = o.length ∧ ∀ s, lookup r.2.2 s = lookup o s) ∧
    (∀ (i : Nat) (f : Feature) (o : SymbolTable) (r : Feature × SymbolTable),
      (Feature.typecheck Γ i f o).outcome = .ok r →
      r.2 = o ∧ r.2.length = o.length ∧ ∀ s, lookup r.2 s = lookup o s) := by
  constructor
  · intro e o r h
    have e := Expression.typecheck_table Γ e o r h
    simp only at e
    rw [e]
    exact ⟨rfl, rfl, fun _ => rfl⟩
  · intro i f o r h
    have e := Feature.feature_table Γ i f o r h
    simp only at e
    rw [e]
    exact ⟨rfl, rfl, fun _ => rfl⟩

theorem C21_scope_pairing_witness :
    (Expression.typecheck scenario_context
        (.let_ none "y" Int_ (.int_const none "1") (.assign none "z" (.object none "y")))
        [[("x", "A")]]).errors = [.assign_undeclared "z"] ∧
    ((Expression.typecheck scenario_context
        (.let_ none "y" Int_ (.int_const none "1") (.assign none "z" (.object none "y")))
        [[("x", "A")]]).outcome =
      .ok (Object, .let_ (some Object) "y" Int_ (.int_const (some Int_) "1")
        (.assign (some Object) "z" (.object none "y")), [[("x", "A")]])) ∧
    ((Feature.typecheck scenario_context 0
        (.method ⟨"f", [⟨"a", Int_⟩], Object, .object none "a"⟩) [[("x", "A")]]).outcome =
      .ok (.method ⟨"f", [⟨"a", Int_⟩], Object, .object (some Int_) "a"⟩, [[("x", "A")]])) ∧
    ∀ s, lookup ((Object, Expression.let_ (some Object) "y" Int_ (.int_const (some Int_) "1")
        (.assign (some Object) "z" (.object none "y")),
      [[("x", "A")]]) : Symbol × Expression × SymbolTable).2.2 s = lookup [[("x", "A")]] s :=
  ⟨rfl, rfl, rfl, ((C21_scope_pairing scenario_context).1
      (.let_ none "y" Int_ (.int_const none "1") (.assign none "z" (.object none "y")))
      [[("x", "A")]]
      (Object, .let_ (some Object) "y" Int_ (.int_const (some Int_) "1")
        (.assign (some Object) "z" (.object none "y")), [[("x", "A")]]) rfl).2.2⟩

/-! ## Every slot is written when nothing is reported -/

theorem Checked.Clean.cret {α : Type} {P : α → Prop} {a : α} (h : P a) :
    Checked.Clean P (Pure.pure a : Checked α) := by
  intro _ b hb
  cases hb
  exact h

theorem Checked.Clean.cseq {α β : Type} {P : β → Prop} {Q : α → Prop} {x : Checked α}
    {f : α → Checked β} (hx : Checked.Clean Q x) (hf : ∀ a, Q a → Checked.Clean P (f a)) :
    Checked.Clean P (x >>= f) := by
  intro he b hb
  obtain ⟨a, ha, hfa⟩ := Checked.bind_ok_inv hb
  rw [Checked.bind_errors_of_ok f ha] at he
  obtain ⟨hex, hef⟩ := List.append_eq_nil.mp he
  exact hf a (hx hex a ha) hef b hfa

theorem Checked.Clean.cany {α : Type} (x : Checked α) : Checked.Clean (fun _ => True) x :=
  fun _ _ _ => True.intro

theorem Checked.Clean.cerr (e : SemantError) : Checked.Clean (fun _ => False) (semant_error e) :=
  fun he => by cases he

theorem Expression.typed_type (e : Expression) (h : e.typed = true) : e.type.isSome = true := by
  cases e <;> simp only [Expression.typed, Bool.and_eq_true] at h <;>
    simp only [Expression.type] <;> first | exact h | exact h.1 | exact h.1.1 | exact h.1.1.1

theorem dispatch_result_isSome (return_type t0 : Symbol) (expr_type : Option Symbol)
    (h : expr_type.isSome = true) :
    (dispatch_result return_type expr_type t0).1.isSome = true := by
  unfold dispatch_result
  split
  · split
    · rfl
    · exact h
  · rfl

theorem typed_unary {t : Symbol} {e : Expression} (h : e.typed = true) :
    ((some t : Option Symbol).isSome && e.typed) = true := by
  rw [h]; rfl

theorem typed_binary {t : Symbol} {a b : Bool} (ha : a = true) (hb : b = true) :
    ((some t : Option Symbol).isSome && a && b) = true := by
  rw [ha, hb]; rfl

theorem typed_ternary {t : Symbol} {a b c : Bool} (ha : a = true) (hb : b = true)
    (hc : c = true) : ((some t : Option Symbol).isSome && a && b && c) = true := by
  rw [ha, hb, hc]; rfl

theorem typed_dispatch {s : Option Symbol} {a b : Bool} (hs : s.isSome = true) (ha : a = true)
    (hb : b = true) : (s.isSome && a && b) = true := by
  rw [hs, ha, hb]; rfl

theorem typed_cons {a b : Bool} (ha : a = true) (hb : b = true) : (a && b) = true := by
  rw [ha, hb]; rfl

mutual

/-- A rule of expressions that reports nothing and returns has written the
slot of every node of its tree. -/
theorem Expression.typecheck_typed (Γ : Context) :
    ∀ (e : Expression) (o : SymbolTable),
      Checked.Clean (fun r => r.2.1.typed = true) (Expression.typecheck Γ e o)
  | .int_const _ _, o => by simp only [Expression.typecheck]; exact .cret rfl
  | .string_const _ _, o => by simp only [Expression.typecheck]; exact .cret rfl
  | .bool_const _ _, o => by simp only [Expression.typecheck]; exact .cret rfl
  | .no_expr _, o => by simp only [Expression.typecheck]; exact .cret rfl
  | .new_ _ t, o => by
    simp only [Expression.typecheck]
    split
    · exact .cseq (.cany _) fun _ _ => .cret rfl
    · exact .cret rfl
  | .object _ name, o => by
    simp only [Expression.typecheck]
    split
    · exact .cseq (.cany _) fun _ _ => .cret rfl
    · exact .cret rfl
  | .isvoid _ e1, o => by
    simp only [Expression.typecheck]
    exact .cseq (Expression.typecheck_typed Γ e1 o) fun _ h1 => .cret (typed_unary h1)
  | .assign _ name expr, o => by
    simp only [Expression.typecheck]
    split
    · exact .cseq (.cerr _) fun _ h => h.elim
    · split
      · exact .cseq (.cerr _) fun _ h => h.elim
      · refine .cseq (Expression.typecheck_typed Γ expr o) fun _ h1 =>
          .cseq (.cany _) fun _ _ => ?_
        split
        · exact .cseq (.cany _) fun _ _ => .cret (typed_unary h1)
        · exact .cret (typed_unary h1)
  | .static_dispatch _ expr t name actual, o => by
    simp only [Expression.typecheck]
    refine .cseq (Expression.typecheck_typed Γ expr o) fun r1 h1 =>
      .cseq (.cany _) fun _ _ => .cseq (.cany _) fun _ _ =>
      .cseq (.cany _) fun _ _ => ?_
    split
    · exact .cseq (.cerr _) fun _ h => h.elim
    · exact .cseq (typecheck_actuals_typed Γ _ _ actual _ _) fun _ h2 =>
        .cseq (.cany _) fun _ _ =>
          .cret (typed_dispatch (dispatch_result_isSome _ _ _ (Expression.typed_type _ h1)) h1 h2)
  | .dispatch _ expr name actual, o => by
    simp only [Expression.typecheck]
    refine .cseq (Expression.typecheck_typed Γ expr o) fun r1 h1 =>
      .cseq (.cany _) fun _ _ => ?_
    split
    · exact .cseq (.cerr _) fun _ h => h.elim
    · exact .cseq (typecheck_actuals_typed Γ _ _ actual _ _) fun _ h2 =>
        .cseq (.cany _) fun _ _ =>
          .cret (typed_dispatch (dispatch_result_isSome _ _ _ (Expression.typed_type _ h1)) h1 h2)
  | .cond _ pred then_exp else_exp, o => by
    simp only [Expression.typecheck]
    exact .cseq (Expression.typecheck_typed Γ pred o) fun _ h1 =>
      .cseq (Expression.typecheck_typed Γ then_exp _) fun _ h2 =>
      .cseq (Expression.typecheck_typed Γ else_exp _) fun _ h3 =>
      .cseq (.cany _) fun _ _ =>
      .cseq (.cany _) fun _ _ => .cret (typed_ternary h1 h2 h3)
  | .loop _ pred body, o => by
    simp only [Expression.typecheck]
    exact .cseq (Expression.typecheck_typed Γ pred o) fun _ h1 =>
      .cseq (.cany _) fun _ _ =>
      .cseq (Expression.typecheck_typed Γ body _) fun _ h2 => .cret (typed_binary h1 h2)
  | .typcase _ expr (c_name, c_type, c_expr) cases, o => by
    simp only [Expression.typecheck]
    exact .cseq (Expression.typecheck_typed Γ expr o) fun _ h1 =>
      .cseq (.cany _) fun _ _ =>
      .cseq (Expression.typecheck_typed Γ c_expr _) fun _ h3 =>
      .cseq (.cany _) fun _ _ =>
      .cseq (typecheck_cases_typed Γ cases _ _ _) fun _ h5 => .cret (typed_ternary h1 h3 h5)
  | .block _ body0 body, o => by
    simp only [Expression.typecheck]
    exact .cseq (Expression.typecheck_typed Γ body0 o) fun _ h1 =>
      .cseq (typecheck_block_typed Γ body _ _) fun _ h2 => .cret (typed_binary h1 h2)
  | .let_ _ identifier t0 init body, o => by
    simp only [Expression.typecheck]
    exact .cseq (Expression.typecheck_typed Γ init o) fun _ h1 =>
      .cseq (.cany _) fun _ _ =>
      .cseq (.cany _) fun _ _ =>
      .cseq (Expression.typecheck_typed Γ body _) fun _ h3 =>
      .cseq (.cany _) fun _ _ => .cret (typed_binary h1 h3)
  | .plus _ e1 e2, o => by
    simp only [Expression.typecheck]
    refine .cseq (Expression.typecheck_typed Γ e1 o) fun _ h1 =>
      .cseq (Expression.typecheck_typed Γ e2 _) fun _ h2 => ?_
    split
    · exact .cseq (.cany _) fun _ _ => .cret (typed_binary h1 h2)
    · exact .cret (typed_binary h1 h2)
  | .sub _ e1 e2, o => by
    simp only [Expression.typecheck]
    refine .cseq (Expression.typecheck_typed Γ e1 o) fun _ h1 =>
      .cseq (Expression.typecheck_typed Γ e2 _) fun _ h2 => ?_
    split
    · exact .cseq (.cany _) fun _ _ => .cret (typed_binary h1 h2)
    · exact .cret (typed_binary h1 h2)
  | .mul _ e1 e2, o => by
    simp only [Expression.typecheck]
    refine .cseq (Expression.typecheck_typed Γ e1 o) fun _ h1 =>
      .cseq (Expression.typecheck_typed Γ e2 _) fun _ h2 => ?_
    split
    · exact .cseq (.cany _) fun _ _ => .cret (typed_binary h1 h2)
    · exact .cret (typed_binary h1 h2)
  | .divide _ e1 e2, o => by
    simp only [Expression.typecheck]
    refine .cseq (Expression.typecheck_typed Γ e1 o) fun _ h1 =>
      .cseq (Expression.typecheck_typed Γ e2 _) fun _ h2 => ?_
    split
    · exact .cseq (.cany _) fun _ _ => .cret (typed_binary h1 h2)
    · exact .cret (typed_binary h1 h2)
  | .neg _ e1, o => by
    simp only [Expression.typecheck]
    refine .cseq (Expression.typecheck_typed Γ e1 o) fun _ h1 => ?_
    split
    · exact .cseq (.cany _) fun _ _ => .cret (typed_unary h1)
    · exact .cret (typed_unary h1)
  | .lt _ e1 e2, o => by
    simp only [Expression.typecheck]
    refine .cseq (Expression.typecheck_typed Γ e1 o) fun _ h1 =>
      .cseq (Expression.typecheck_typed Γ e2 _) fun _ h2 => ?_
    split
    · exact .cseq (.cany _) fun _ _ => .cret (typed_binary h1 h2)
    · exact .cret (typed_binary h1 h2)
  | .eq _ e1 e2, o => by
    simp only [Expression.typecheck]
    exact .cseq (Expression.typecheck_typed Γ e1 o) fun _ h1 =>
      .cseq (Expression.typecheck_typed Γ e2 _) fun _ h2 =>
      .cseq (.cany _) fun _ _ => .cret (typed_binary h1 h2)
  | .leq _ e1 e2, o => by
    simp only [Expression.typecheck]
    exact .cseq (Expression.typecheck_typed Γ e1 o) fun _ h1 =>
      .cseq (Expression.typecheck_typed Γ e2 _) fun _ h2 =>
      .cseq (.cany _) fun _ _ => .cret (typed_binary h1 h2)
  | .comp _ e1, o => by
    simp only [Expression.typecheck]
    exact .cseq (Expression.typecheck_typed Γ e1 o) fun _ h1 =>
      .cseq (.cany _) fun _ _ => .cret (typed_unary h1)

theorem typecheck_actuals_typed (Γ : Context) (name : Symbol) (formals : List Formal) :
    ∀ (actual : List Expression) (i : Nat) (o : SymbolTable),
      Checked.Clean (fun r => typed_list r.2.2.1 = true)
        (typecheck_actuals Γ name formals actual i o)
  | [], i, o => by simp only [typecheck_actuals]; exact .cret rfl
  | a :: rest, i, o => by
    simp only [typecheck_actuals]
    refine .cseq (Expression.typecheck_typed Γ a o) fun _ h1 => ?_
    split
    · exact .cseq (.cany _) fun _ _ => .cseq (.cany _) fun _ _ =>
        .cseq (typecheck_actuals_typed Γ name formals rest _ _) fun _ h2 =>
          .cret (typed_cons h1 h2)
    · exact .cseq (typecheck_actuals_typed Γ name formals rest _ _) fun _ h2 =>
        .cret (typed_cons h1 h2)

theorem typecheck_block_typed (Γ : Context) :
    ∀ (body : List Expression) (t : Symbol) (o : SymbolTable),
      Checked.Clean (fun r => typed_list r.2.1 = true) (typecheck_block Γ body t o)
  | [], t, o => by simp only [typecheck_block]; exact .cret rfl
  | e :: rest, t, o => by
    simp only [typecheck_block]
    exact .cseq (Expression.typecheck_typed Γ e o) fun _ h1 =>
      .cseq (typecheck_block_typed Γ rest _ _) fun _ h2 => .cret (typed_cons h1 h2)

theorem typecheck_cases_typed (Γ : Context) :
    ∀ (cases : List (Symbol × Symbol × Expression)) (used : List Symbol) (prev : Symbol)
      (o : SymbolTable),
      Checked.Clean (fun r => typed_cases r.2.1 = true) (typecheck_cases Γ cases used prev o)
  | [], used, prev, o => by simp only [typecheck_cases]; exact .cret rfl
  | (c_name, c_type, c_expr) :: rest, used, prev, o => by
    simp only [typecheck_cases]
    split
    · exact .cseq (.cerr _) fun _ h => h.elim
    · exact .cseq (.cany _) fun _ _ =>
        .cseq (Expression.typecheck_typed Γ c_expr _) fun _ h2 =>
        .cseq (.cany _) fun _ _ =>
        .cseq (.cany _) fun _ _ =>
        .cseq (typecheck_cases_typed Γ rest _ _ _) fun _ h5 => .cret (typed_cons h2 h5)

end

/-! ## The check changes nothing but the slots -/

mutual

/-- A rule of expressions that returns hands back the tree it was given, up to
the slots. -/
theorem Expression.typecheck_strip (Γ : Context) :
    ∀ (e : Expression) (o : SymbolTable),
      Checked.Ok (fun r => r.2.1.strip = e.strip) (Expression.typecheck Γ e o)
  | .int_const _ _, o => by simp only [Expression.typecheck]; exact .ret rfl
  | .string_const _ _, o => by simp only [Expression.typecheck]; exact .ret rfl
  | .bool_const _ _, o => by simp only [Expression.typecheck]; exact .ret rfl
  | .no_expr _, o => by simp only [Expression.typecheck]; exact .ret rfl
  | .new_ _ t, o => by
    simp only [Expression.typecheck]
    split
    · exact .seq (.trivial _) fun _ _ => .ret rfl
    · exact .ret rfl
  | .object _ name, o => by
    simp only [Expression.typecheck]
    split
    · exact .seq (.trivial _) fun _ _ => .ret rfl
    · exact .ret rfl
  | .isvoid _ e1, o => by
    simp only [Expression.typecheck]
    exact .seq (Expression.typecheck_strip Γ e1 o) fun _ h1 =>
      .ret (by simp only [Expression.strip, h1])
  | .assign _ name expr, o => by
    simp only [Expression.typecheck]
    split
    · exact .seq (.trivial _) fun _ _ => .ret (by simp only [Expression.strip])
    · split
      · exact .seq (.trivial _) fun _ _ => .ret (by simp only [Expression.strip])
      · refine .seq (Expression.typecheck_strip Γ expr o) fun _ h1 =>
          .seq (.trivial _) fun _ _ => ?_
        split
        · exact .seq (.trivial _) fun _ _ => .ret (by simp only [Expression.strip, h1])
        · exact .ret (by simp only [Expression.strip, h1])
  | .static_dispatch _ expr t name actual, o => by
    simp only [Expression.typecheck]
    refine .seq (Expression.typecheck_strip Γ expr o) fun r1 h1 =>
      .seq (.trivial _) fun _ _ => .seq (.trivial _) fun _ _ =>
      .seq (.trivial _) fun _ _ => ?_
    split
    · exact .seq (.trivial _) fun _ _ => .ret (by simp only [Expression.strip, h1])
    · exact .seq (typecheck_actuals_strip Γ _ _ actual _ _) fun _ h2 =>
        .seq (.trivial _) fun _ _ => .ret (by simp only [Expression.strip, h1, h2])
  | .dispatch _ expr name actual, o => by
    simp only [Expression.typecheck]
    refine .seq (Expression.typecheck_strip Γ expr o) fun r1 h1 =>
      .seq (.trivial _) fun _ _ => ?_
    split
    · exact .seq (.trivial _) fun _ _ => .ret (by simp only [Expression.strip, h1])
    · exact .seq (typecheck_actuals_strip Γ _ _ actual _ _) fun _ h2 =>
        .seq (.trivial _) fun _ _ => .ret (by simp only [Expression.strip, h1, h2])
  | .cond _ pred then_exp else_exp, o => by
    simp only [Expression.typecheck]
    exact .seq (Expression.typecheck_strip Γ pred o) fun _ h1 =>
      .seq (Expression.typecheck_strip Γ then_exp _) fun _ h2 =>
      .seq (Expression.typecheck_strip Γ else_exp _) fun _ h3 =>
      .seq (.trivial _) fun _ _ =>
      .seq (.trivial _) fun _ _ => .ret (by simp only [Expression.strip, h1, h2, h3])
  | .loop _ pred body, o => by
    simp only [Expression.typecheck]
    exact .seq (Expression.typecheck_strip Γ pred o) fun _ h1 =>
      .seq (.trivial _) fun _ _ =>
      .seq (Expression.typecheck_strip Γ body _) fun _ h2 =>
        .ret (by simp only [Expression.strip, h1, h2])
  | .typcase _ expr (c_name, c_type, c_expr) cases, o => by
    simp only [Expression.typecheck]
    exact .seq (Expression.typecheck_strip Γ expr o) fun _ h1 =>
      .seq (.trivial _) fun _ _ =>
      .seq (Expression.typecheck_strip Γ c_expr _) fun _ h3 =>
      .seq (.trivial _) fun _ _ =>
      .seq (typecheck_cases_strip Γ cases _ _ _) fun _ h5 =>
        .ret (by simp only [Expression.strip, h1, h3, h5])
  | .block _ body0 body, o => by
    simp only [Expression.typecheck]
    exact .seq (Expression.typecheck_strip Γ body0 o) fun _ h1 =>
      .seq (typecheck_block_strip Γ body _ _) fun _ h2 =>
        .ret (by simp only [Expression.strip, h1, h2])
  | .let_ _ identifier t0 init body, o => by
    simp only [Expression.typecheck]
    exact .seq (Expression.typecheck_strip Γ init o) fun _ h1 =>
      .seq (.trivial _) fun _ _ =>
      .seq (.trivial _) fun _ _ =>
      .seq (Expression.typecheck_strip Γ body _) fun _ h3 =>
      .seq (.trivial _) fun _ _ => .ret (by simp only [Expression.strip, h1, h3])
  | .plus _ e1 e2, o => by
    simp only [Expression.typecheck]
    refine .seq (Expression.typecheck_strip Γ e1 o) fun _ h1 =>
      .seq (Expression.typecheck_strip Γ e2 _) fun _ h2 => ?_
    split
    · exact .seq (.trivial _) fun _ _ => .ret (by simp only [Expression.strip, h1, h2])
    · exact .ret (by simp only [Expression.strip, h1, h2])
  | .sub _ e1 e2, o => by
    simp only [Expression.typecheck]
    refine .seq (Expression.typecheck_strip Γ e1 o) fun _ h1 =>
      .seq (Expression.typecheck_strip Γ e2 _) fun _ h2 => ?_
    split
    · exact .seq (.trivial _) fun _ _ => .ret (by simp only [Expression.strip, h1, h2])
    · exact .ret (by simp only [Expression.strip, h1, h2])
  | .mul _ e1 e2, o => by
    simp only [Expression.typecheck]
    refine .seq (Expression.typecheck_strip Γ e1 o) fun _ h1 =>
      .seq (Expression.typecheck_strip Γ e2 _) fun _ h2 => ?_
    split
    · exact .seq (.trivial _) fun _ _ => .ret (by simp only [Expression.strip, h1, h2])
    · exact .ret (by simp only [Expression.strip, h1, h2])
  | .divide _ e1 e2, o => by
    simp only [Expression.typecheck]
    refine .seq (Expression.typecheck_strip Γ e1 o) fun _ h1 =>
      .seq (Expression.typecheck_strip Γ e2 _) fun _ h2 => ?_
    split
    · exact .seq (.trivial _) fun _ _ => .ret (by simp only [Expression.strip, h1, h2])
    · exact .ret (by simp only [Expression.strip, h1, h2])
  | .neg _ e1, o => by
    simp only [Expression.typecheck]
    refine .seq (Expression.typecheck_strip Γ e1 o) fun _ h1 => ?_
    split
    · exact .seq (.trivial _) fun _ _ => .ret (by simp only [Expression.strip, h1])
    · exact .ret (by simp only [Expression.strip, h1])
  | .lt _ e1 e2, o => by
    simp only [Expression.typecheck]
    refine .seq (Expression.typecheck_strip Γ e1 o) fun _ h1 =>
      .seq (Expression.typecheck_strip Γ e2 _) fun _ h2 => ?_
    split
    · exact .seq (.trivial _) fun _ _ => .ret (by simp only [Expression.strip, h1, h2])
    · exact .ret (by simp only [Expression.strip, h1, h2])
  | .eq _ e1 e2, o => by
    simp only [Expression.typecheck]
    exact .seq (Expression.typecheck_strip Γ e1 o) fun _ h1 =>
      .seq (Expression.typecheck_strip Γ e2 _) fun _ h2 =>
      .seq (.trivial _) fun _ _ => .ret (by simp only [Expression.strip, h1, h2])
  | .leq _ e1 e2, o => by
    simp only [Expression.typecheck]
    exact .seq (Expression.typecheck_strip Γ e1 o) fun _ h1 =>
      .seq (Expression.typecheck_strip Γ e2 _) fun _ h2 =>
      .seq (.trivial _) fun _ _ => .ret (by simp only [Expression.strip, h1, h2])
  | .comp _ e1, o => by
    simp only [Expression.typecheck]
    exact .seq (Expression.typecheck_strip Γ e1 o) fun _ h1 =>
      .seq (.trivial _) fun _ _ => .ret (by simp only [Expression.strip, h1])

theorem typecheck_actuals_strip (Γ : Context) (name : Symbol) (formals : List Formal) :
    ∀ (actual : List Expression) (i : Nat) (o : SymbolTable),
      Checked.Ok (fun r => strip_list r.2.2.1 = strip_list actual)
        (typecheck_actuals Γ name formals actual i o)
  | [], i, o => by simp only [typecheck_actuals]; exact .ret rfl
  | a :: rest, i, o => by
    simp only [typecheck_actuals]
    refine .seq (Expression.typecheck_strip Γ a o) fun _ h1 => ?_
    split
    · exact .seq (.trivial _) fun _ _ => .seq (.trivial _) fun _ _ =>
        .seq (typecheck_actuals_strip Γ name formals rest _ _) fun _ h2 =>
          .ret (by simp only [strip_list, h1, h2])
    · exact .seq (typecheck_actuals_strip Γ name formals rest _ _) fun _ h2 =>
        .ret (by simp only [strip_list, h1, h2])

theorem typecheck_block_strip (Γ : Context) :
    ∀ (body : List Expression) (t : Symbol) (o : SymbolTable),
      Checked.Ok (fun r => strip_list r.2.1 = strip_list body) (typecheck_block Γ body t o)
  | [], t, o => by simp only [typecheck_block]; exact .ret rfl
  | e :: rest, t, o => by
    simp only [typecheck_block]
    exact .seq (Expression.typecheck_strip Γ e o) fun _ h1 =>
      .seq (typecheck_block_strip Γ rest _ _) fun _ h2 =>
        .ret (by simp only [strip_list, h1, h2])

theorem typecheck_cases_strip (Γ : Context) :
    ∀ (cases : List (Symbol × Symbol × Expression)) (used : List Symbol) (prev : Symbol)
      (o : SymbolTable),
      Checked.Ok (fun r => strip_cases r.2.1 = strip_cases cases)
        (typecheck_cases Γ cases used prev o)
  | [], used, prev, o => by simp only [typecheck_cases]; exact .ret rfl
  | (c_name, c_type, c_expr) :: rest, used, prev, o => by
    simp only [typecheck_cases]
    split
    · exact .seq (.trivial _) fun _ _ => .ret rfl
    · exact .seq (.trivial _) fun _ _ =>
        .seq (Expression.typecheck_strip Γ c_expr _) fun _ h2 =>
        .seq (.trivial _) fun _ _ =>
        .seq (.trivial _) fun _ _ =>
        .seq (typecheck_cases_strip Γ rest _ _ _) fun _ h5 =>
          .ret (by simp only [strip_cases, h2, h5])

end

/-! ## Features, classes and the program -/

theorem attr_class.attr_typed (Γ : Context) (a : attr_class) (o : SymbolTable) :
    Checked.Clean (fun r => r.2.1.init.typed = true) (attr_class.typecheck Γ a o) := by
  unfold attr_class.typecheck
  split
  · exact .cseq (.cerr _) fun _ h => h.elim
  · exact .cseq (Expression.typecheck_typed Γ _ _) fun _ h1 =>
      .cseq (.cany _) fun _ _ => .cret h1

theorem attr_class.attr_strip (Γ : Context) (a : attr_class) (o : SymbolTable) :
    Checked.Ok (fun r => Feature.strip (.attr r.2.1) = Feature.strip (.attr a))
      (attr_class.typecheck Γ a o) := by
  unfold attr_class.typecheck
  split
  · exact .seq (.trivial _) fun _ _ => .ret rfl
  · exact .seq (Expression.typecheck_strip Γ _ _) fun _ h1 =>
      .seq (.trivial _) fun _ _ => .ret (by simp only [Feature.strip, h1])

theorem method_class.method_typed (Γ : Context) (this : MethodPtr) (o : SymbolTable) :
    Checked.Clean (fun r => r.2.1.expr.typed = true) (method_class.typecheck Γ this o) := by
  unfold method_class.typecheck
  exact .cseq (.cany _) fun _ _ =>
    .cseq (.cany _) fun _ _ =>
    .cseq (.cany _) fun _ _ =>
    .cseq (.cany _) fun _ _ =>
    .cseq (.cany _) fun _ _ =>
    .cseq (Expression.typecheck_typed Γ _ _) fun _ h3 =>
    .cseq (.cany _) fun _ _ =>
    .cseq (.cany _) fun _ _ =>
    .cseq (.cany _) fun _ _ => .cret h3

theorem method_class.method_strip (Γ : Context) (this : MethodPtr) (o : SymbolTable) :
    Checked.Ok (fun r => Feature.strip (.method r.2.1) = Feature.strip (.method this.2))
      (method_class.typecheck Γ this o) := by
  unfold method_class.typecheck
  exact .seq (.trivial _) fun _ _ =>
    .seq (.trivial _) fun _ _ =>
    .seq (.trivial _) fun _ _ =>
    .seq (.trivial _) fun _ _ =>
    .seq (.trivial _) fun _ _ =>
    .seq (Expression.typecheck_strip Γ _ _) fun _ h3 =>
    .seq (.trivial _) fun _ _ =>
    .seq (.trivial _) fun _ _ =>
    .seq (.trivial _) fun _ _ => .ret (by simp only [Feature.strip, h3])

theorem Feature.feature_typed (Γ : Context) (i : Nat) :
    ∀ (f : Feature) (o : SymbolTable),
      Checked.Clean (fun r => r.1.typed = true) (Feature.typecheck Γ i f o)
  | .attr a, o => by
    simp only [Feature.typecheck]
    exact .cseq (attr_class.attr_typed Γ a o) fun _ h => .cret h
  | .method m, o => by
    simp only [Feature.typecheck]
    exact .cseq (method_class.method_typed Γ (i, m) o) fun _ h => .cret h

theorem Feature.feature_strip (Γ : Context) (i : Nat) :
    ∀ (f : Feature) (o : SymbolTable),
      Checked.Ok (fun r => r.1.strip = f.strip) (Feature.typecheck Γ i f o)
  | .attr a, o => by
    simp only [Feature.typecheck]
    exact .seq (attr_class.attr_strip Γ a o) fun _ h => .ret h
  | .method m, o => by
    simp only [Feature.typecheck]
    exact .seq (method_class.method_strip Γ (i, m) o) fun _ h => .ret h

theorem check_features_typed (Γ : Context) :
    ∀ (fs : List Feature) (i : Nat) (o : SymbolTable),
      Checked.Clean (fun r => ∀ f ∈ r.1, f.typed = true) (check_features Γ fs i o)
  | [], i, o => by
    simp only [check_features]
    exact .cret (fun f hf => by cases hf)
  | f :: fs, i, o => by
    simp only [check_features]
    exact .cseq (Feature.feature_typed Γ i f o) fun _ h1 =>
      .cseq (check_features_typed Γ fs (i + 1) _) fun _ h2 =>
        .cret (fun g hg => by
          rcases List.mem_cons.mp hg with rfl | hg
          · exact h1
          · exact h2 g hg)

theorem check_features_strip (Γ : Context) :
    ∀ (fs : List Feature) (i : Nat) (o : SymbolTable),
      Checked.Ok (fun r => r.1.map Feature.strip = fs.map Feature.strip)
        (check_features Γ fs i o)
  | [], i, o => by
    simp only [check_features]
    exact .ret rfl
  | f :: fs, i, o => by
    simp only [check_features]
    exact .seq (Feature.feature_strip Γ i f o) fun _ h1 =>
      .seq (check_features_strip Γ fs (i + 1) _) fun _ h2 =>
        .ret (by simp only [List.map_cons, h1, h2])

theorem class__class.class_typed (cm : ClassMap) (me : MethodEnv) (fuel : Nat) (cls : Class_) :
    Checked.Clean (fun c => ∀ f ∈ c.features, f.typed = true)
      (class__class.check cm me fuel cls) := by
  unfold class__class.check
  exact .cseq (.cany _) fun _ _ =>
    .cseq (check_features_typed _ _ _ _) fun _ h2 =>
    .cseq (.cany _) fun _ _ => .cret h2

theorem class__class.class_strip (cm : ClassMap) (me : MethodEnv) (fuel : Nat) (cls : Class_) :
    Checked.Ok (fun c => c.strip = cls.strip) (class__class.check cm me fuel cls) := by
  unfold class__class.check
  exact .seq (.trivial _) fun _ _ =>
    .seq (check_features_strip _ _ _ _) fun _ h2 =>
    .seq (.trivial _) fun _ _ => .ret (by simp only [Class_.strip, h2])

theorem program_class.program_typed (cm : ClassMap) (me : MethodEnv) (fuel : Nat) :
    ∀ classes : List Class_,
      Checked.Clean (fun cs => ∀ c ∈ cs, ∀ f ∈ c.features, f.typed = true)
        (program_class.check cm me fuel classes)
  | [] => by
    simp only [program_class.check]
    exact .cret (fun c hc => by cases hc)
  | cls :: rest => by
    simp only [program_class.check]
    exact .cseq (class__class.class_typed cm me fuel cls) fun _ h1 =>
      .cseq (program_class.program_typed cm me fuel rest) fun _ h2 =>
        .cret (fun c hc => by
          rcases List.mem_cons.mp hc with rfl | hc
          · exact h1
          · exact h2 c hc)

theorem program_class.program_strip (cm : ClassMap) (me : MethodEnv) (fuel : Nat) :
    ∀ classes : List Class_,
      Checked.Ok (fun cs => cs.map Class_.strip = classes.map Class_.strip)
        (program_class.check cm me fuel classes)
  | [] => by
    simp only [program_class.check]
    exact .ret rfl
  | cls :: rest => by
    simp only [program_class.check]
    exact .seq (class__class.class_strip cm me fuel cls) fun _ h1 =>
      .seq (program_class.program_strip cm me fuel rest) fun _ h2 =>
        .ret (by simp only [List.map_cons, h1, h2])

/-- When the check ends: for a program whose class table is built without a
diagnostic and whose check of all classes reports nothing and ends with the classes
`classes'`: the program is accepted with `classes'`; every expression node of
every feature of `classes'` has its slot written; and `classes'` are the
classes of the program, up to the slots. -/
theorem program_class.slots_written_of_check_ok (fuel : Nat)
    (classes classes' : List Class_) (cm : ClassMap)
    (hv : ClassTable fuel classes = some (cm, []))
    (he : (program_class.check cm (build_method_env cm) fuel classes).errors = [])
    (ho : (program_class.check cm (build_method_env cm) fuel classes).outcome = .ok classes') :
    (program_class.semant fuel classes).errors = [] ∧
    (program_class.semant fuel classes).outcome = .ok (.accepted classes') ∧
    (∀ c ∈ classes', ∀ f ∈ c.features, f.typed = true) ∧
    classes'.map Class_.strip = classes.map Class_.strip := by
  refine ⟨?_, ?_, program_class.program_typed cm _ fuel classes he classes' ho,
    program_class.program_strip cm _ fuel classes classes' ho⟩
  · unfold program_class.semant
    rw [hv]
    simp only [ne_eq, not_true_eq_false, if_false, ho, he]
  · unfold program_class.semant
    rw [hv]
    simp only [ne_eq, not_true_eq_false, if_false, ho, he]

theorem program_class.slots_written_example :
    ClassTable 8 [accepted_Main] = some (Main_only_class_map accepted_Main, []) ∧
    (program_class.semant 8 [accepted_Main]).outcome = .ok (.accepted [accepted_Main_checked]) ∧
    (∀ c ∈ [accepted_Main_checked], ∀ f ∈ c.features, f.typed = true) ∧
    [accepted_Main_checked].map Class_.strip = [accepted_Main].map Class_.strip :=
  ⟨rfl,
    (program_class.slots_written_of_check_ok 8 [accepted_Main] [accepted_Main_checked]
      (Main_only_class_map accepted_Main) rfl rfl rfl).2.1,
    (program_class.slots_written_of_check_ok 8 [accepted_Main] [accepted_Main_checked]
      (Main_only_class_map accepted_Main) rfl rfl rfl).2.2.1,
    (program_class.slots_written_of_check_ok 8 [accepted_Main] [accepted_Main_checked]
      (Main_only_class_map accepted_Main) rfl rfl rfl).2.2.2⟩

/-! ## The type of a `case` is the join of its branches -/

/-- The loop over the branches after the first, on a validated hierarchy: it
returns the fold of `cls_join` over the types of the bodies; when there is a
branch the result is a class of the table above the type so far and above the
type of every body. -/
theorem typecheck_cases_fold (Γ : Context) (H : Hierarchy Γ.cm)
    (hc : class_map_find Γ.cm Γ.c.name = some Γ.c) (hf : Γ.cm.length ≤ Γ.fuel)
    (o : SymbolTable) :
    ∀ (cases : List (Symbol × Symbol × Expression)) (used : List Symbol) (prev : Symbol)
      (ts : List Symbol),
      (∀ c ∈ cases, c.2.1 ∉ used) → (cases.map (fun c => c.2.1)).Nodup →
      BranchTypes Γ o cases ts →
      (prev = SELF_TYPE ∨ ∃ c, class_map_find Γ.cm prev = some c) →
      (∀ x ∈ ts, x = SELF_TYPE ∨ ∃ c, class_map_find Γ.cm x = some c) →
      ∃ (T : Symbol) (cases' : List (Symbol × Symbol × Expression)),
        join_fold Γ prev ts = .ok T ∧
        (typecheck_cases Γ cases used prev o).outcome = .ok (T, cases', o) ∧
        ((T = prev ∧ ts = []) ∨
          ((∃ cT, class_map_find Γ.cm T = some cT) ∧
            Ancestor Γ.cm (if prev = SELF_TYPE then Γ.c.name else prev) T ∧
            ∀ x ∈ ts, Ancestor Γ.cm (if x = SELF_TYPE then Γ.c.name else x) T)) := by
  intro cases
  induction cases with
  | nil =>
    intro used prev ts _ _ hb _ _
    simp only [BranchTypes] at hb
    subst hb
    exact ⟨prev, [], rfl, rfl, Or.inl ⟨rfl, rfl⟩⟩
  | cons c rest ih =>
    intro used prev ts hused hnd hb hprev hts
    obtain ⟨cn, ct, ce⟩ := c
    have hct : ct ∉ used := hused (cn, ct, ce) (List.mem_cons_self _ _)
    simp only [List.map_cons, List.nodup_cons] at hnd
    simp only [BranchTypes] at hb
    obtain ⟨t, e', o', ts', hbody, rfl, hrest⟩ := hb
    have ho' : o' = [(cn, ct)] :: o := Expression.typecheck_table Γ ce _ _ hbody
    subst ho'
    obtain ⟨j, hj, hjt, hjp, _⟩ :=
      H.cls_join_spec Γ.c hc t prev (hts t (List.mem_cons_self _ _)) hprev Γ.fuel hf
    have hjc : ∃ cj, class_map_find Γ.cm j = some cj := by
      obtain ⟨n, hn⟩ := hjt
      exact nth_parent_target Γ.cm n _ j hn
    have hjne : j ≠ SELF_TYPE := by
      intro e
      obtain ⟨cj, hcj⟩ := hjc
      rw [e, H.self_type] at hcj
      cases hcj
    have hused' : ∀ c' ∈ rest, c'.2.1 ∉ used ++ [ct] := by
      intro c' hc' hmem
      rcases List.mem_append.mp hmem with hm | hm
      · exact hused c' (List.mem_cons_of_mem _ hc') hm
      · simp only [List.mem_singleton] at hm
        exact hnd.1 (List.mem_map.mpr ⟨c', hc', hm⟩)
    obtain ⟨T, rest', hfold, hout, hT⟩ := ih (used ++ [ct]) j ts' hused' hnd.2 hrest
      (Or.inr hjc) (fun x hx => hts x (List.mem_cons_of_mem _ hx))
    rw [if_neg hjne] at hT
    have h1 : (Checked.ofTable (addid (enterscope o) cn ct)).outcome =
        .ok ([(cn, ct)] :: o) := rfl
    have h3 : (Checked.ofOutcome (cls_join Γ.cm Γ.fuel t prev Γ.c)).outcome = .ok j := hj
    have h4 : (Checked.ofTable (exitscope ([(cn, ct)] :: o))).outcome = .ok o := rfl
    refine ⟨T, (cn, ct, e') :: rest', ?_, ?_, Or.inr ?_⟩
    · simp only [join_fold, hj]
      exact hfold
    · simp only [typecheck_cases, hct, if_false]
      rw [Checked.bind_outcome_of_ok _ h1, Checked.bind_outcome_of_ok _ hbody,
        Checked.bind_outcome_of_ok _ h3, Checked.bind_outcome_of_ok _ h4,
        Checked.bind_outcome_of_ok _ hout]
      rfl
    · rcases hT with ⟨hTj, hnil⟩ | ⟨hTc, hTj, hTs⟩
      · subst hTj
        refine ⟨hjc, hjp, ?_⟩
        intro x hx
        rcases List.mem_cons.mp hx with rfl | hx'
        · exact hjt
        · rw [hnil] at hx'
          cases hx'
      · refine ⟨hTc, hjp.trans hTj, ?_⟩
        intro x hx
        rcases List.mem_cons.mp hx with rfl | hx'
        · exact hjt.trans hTj
        · exact hTs x hx'

/-- C27: on a validated hierarchy, with fuel for the table, for a `case` whose
branches have pairwise different declared types and whose bodies, each checked
with its branch name bound to its declared type, return types `t`, `ts` that
are `SELF_TYPE` or classes of the table: the check of the `case` returns, with
the table unchanged; its type, returned value and slot, is the fold of
`cls_join` over `t`, `ts` from left to right; and every one of `t`, `ts`
conforms to it by `is_subclass`. -/
theorem C27_case_type (Γ : Context) (hv : Validated Γ.cm)
    (hc : class_map_find Γ.cm Γ.c.name = some Γ.c) (hf : Γ.cm.length ≤ Γ.fuel)
    (sl : Option Symbol) (expr : Expression) (case0 : Symbol × Symbol × Expression)
    (cases : List (Symbol × Symbol × Expression)) (o : SymbolTable) (t0 : Symbol)
    (expr' : Expression) (o1 : SymbolTable)
    (hexpr : (Expression.typecheck Γ expr o).outcome = .ok (t0, expr', o1))
    (hnd : ((case0 :: cases).map (fun c => c.2.1)).Nodup)
    (t : Symbol) (ts : List Symbol) (hb : BranchTypes Γ o (case0 :: cases) (t :: ts))
    (hty : ∀ x ∈ t :: ts, x = SELF_TYPE ∨ ∃ c, class_map_find Γ.cm x = some c) :
    ∃ (T : Symbol) (node : Expression),
      join_fold Γ t ts = .ok T ∧
      (Expression.typecheck Γ (.typcase sl expr case0 cases) o).outcome = .ok (T, node, o) ∧
      node.type = some T ∧
      ∀ x ∈ t :: ts, is_subclass Γ.cm Γ.fuel x T Γ.c = some true := by
  have H := hv.hierarchy
  obtain ⟨cn, ct, ce⟩ := case0
  simp only [BranchTypes] at hb
  obtain ⟨t', e', o', ts', hbody, heq, hrest⟩ := hb
  simp only [List.cons.injEq] at heq
  obtain ⟨rfl, rfl⟩ := heq
  have ho1 : o1 = o := Expression.typecheck_table Γ expr o _ hexpr
  subst ho1
  have ho' : o' = [(cn, ct)] :: o1 := Expression.typecheck_table Γ ce _ _ hbody
  subst ho'
  simp only [List.map_cons, List.nodup_cons] at hnd
  have hused : ∀ c ∈ cases, c.2.1 ∉ [ct] := by
    intro c hcm hmem
    simp only [List.mem_singleton] at hmem
    exact hnd.1 (List.mem_map.mpr ⟨c, hcm, hmem⟩)
  obtain ⟨T, cases', hfold, hout, hT⟩ := typecheck_cases_fold Γ H hc hf o1 cases [ct] t ts
    hused hnd.2 hrest (hty t (List.mem_cons_self _ _))
    (fun x hx => hty x (List.mem_cons_of_mem _ hx))
  have h1 : (Checked.ofTable (addid (enterscope o1) cn ct)).outcome =
      .ok ([(cn, ct)] :: o1) := rfl
  have h4 : (Checked.ofTable (exitscope ([(cn, ct)] :: o1))).outcome = .ok o1 := rfl
  refine ⟨T, .typcase (some T) expr' (cn, ct, e') cases', hfold, ?_, rfl, ?_⟩
  · simp only [Expression.typecheck]
    rw [Checked.bind_outcome_of_ok _ hexpr, Checked.bind_outcome_of_ok _ h1,
      Checked.bind_outcome_of_ok _ hbody, Checked.bind_outcome_of_ok _ h4,
      Checked.bind_outcome_of_ok _ hout]
    rfl
  · intro x hx
    rcases hT with ⟨hTt, hnil⟩ | ⟨⟨cT, hcT⟩, hTt, hTs⟩
    · subst hTt hnil
      simp only [List.mem_singleton] at hx
      subst hx
      rcases hty x (List.mem_cons_self _ _) with hs | ⟨cx, hcx⟩
      · subst hs
        simp [is_subclass]
      · obtain ⟨b, hb, hiff⟩ := H.is_subclass_class x x Γ.c cx hcx Γ.fuel hf
        rw [hb, hiff.mpr (Ancestor.refl hcx)]
    · have hTne : T ≠ SELF_TYPE := by
        intro e
        rw [e, H.self_type] at hcT
        cases hcT
      obtain ⟨b, hb, hiff⟩ := H.is_subclass_resolved x T Γ.c hc (hty x hx) hTne Γ.fuel hf
      have hanc : Ancestor Γ.cm (if x = SELF_TYPE then Γ.c.name else x) T := by
        rcases List.mem_cons.mp hx with rfl | hx'
        · exact hTt
        · exact hTs x hx'
      rw [hb, hiff.mpr hanc]

theorem BranchTypes.done (Γ : Context) (o : SymbolTable) : BranchTypes Γ o [] [] := by
  simp only [BranchTypes]

theorem BranchTypes.branch {Γ : Context} {o : SymbolTable} {n T : Symbol} {e : Expression}
    {rest : List (Symbol × Symbol × Expression)} {t : Symbol} {ts : List Symbol}
    (e' : Expression) (o' : SymbolTable)
    (h : (Expression.typecheck Γ e ([(n, T)] :: o)).outcome = .ok (t, e', o'))
    (hrest : BranchTypes Γ o rest ts) : BranchTypes Γ o ((n, T, e) :: rest) (t :: ts) := by
  simp only [BranchTypes]
  exact ⟨t, e', o', ts, h, rfl, hrest⟩

theorem C27_case_type_witness :
    join_fold scenario_context "A" ["B", Int_] = .ok Object ∧
    ∃ node : Expression,
      (Expression.typecheck scenario_context
        (.typcase none (.int_const none "1") ("x", "A", .new_ none "A")
          [("y", "B", .new_ none "B"), ("z", Int_, .int_const none "1")]) [[]]).outcome =
        .ok (Object, node, [[]]) ∧
      node.type = some Object ∧
      ∀ x ∈ ["A", "B", Int_],
        is_subclass scenario_context.cm scenario_context.fuel x Object scenario_context.c =
          some true := by
  obtain ⟨T, node, hfold, hout, hslot, hsub⟩ :=
    C27_case_type scenario_context scenario_validated rfl (by decide) none
      (.int_const none "1") ("x", "A", .new_ none "A")
      [("y", "B", .new_ none "B"), ("z", Int_, .int_const none "1")] [[]] Int_
      (.int_const (some Int_) "1") [[]] rfl (by decide) "A" ["B", Int_]
      (BranchTypes.branch (.new_ (some "A") "A") [[("x", "A")], []] rfl
        (BranchTypes.branch (.new_ (some "B") "B") [[("y", "B")], []] rfl
          (BranchTypes.branch (.int_const (some Int_) "1") [[("z", Int_)], []] rfl
            (BranchTypes.done _ _))))
      (by
        intro x hx
        simp only [List.mem_cons, List.mem_singleton, List.not_mem_nil, or_false] at hx
        rcases hx with rfl | rfl | rfl
        · exact Or.inr ⟨_, rfl⟩
        · exact Or.inr ⟨_, rfl⟩
        · exact Or.inr ⟨_, rfl⟩)
  have e : join_fold scenario_context "A" ["B", Int_] = .ok Object := rfl
  rw [e] at hfold
  have hT : T = Object := (Outcome.ok.inj hfold).symm
  subst hT
  exact ⟨e, node, hout, hslot, hsub⟩

/-- C23 (the code at the failing input): the program
`class Main { a : Undefined; main() : Object { if true then a else 0 fi }; }`
passes the construction of the class table without a diagnostic and its check
reports nothing, yet the check does not end: the initial environment binds `a`
to `Undefined`, the rule of the attribute tests nothing, and the conditional
of `main` joins `Undefined`, which is no key of `class_map`, in the table with
which the body is checked.  The slot of that conditional is never written and
the program is not accepted. -/
theorem C23_check_crashes_without_error :
    ClassTable 8 [undefattr_Main] = some (Main_only_class_map undefattr_Main, []) ∧
    (build_initial_obj_env ⟨Main_only_class_map undefattr_Main,
        build_method_env (Main_only_class_map undefattr_Main), 8, undefattr_Main⟩
        (enterscope [])) = ⟨[], .ok [[(self, SELF_TYPE), ("a", "Undefined")]]⟩ ∧
    (program_class.check (Main_only_class_map undefattr_Main)
        (build_method_env (Main_only_class_map undefattr_Main)) 8 [undefattr_Main]).errors = [] ∧
    (program_class.check (Main_only_class_map undefattr_Main)
        (build_method_env (Main_only_class_map undefattr_Main)) 8 [undefattr_Main]).outcome =
      .crash ∧
    (Expression.typecheck ⟨Main_only_class_map undefattr_Main,
        build_method_env (Main_only_class_map undefattr_Main), 8, undefattr_Main⟩
        (.cond none (.bool_const none true) (.object none "a") (.int_const none "0"))
        [[(self, SELF_TYPE)], [(self, SELF_TYPE), ("a", "Undefined")]]) = ⟨[], .crash⟩ ∧
    (program_class.semant 8 [undefattr_Main]).errors = [] ∧
    (program_class.semant 8 [undefattr_Main]).outcome = .crash :=
  ⟨rfl, rfl, rfl, rfl, rfl, rfl, rfl⟩

end Cool
